import Mathlib

/-!
# ionWaterShellAnalysis: residence times of water oxygens in an ion's first shell

A shallow embedding of `main.go` and a verification of its residence tracker
and histogram binner.

Modelling conventions

* Go `int` values (frame counters, atom identifiers, bin counts) are modelled by
  `Int`.  The frame counter is bounded by the number of input lines, so the
  64-bit wrap-around of the machine type is never reached by it.  A bin count
  is incremented in a bin the caller supplies, with whatever count it holds, so
  `bins[i].count++` is modelled with its wrap-around (`wrapInt64`).
* Go `float64` is modelled by `F64`: NaN, the two infinities, and the finite
  values given by their exact rational value.  Every arithmetic operation
  computes the exact rational result and rounds it to the nearest binary64
  value, ties to even, as IEEE-754 prescribes; operations are rounded one by
  one, a multiplication and an addition are never fused.  The two zeros are
  identified; the program never divides by a zero and never prints the sign
  of a zero in the parts modelled here.  An arithmetic expression of float64
  operands in a property is read as the float64 expression the program would
  evaluate.
* Go maps are modelled by association lists with at most one entry per key.
* The standard-library functions `strconv.ParseFloat`, `math.Sqrt` and
  `math.Pow` are parameters of the embedding (`FloatLib`).  `strconv.Atoi` is
  modelled after its source; `strconv.ParseFloat` is modelled as well
  (`strconvParseFloat`, grammar after its source, conversion by its contract)
  for the properties of `line2atom` that depend on what it returns.
* Writes to the log file are not modelled; of standard output only the choice
  between the two messages of `doStatistics` is.
-/

namespace IonShell

/-! ## float64 -/

/-- A binary64 value: NaN, an infinity with its sign, or a finite value given
by its exact rational value. -/
inductive F64 where
  | nan : F64
  | inf (neg : Bool) : F64
  | fin (q : ℚ) : F64
  deriving DecidableEq

namespace F64

/-- The rational `2 ^ e` for an integer exponent. -/
def pow2 (e : ℤ) : ℚ :=
  if 0 ≤ e then ((2 ^ e.toNat : ℕ) : ℚ) else 1 / ((2 ^ (-e).toNat : ℕ) : ℚ)

/-- Binary logarithm of a natural number, rounded down, by repeated halving. -/
def log2Fuel : ℕ → ℕ → ℕ
  | 0, _ => 0
  | fuel + 1, n => if n < 2 then 0 else log2Fuel fuel (n / 2) + 1

/-- Position of the leading bit of `n` (0 for `n = 0`). -/
def natLog2 (n : ℕ) : ℕ := log2Fuel n n

/-- The integer `k` with `2 ^ k ≤ q < 2 ^ (k + 1)`, for a positive rational. -/
def ilog2 (q : ℚ) : ℤ :=
  let k : ℤ := (natLog2 q.num.toNat : ℤ) - (natLog2 q.den : ℤ)
  if pow2 k ≤ q then k else k - 1

/-- Round a rational to the nearest integer, ties to the even one. -/
def rne (s : ℚ) : ℤ :=
  let f := ⌊s⌋
  let r := s - f
  if r < 1 / 2 then f
  else if 1 / 2 < r then f + 1
  else if f % 2 = 0 then f
  else f + 1

/-- Exponent of the unit in the last place of the binade of a positive
rational: 52 below the leading bit, and never below the subnormal spacing
`2 ^ (-1074)`. -/
def ulpExp (a : ℚ) : ℤ := max (ilog2 a) (-1022) - 52

/-- Round a positive rational to the binary64 grid (53-bit significand,
minimum exponent -1074), with unbounded exponent upwards. -/
def roundAbs (a : ℚ) : ℚ := (rne (a / pow2 (ulpExp a)) : ℚ) * pow2 (ulpExp a)

/-- Round an exact rational result to binary64, round-to-nearest-even;
results of magnitude `2 ^ 1024` or more become infinite. -/
def round (q : ℚ) : F64 :=
  if q = 0 then fin 0
  else if pow2 1024 ≤ roundAbs |q| then inf (decide (q < 0))
  else fin (if q < 0 then -(roundAbs |q|) else roundAbs |q|)

/-- Go conversion `float64(i)` of an integer. -/
def ofInt (i : ℤ) : F64 := round (i : ℚ)

/-- Unary minus. -/
def neg : F64 → F64
  | nan => nan
  | inf n => inf (!n)
  | fin q => fin (-q)

/-- Go `x + y` on float64. -/
def add : F64 → F64 → F64
  | fin a, fin b => round (a + b)
  | fin _, inf n => inf n
  | inf n, fin _ => inf n
  | inf n, inf m => if n = m then inf n else nan
  | _, _ => nan

/-- Go `x - y` on float64. -/
def sub (x y : F64) : F64 := add x (neg y)

/-- Go `x * y` on float64. -/
def mul : F64 → F64 → F64
  | fin a, fin b => round (a * b)
  | fin a, inf n => if a = 0 then nan else inf (xor (decide (a < 0)) n)
  | inf n, fin b => if b = 0 then nan else inf (xor n (decide (b < 0)))
  | inf n, inf m => inf (xor n m)
  | _, _ => nan

/-- Go `x / y` on float64 (a zero divisor is taken as positive zero). -/
def div : F64 → F64 → F64
  | fin a, fin b =>
    if b = 0 then (if a = 0 then nan else inf (decide (a < 0))) else round (a / b)
  | fin _, inf _ => fin 0
  | inf n, fin b => inf (xor n (decide (b < 0)))
  | _, _ => nan

/-- Go `x < y` on float64: false whenever an operand is NaN. -/
def lt : F64 → F64 → Bool
  | fin a, fin b => decide (a < b)
  | fin _, inf n => !n
  | inf n, fin _ => n
  | inf n, inf m => n && !m
  | _, _ => false

/-- Go `x <= y` on float64: false whenever an operand is NaN. -/
def le : F64 → F64 → Bool
  | fin a, fin b => decide (a ≤ b)
  | fin _, inf n => !n
  | inf n, fin _ => n
  | inf n, inf m => n || !m
  | _, _ => false

/-- Go `x >= y` on float64. -/
def ge (x y : F64) : Bool := le y x

/-- Go `x == y` on float64: NaN is equal to nothing, itself included. -/
def eq : F64 → F64 → Bool
  | fin a, fin b => decide (a = b)
  | inf n, inf m => n == m
  | _, _ => false

/-- The float64 zero value. -/
def zero : F64 := fin 0

end F64

/-! ## Package-level variables -/

/-- Go `var shellDist = 3.6`. -/
def shellDist : F64 := F64.round 3.6

/-- Go `var frameTime = 2e-12`. -/
def frameTime : F64 := F64.round 2e-12

/-- Go `var binWidth = 6e-12`. -/
def binWidth : F64 := F64.round 6e-12

/-! ## Data model -/

/-- Go `type residence struct`. -/
structure residence where
  atomID : Int
  firstFrame : Int
  lastFrame : Int
  residenceTime : F64
  deriving DecidableEq

/-- Go `type bin struct`. -/
structure bin where
  binTop : F64
  binBottom : F64
  binCenter : F64
  count : Int
  deriving DecidableEq

/-- Go `type atom struct`. -/
structure atom where
  element : String
  x : F64
  y : F64
  z : F64
  atomType : String
  id : Int
  deriving DecidableEq

/-- The zero value of `residence` (Go `var newResidence residence`, and the
result of reading a missing map key). -/
def zeroResidence : residence :=
  { atomID := 0, firstFrame := 0, lastFrame := 0, residenceTime := F64.zero }

/-- The float functions of the Go standard library used by the program. -/
structure FloatLib where
  /-- Value returned by `strconv.ParseFloat(s, 64)`, the error being discarded. -/
  parseFloat : String → F64
  /-- Go `math.Sqrt`. -/
  sqrt : F64 → F64
  /-- Go `math.Pow`. -/
  pow : F64 → F64 → F64

/-! ## Go maps keyed by `int` -/

/-- Go `delete(m, k)`. -/
def mapDelete {α : Type} (m : List (Int × α)) (k : Int) : List (Int × α) :=
  m.filter (fun p => p.1 != k)

/-- Go `m[k] = v`. -/
def mapSet {α : Type} (m : List (Int × α)) (k : Int) (v : α) : List (Int × α) :=
  (k, v) :: mapDelete m k

/-- Go `v, ok := m[k]`. -/
def mapLookup {α : Type} (m : List (Int × α)) (k : Int) : Option α :=
  (m.find? (fun p => p.1 == k)).map (fun p => p.2)

/-! ## Set difference on identifier lists (`main.go` lines 181-208) -/

/-- Go `contains`. -/
def contains : List Int → Int → Bool
  | [], _ => false
  | v :: vs, x => if v == x then true else contains vs x

/-- Go `enteringAtoms`. -/
def enteringAtoms (lastShell currentShell : List Int) : List Int :=
  currentShell.foldl
    (fun acc atomID => if !contains lastShell atomID then acc ++ [atomID] else acc) []

/-- Go `leavingAtoms`. -/
def leavingAtoms (lastShell currentShell : List Int) : List Int :=
  lastShell.foldl
    (fun acc atomID => if !contains currentShell atomID then acc ++ [atomID] else acc) []

/-! ## Histogram (`main.go` lines 47-89) -/

/-- Body of the loop of `generateBins` for index `i`. -/
def newBin (i : Int) : bin :=
  let binBottom := F64.mul (F64.ofInt i) binWidth
  { binBottom := binBottom
    binCenter := F64.add binBottom (F64.div binWidth (F64.round 2.0))
    binTop := F64.add binBottom binWidth
    count := 0 }

/-- Go `generateBins`; `none` is the run-time panic of `make` on a negative
length. -/
def generateBins (frameCount : Int) : Option (List bin) :=
  if frameCount < 0 then none
  else some ((List.range frameCount.toNat).map (fun (i : Nat) => newBin (i : Int)))

/-- The value of an integer result in the 64-bit two's complement `int` of
Go: arithmetic on `int` wraps around without a run-time panic. -/
def wrapInt64 (x : Int) : Int := (x + 2 ^ 63) % 2 ^ 64 - 2 ^ 63

/-- Go `bins[i].count++`. -/
def incrementCount (b : bin) : bin := { b with count := wrapInt64 (b.count + 1) }

/-- The inner loop of `doStatistics`: increment the first bin whose top
strictly exceeds `t`, then stop. -/
def countInFirstBin (t : F64) : List bin → List bin
  | [] => []
  | b :: bs =>
    if F64.lt t b.binTop then incrementCount b :: bs
    else b :: countInFirstBin t bs

/-- The mean computed by `doStatistics` when there is at least one residence. -/
def avgResidenceTime (residences : List residence) : F64 :=
  F64.div (residences.foldl (fun acc r => F64.add acc r.residenceTime) F64.zero)
    (F64.ofInt residences.length)

/-- The line `doStatistics` prints on standard output. -/
inductive statisticsMessage where
  | noCompletedResidences : statisticsMessage
  | averageResidenceTime (avg : F64) : statisticsMessage
  deriving DecidableEq

/-- What `doStatistics` prints: the mean is only computed for a non-empty list. -/
def doStatisticsMessage (residences : List residence) : statisticsMessage :=
  if residences.length == 0 then statisticsMessage.noCompletedResidences
  else statisticsMessage.averageResidenceTime (avgResidenceTime residences)

/-- Go `doStatistics`: the returned bins. -/
def doStatistics (residences : List residence) (bins : List bin) : List bin :=
  if residences.length == 0 then bins
  else residences.foldl (fun bs r => countInFirstBin r.residenceTime bs) bins

/-! ## Line parsing (`main.go` lines 111-122, 210-224) -/

/-- Go `unicode.IsSpace`. -/
def isSpace (c : Char) : Bool :=
  let n := c.toNat
  n == 9 || n == 10 || n == 11 || n == 12 || n == 13 || n == 32 || n == 0x85 || n == 0xA0
    || n == 0x1680 || (0x2000 ≤ n && n ≤ 0x200A) || n == 0x2028 || n == 0x2029
    || n == 0x202F || n == 0x205F || n == 0x3000

/-- Worker of `stringsFields`: `cur` is the field being read. -/
def fieldsFrom : List Char → List Char → List String
  | [], cur => if cur.isEmpty then [] else [String.mk cur]
  | c :: cs, cur =>
    if isSpace c then
      (if cur.isEmpty then fieldsFrom cs [] else String.mk cur :: fieldsFrom cs [])
    else fieldsFrom cs (cur ++ [c])

/-- Go `strings.Fields`. -/
def stringsFields (line : String) : List String := fieldsFrom line.data []

/-- Whether `sub` is an initial segment of `cs`. -/
def startsWith : List Char → List Char → Bool
  | _, [] => true
  | [], _ :: _ => false
  | c :: cs, d :: ds => c == d && startsWith cs ds

/-- Whether `sub` occurs in `cs` as a contiguous block. -/
def containsChars : List Char → List Char → Bool
  | [], sub => sub.isEmpty
  | c :: cs, sub => startsWith (c :: cs) sub || containsChars cs sub

/-- Go `strings.Contains`. -/
def stringsContains (line sub : String) : Bool := containsChars line.data sub.data

/-- The box-dimension marker excluded from atom records. -/
def boxMarker : String := "30.000000   30.000000   30.000000"

/-! ## `strconv` (Go standard library) -/

/-- The two errors `strconv` reports: `invalid` is `ErrSyntax`, `outOfRange`
is `ErrRange`. -/
inductive numError where
  | invalid : numError
  | outOfRange : numError
  deriving DecidableEq

/-- The byte is one of `'0'` to `'9'`.  A character outside ASCII is encoded
by bytes of `0x80` and above, none of which is in a class `strconv` tests for,
so the functions below test characters where Go tests bytes. -/
def isDigit (c : Char) : Bool := 48 ≤ c.toNat && c.toNat ≤ 57

/-- The loop of `strconv.ParseUint` for base 10 and 64 bits, `n` being the
`uint64` accumulator: a range error as soon as the digits read so far exceed
`2 ^ 64 - 1`, a syntax error at a byte that is not a digit. -/
def parseUintLoop : List Char → Nat → Nat × Option numError
  | [], n => (n, none)
  | c :: cs, n =>
    if isDigit c then
      if (2 ^ 64 - 1) / 10 + 1 ≤ n then (2 ^ 64 - 1, some numError.outOfRange)
      else
        let n10 := (n * 10) % 2 ^ 64
        let n1 := (n10 + (c.toNat - 48)) % 2 ^ 64
        if n1 < n10 ∨ 2 ^ 64 - 1 < n1 then (2 ^ 64 - 1, some numError.outOfRange)
        else parseUintLoop cs n1
    else (0, some numError.invalid)

/-- Go `strconv.ParseUint(s, 10, 64)`. -/
def strconvParseUint (s : List Char) : Nat × Option numError :=
  if s.isEmpty then (0, some numError.invalid) else parseUintLoop s 0

/-- The part of `strconv.ParseInt(s, 10, 0)` after the sign, on a 64-bit
platform: `ParseUint`, whose syntax error is passed on and whose value is
fitted to the range of `int64`. -/
def parseIntBody (neg : Bool) (body : List Char) : Int × Option numError :=
  let r := strconvParseUint body
  if r.2 = some numError.invalid then (0, some numError.invalid)
  else if !neg && decide (2 ^ 63 ≤ r.1) then (2 ^ 63 - 1, some numError.outOfRange)
  else if neg && decide (2 ^ 63 < r.1) then (-(2 ^ 63), some numError.outOfRange)
  else (if neg then wrapInt64 (-(wrapInt64 (r.1 : Int))) else wrapInt64 (r.1 : Int), none)

/-- Go `strconv.ParseInt(s, 10, 0)` on a 64-bit platform. -/
def strconvParseInt (s : List Char) : Int × Option numError :=
  match s with
  | [] => (0, some numError.invalid)
  | c :: cs =>
    parseIntBody (c.toNat == 45) (if c.toNat == 45 || c.toNat == 43 then cs else c :: cs)

/-- The loop of the fast path of `strconv.Atoi`, `n` being the `int`
accumulator. -/
def atoiFastLoop : List Char → Int → Option Int
  | [], n => some n
  | c :: cs, n =>
    if isDigit c then atoiFastLoop cs (wrapInt64 (n * 10 + ((c.toNat - 48 : Nat) : Int)))
    else none

/-- The fast path of `strconv.Atoi` after the sign: a syntax error at a byte
that is not a digit, no range check. -/
def atoiFast (neg : Bool) (body : List Char) : Int × Option numError :=
  match atoiFastLoop body 0 with
  | none => (0, some numError.invalid)
  | some n => (if neg then wrapInt64 (-n) else n, none)

/-- Go `strconv.Atoi` on a 64-bit platform, value and error: the fast path for
strings of 1 to 18 bytes, `ParseInt` for the others. -/
def Atoi (s : String) : Int × Option numError :=
  if 0 < s.utf8ByteSize ∧ s.utf8ByteSize < 19 then
    match s.data with
    | [] => (0, some numError.invalid)
    | c :: cs =>
      if (c.toNat == 45 || c.toNat == 43)
          && (if c.toNat == 45 || c.toNat == 43 then cs else c :: cs).isEmpty then
        (0, some numError.invalid)
      else atoiFast (c.toNat == 45) (if c.toNat == 45 || c.toNat == 43 then cs else c :: cs)
  else strconvParseInt s.data

/-- Value returned by Go `strconv.Atoi`, the error being discarded, as
`line2atom` uses it. -/
def strconvAtoi (s : String) : Int := (Atoi s).1

/-- Go `lower(c)` of `strconv`: the byte with bit `0x20` set. -/
def lowerByte (c : Char) : Nat := c.toNat ||| 0x20

/-- Go `commonPrefixLenIgnoreCase(s, pfx)` of `strconv`; `pfx` is in lower
case. -/
def commonPrefixLenIgnoreCase : List Char → List Char → Nat
  | c :: cs, p :: ps =>
    let c1 := if 65 ≤ c.toNat && c.toNat ≤ 90 then c.toNat + 32 else c.toNat
    if c1 == p.toNat then commonPrefixLenIgnoreCase cs ps + 1 else 0
  | _, _ => 0

/-- The case `'i', 'I'` of `special`: an infinity of the given sign, with the
number of bytes read. -/
def specialInf (neg : Bool) (nsign : Nat) (s : List Char) : Option (F64 × Nat) :=
  let n := commonPrefixLenIgnoreCase s "infinity".data
  let n := if 3 < n && n < 8 then 3 else n
  if n == 3 || n == 8 then some (F64.inf neg, nsign + n) else none

/-- Go `special` of `strconv`: the strings `Inf`, `Infinity` (possibly signed)
and `NaN` at the start of `s`, in any case, with the number of bytes read. -/
def special (s : List Char) : Option (F64 × Nat) :=
  match s with
  | [] => none
  | c :: cs =>
    if c.toNat == 43 || c.toNat == 45 then specialInf (c.toNat == 45) 1 cs
    else if c.toNat == 105 || c.toNat == 73 then specialInf false 0 (c :: cs)
    else if c.toNat == 110 || c.toNat == 78 then
      (if commonPrefixLenIgnoreCase (c :: cs) "nan".data == 3 then some (F64.nan, 3) else none)
    else none

/-- The loop of `underscoreOK`; `saw` is the last byte class seen: `0` digit or
base marker, `1` underscore, `2` anything else, `3` start of the number. -/
def underscoreLoop (hex : Bool) : List Char → Nat → Bool
  | [], saw => saw != 1
  | c :: cs, saw =>
    if isDigit c || (hex && 97 ≤ lowerByte c && lowerByte c ≤ 102) then underscoreLoop hex cs 0
    else if c.toNat == 95 then (if saw != 0 then false else underscoreLoop hex cs 1)
    else if saw == 1 then false
    else underscoreLoop hex cs 2

/-- Go `underscoreOK` of `strconv`: underscores only between digits, or
between a base marker and a digit. -/
def underscoreOK (s : List Char) : Bool :=
  let s1 := match s with
    | c :: cs => if c.toNat == 45 || c.toNat == 43 then cs else c :: cs
    | [] => []
  match s1 with
  | c0 :: c1 :: cs =>
    if c0.toNat == 48 && (lowerByte c1 == 98 || lowerByte c1 == 111 || lowerByte c1 == 120) then
      underscoreLoop (lowerByte c1 == 120) cs 0
    else underscoreLoop false s1 3
  | _ => underscoreLoop false s1 3

/-- The variables of the digit loop of `readFloat`.  The mantissa is kept in
full: Go keeps its first 19 digits (16 in base 16), notes whether a non-zero
digit was dropped, and goes back to the dropped digits when they decide the
rounding. -/
structure mantissaState where
  mantissa : Nat
  nd : Int
  dp : Int
  sawdot : Bool
  sawdigits : Bool
  underscores : Bool

/-- The digit loop of `readFloat`: digits, at most one point, underscores;
returns the variables and the input not read. -/
def readMantissa (hex : Bool) : List Char → mantissaState → mantissaState × List Char
  | [], st => (st, [])
  | c :: cs, st =>
    if c.toNat == 95 then readMantissa hex cs { st with underscores := true }
    else if c.toNat == 46 then
      (if st.sawdot then (st, c :: cs)
       else readMantissa hex cs { st with sawdot := true, dp := st.nd })
    else if isDigit c then
      (if c.toNat == 48 && st.nd == 0 then
        readMantissa hex cs { st with sawdigits := true, dp := st.dp - 1 }
       else
        readMantissa hex cs
          { st with sawdigits := true, nd := st.nd + 1
                    mantissa := st.mantissa * (if hex then 16 else 10) + (c.toNat - 48) })
    else if hex && 97 ≤ lowerByte c && lowerByte c ≤ 102 then
      readMantissa hex cs
        { st with sawdigits := true, nd := st.nd + 1
                  mantissa := st.mantissa * 16 + (lowerByte c - 97 + 10) }
    else (st, c :: cs)

/-- The exponent loop of `readFloat`: digits and underscores; the exponent
stops growing once it has reached 10000. -/
def readExponent : List Char → Int → Bool → Int × Bool × List Char
  | [], e, u => (e, u, [])
  | c :: cs, e, u =>
    if c.toNat == 95 then readExponent cs e true
    else if isDigit c then
      readExponent cs (if e < 10000 then e * 10 + ((c.toNat - 48 : Nat) : Int) else e) u
    else (e, u, c :: cs)

/-- What `readFloat` reads: the number is `mantissa * 10 ^ exp`, in base 16
`mantissa * 2 ^ exp`, with the sign `neg`. -/
structure floatParts where
  mantissa : Nat
  exp : Int
  neg : Bool
  hex : Bool

/-- Go `readFloat` of `strconv`: sign, optional `0x`, mantissa, exponent (`e`,
or `p` in base 16, where it is required).  Returns what was read and the input
left over; `none` is `ok == false`. -/
def readFloat (s : List Char) : Option (floatParts × List Char) :=
  let signed : Bool × List Char :=
    match s with
    | c :: cs => if c.toNat == 43 then (false, cs) else if c.toNat == 45 then (true, cs)
                 else (false, c :: cs)
    | [] => (false, [])
  let based : Bool × List Char :=
    match signed.2 with
    | c0 :: c1 :: c2 :: cs =>
      if c0.toNat == 48 && lowerByte c1 == 120 then (true, c2 :: cs) else (false, signed.2)
    | _ => (false, signed.2)
  let hex := based.1
  let read := readMantissa hex based.2
    { mantissa := 0, nd := 0, dp := 0, sawdot := false, sawdigits := false
      underscores := false }
  let st := read.1
  if !st.sawdigits then none
  else
    let dp0 : Int := if st.sawdot then st.dp else st.nd
    let dp1 : Int := if hex then dp0 * 4 else dp0
    let ndMant : Int := if hex then st.nd * 4 else st.nd
    let finish (dp : Int) (underscores : Bool) (rest : List Char) :
        Option (floatParts × List Char) :=
      if underscores && !underscoreOK (s.take (s.length - rest.length)) then none
      else some ({ mantissa := st.mantissa, exp := if st.mantissa != 0 then dp - ndMant else 0
                   neg := signed.1, hex := hex }, rest)
    let noExponent : Option (floatParts × List Char) :=
      if hex then none else finish dp1 st.underscores read.2
    match read.2 with
    | c :: cs =>
      if lowerByte c == (if hex then 112 else 101) then
        match cs with
        | [] => none
        | d :: ds =>
          let esign : Int × List Char :=
            if d.toNat == 43 then (1, ds) else if d.toNat == 45 then (-1, ds) else (1, d :: ds)
          match esign.2 with
          | [] => none
          | f :: fs =>
            if !isDigit f then none
            else
              let ex := readExponent (f :: fs) 0 st.underscores
              finish (dp1 + ex.1 * esign.1) ex.2.1 ex.2.2
      else noExponent
    | [] => noExponent

/-- The rational `10 ^ e` for an integer exponent. -/
def pow10 (e : Int) : ℚ :=
  if 0 ≤ e then ((10 ^ e.toNat : ℕ) : ℚ) else 1 / ((10 ^ (-e).toNat : ℕ) : ℚ)

/-- The conversion `strconv` applies to what `readFloat` read (`atof64exact`,
`eiselLemire64`, the decimal fallback, `atofHex`), by its contract: the nearest
binary64 value, ties to even; past the largest finite value, the infinity of
the sign and a range error. -/
def floatOfParts (p : floatParts) : F64 × Option numError :=
  let q : ℚ := (p.mantissa : ℚ) * (if p.hex then F64.pow2 p.exp else pow10 p.exp)
  match F64.round (if p.neg then -q else q) with
  | F64.inf n => (F64.inf n, some numError.outOfRange)
  | v => (v, none)

/-- Go `strconv.ParseFloat(s, 64)`, value and error. -/
def strconvParseFloat (s : String) : F64 × Option numError :=
  match special s.data with
  | some (val, n) =>
    if n != s.data.length then (F64.zero, some numError.invalid) else (val, none)
  | none =>
    match readFloat s.data with
    | none => (F64.zero, some numError.invalid)
    | some (p, rest) =>
      if !rest.isEmpty then (F64.zero, some numError.invalid) else floatOfParts p

/-- Go `line2atom`; `none` is the index-out-of-range panic on fewer than six
fields. -/
def line2atom (lib : FloatLib) (fields : List String) : Option atom :=
  match fields with
  | f0 :: f1 :: f2 :: f3 :: f4 :: f5 :: _ =>
    some { id := strconvAtoi f0
           element := f1
           x := lib.parseFloat f2
           y := lib.parseFloat f3
           z := lib.parseFloat f4
           atomType := f5 }
  | _ => none

/-- Go `dist2center`. -/
def dist2center (lib : FloatLib) (c : F64 × F64 × F64) (a : atom) : F64 :=
  lib.sqrt
    (F64.add
      (F64.add (lib.pow (F64.sub c.1 a.x) (F64.round 2))
        (lib.pow (F64.sub c.2.1 a.y) (F64.round 2)))
      (lib.pow (F64.sub c.2.2 a.z) (F64.round 2)))

/-! ## The residence tracker (`main.go` lines 91-171) -/

/-- The local variables of `getResidences`. -/
structure scanState where
  atoms : List (Int × atom)
  completedResidences : List residence
  currentResidences : List (Int × residence)
  structureCenter : F64 × F64 × F64
  lastShellOxygens : List Int
  currentShellOxygens : List Int
  frameCount : Int
  oxygenCount : Int

/-- The state of `getResidences` before the first line is read. -/
def initialState : scanState :=
  { atoms := []
    completedResidences := []
    currentResidences := []
    structureCenter := (F64.zero, F64.zero, F64.zero)
    lastShellOxygens := []
    currentShellOxygens := []
    frameCount := 0
    oxygenCount := 0 }

/-- Lines 127-132: open a residence for every entering atom. -/
def openResidences (frameCount : Int) (entering : List Int)
    (currentResidences : List (Int × residence)) : List (Int × residence) :=
  entering.foldl
    (fun m atomID =>
      mapSet m atomID { zeroResidence with atomID := atomID, firstFrame := frameCount })
    currentResidences

/-- Lines 137-139: the record completed for a leaving atom. -/
def completeResidence (frameCount : Int) (currentResidences : List (Int × residence))
    (atomID : Int) : residence :=
  let completedResidence := (mapLookup currentResidences atomID).getD zeroResidence
  let completedResidence := { completedResidence with lastFrame := frameCount }
  { completedResidence with
    residenceTime :=
      F64.mul (F64.ofInt (completedResidence.lastFrame - completedResidence.firstFrame))
        frameTime }

/-- Lines 136-144: complete and remove the residence of every leaving atom. -/
def closeResidences (frameCount : Int) (leaving : List Int)
    (acc : List residence × List (Int × residence)) :
    List residence × List (Int × residence) :=
  leaving.foldl
    (fun acc atomID =>
      (acc.1 ++ [completeResidence frameCount acc.2 atomID], mapDelete acc.2 atomID))
    acc

/-- Lines 123-164: the branch taken on a frame separator. -/
def separatorStep (s : scanState) : scanState :=
  let frameCount := s.frameCount + 1
  let entering := enteringAtoms s.lastShellOxygens s.currentShellOxygens
  let opened := openResidences frameCount entering s.currentResidences
  let leaving := leavingAtoms s.lastShellOxygens s.currentShellOxygens
  let closed := closeResidences frameCount leaving (s.completedResidences, opened)
  { atoms := []
    completedResidences := closed.1
    currentResidences := closed.2
    structureCenter := s.structureCenter
    lastShellOxygens := s.currentShellOxygens
    currentShellOxygens := []
    frameCount := frameCount
    oxygenCount := s.oxygenCount + s.currentShellOxygens.length }

/-- Lines 115-121: the branch taken on an atom record. -/
def atomStep (lib : FloatLib) (s : scanState) (newAtom : atom) : scanState :=
  let s1 : scanState :=
    if newAtom.id == 1 then
      { s with structureCenter := (newAtom.x, newAtom.y, newAtom.z) }
    else if newAtom.element == "O"
        && F64.lt (dist2center lib s.structureCenter newAtom) shellDist then
      { s with currentShellOxygens := s.currentShellOxygens ++ [newAtom.id] }
    else s
  { s1 with atoms := mapSet s1.atoms newAtom.id newAtom }

/-- Whether a line takes the atom-record branch. -/
def isAtomRecord (line : String) : Bool :=
  decide ((stringsFields line).length > 5) && !stringsContains line boxMarker

/-- Whether a line takes the frame-separator branch. -/
def isSeparator (line : String) : Bool :=
  !isAtomRecord line && (stringsFields line).length == 1

/-- Lines 112-166: the body of the scanning loop for one line. -/
def scanLine (lib : FloatLib) (s : scanState) (line : String) : scanState :=
  let fields := stringsFields line
  if decide (fields.length > 5) && !stringsContains line boxMarker then
    match line2atom lib fields with
    | some newAtom => atomStep lib s newAtom
    | none => s
  else if fields.length == 1 then separatorStep s
  else s

/-- The state of `getResidences` when the scanner is exhausted. -/
def scanLines (lib : FloatLib) (s : scanState) (lines : List String) : scanState :=
  lines.foldl (scanLine lib) s

/-- Go `getResidences`, on the lines the scanner yields. -/
def getResidences (lib : FloatLib) (lines : List String) : List residence × Int :=
  let s := scanLines lib initialState lines
  (s.completedResidences, s.frameCount)

/-- The diagnostic `oxygenFloat` printed by `getResidences`. -/
def oxygenFloat (lib : FloatLib) (lines : List String) : F64 :=
  let s := scanLines lib initialState lines
  F64.div (F64.ofInt s.oxygenCount) (F64.ofInt s.frameCount)

/-! ## Observations used by the specification -/

/-- The shell-member list of every completed frame, in order: the value of
`currentShellOxygens` at each frame separator. -/
def shellTrace (lib : FloatLib) : scanState → List String → List (List Int)
  | _, [] => []
  | s, line :: rest =>
    if isSeparator line then s.currentShellOxygens :: shellTrace lib (scanLine lib s line) rest
    else shellTrace lib (scanLine lib s line) rest

/-- The shell-member lists `S_1, ..., S_n` of a run of `getResidences`. -/
def shellLists (lib : FloatLib) (lines : List String) : List (List Int) :=
  shellTrace lib initialState lines

/-- The shell-member list `S_k` of frame `k` (frames are numbered from 1);
empty outside `1..n`. -/
def shellAt (S : List (List Int)) (k : Int) : List Int :=
  if 1 ≤ k then S.getD (k - 1).toNat [] else []

/-- The leave events of frame `k`: the identifiers of `S_(k-1)` not in `S_k`. -/
def leaveEvents (S : List (List Int)) : List (Int × Int) :=
  (List.range S.length).flatMap (fun (i : Nat) =>
    (leavingAtoms (shellAt S (i : Int)) (shellAt S ((i : Int) + 1))).map
      (fun atomID => (atomID, (i : Int) + 1)))

/-- The tracker run directly on a sequence of shell-member lists: each list is
installed as `currentShellOxygens` and the frame-separator branch is taken. -/
def trackShells (s : scanState) : List (List Int) → scanState
  | [] => s
  | cur :: rest => trackShells (separatorStep { s with currentShellOxygens := cur }) rest

/-- Index of the bin at which the scan of `doStatistics` stops for the
residence time `t`: the first bin whose top strictly exceeds `t`, if any. -/
def firstBin (t : F64) : List bin → Option Nat
  | [] => none
  | b :: bs => if F64.lt t b.binTop then some 0 else (firstBin t bs).map (fun j => j + 1)

/-- A record that lies at or above the top of the last bin (any record, when
there is no bin). -/
def overflows (bins : List bin) (r : residence) : Bool :=
  match bins.getLast? with
  | none => true
  | some b => F64.ge r.residenceTime b.binTop

/-- The sum of all bin counts, as an exact integer.  The final loop of
`doStatistics` (lines 83-86) adds the counts up in a local `int` that is not
used afterwards. -/
def binCount (bins : List bin) : Int := bins.foldl (fun acc b => acc + b.count) 0

/-- Direct index computation by division, as the specification words it:
the floor of the float64 quotient `residenceTime / binWidth`. -/
def divisionIndex (t : F64) : Option Int :=
  match F64.div t binWidth with
  | F64.fin q => some ⌊q⌋
  | _ => none

/-- A stand-in for the float library in worked examples: every coordinate
parses to zero and every distance is zero, so each oxygen record is in the
shell. -/
def flatLib : FloatLib :=
  { parseFloat := fun _ => F64.zero, sqrt := fun _ => F64.zero, pow := fun _ _ => F64.zero }

/-- A three-frame trajectory: atom 10 is in the shell in frames 1 and 2, atom 11
in frame 2 only, and the shell is empty in frame 3. -/
def sampleLines : List String :=
  ["10 O 0.0 0.0 0.0 2", "1",
   "10 O 0.0 0.0 0.0 2", "11 O 0.0 0.0 0.0 2", "2",
   "3"]

/-- Two loop states agree on the variables the tracker reads and writes. -/
def sameTracker (s t : scanState) : Prop :=
  s.lastShellOxygens = t.lastShellOxygens
  ∧ s.currentResidences = t.currentResidences
  ∧ s.completedResidences = t.completedResidences
  ∧ s.frameCount = t.frameCount

/-- Atom `atomID` is in the shell in every frame `j` with `a ≤ j < b`, and the
stay starts at `a`: either `a = 1` or the atom is not in the shell in frame
`a - 1`. -/
def staysFrom (S : List (List Int)) (atomID a b : Int) : Prop :=
  1 ≤ a ∧ (∀ j, a ≤ j → j < b → atomID ∈ shellAt S j)
  ∧ (a = 1 ∨ atomID ∉ shellAt S (a - 1))

/-- The invariant of the tracker after the frames `S`: the open records are
exactly the stays still in progress, the completed records are the stays that
ended, one per leave event and in the order of the leave events. -/
def trackerInvariant (S : List (List Int)) (st : scanState) : Prop :=
  st.frameCount = S.length
  ∧ st.lastShellOxygens = shellAt S S.length
  ∧ (∀ k r, mapLookup st.currentResidences k = some r →
      r.atomID = k ∧ r.firstFrame ≤ S.length ∧ staysFrom S k r.firstFrame (S.length + 1))
  ∧ (∀ k ∈ shellAt S S.length, ∃ r, mapLookup st.currentResidences k = some r)
  ∧ (∀ r ∈ st.completedResidences,
      r.firstFrame < r.lastFrame ∧ r.lastFrame ≤ S.length
      ∧ staysFrom S r.atomID r.firstFrame r.lastFrame
      ∧ r.atomID ∉ shellAt S r.lastFrame)
  ∧ st.completedResidences.map (fun r => (r.atomID, r.lastFrame)) = leaveEvents S

/-- The atom a line is parsed to, when the line takes the atom-record branch. -/
def atomOfLine (lib : FloatLib) (line : String) : Option atom :=
  if isAtomRecord line then line2atom lib (stringsFields line) else none

/-- The structure center in effect after the given lines, as the specification
words it: the coordinate of the most recent atom record with identifier 1, in
whatever frame it was read, or `(0, 0, 0)` if there has been none. -/
def centerInEffect (lib : FloatLib) (lines : List String) : F64 × F64 × F64 :=
  match (lines.reverse.filterMap (atomOfLine lib)).find? (fun a => a.id == 1) with
  | some a => (a.x, a.y, a.z)
  | none => (F64.zero, F64.zero, F64.zero)

/-- Lines 30-32 of `main`: the histogram of the completed residences of a
trajectory; `none` is the panic of `generateBins`. -/
def mainHistogram (lib : FloatLib) (lines : List String) : Option (List bin) :=
  (generateBins (getResidences lib lines).2).map
    (fun bins => doStatistics (getResidences lib lines).1 bins)

/-- A stand-in for the float library in worked examples where the distance
matters: coordinates are whole numbers, squares are exact float64 products and
the square root is left out, so `dist2center` is the squared distance. -/
def squareLib : FloatLib :=
  { parseFloat := fun s => F64.ofInt (strconvAtoi s)
    sqrt := fun x => x
    pow := fun x _ => F64.mul x x }

/-- The float library whose `ParseFloat` is `strconvParseFloat`, the error
being discarded as `line2atom` does; `math.Sqrt` and `math.Pow` stay
parameters. -/
def parseLib (sqrt : F64 → F64) (pow : F64 → F64 → F64) : FloatLib :=
  { parseFloat := fun s => (strconvParseFloat s).1, sqrt := sqrt, pow := pow }

/-- The digits of a decimal integer literal: the string without its sign. -/
def intLiteralDigits (s : String) : List Char :=
  match s.data with
  | c :: cs => if c.toNat == 45 || c.toNat == 43 then cs else c :: cs
  | [] => []

/-- Whether a string is a decimal integer literal as `strconv.Atoi` accepts
it: an optional sign followed by one or more digits `0`-`9`. -/
def isIntLiteral (s : String) : Bool :=
  !(intLiteralDigits s).isEmpty
    && (intLiteralDigits s).all (fun c => 48 ≤ c.toNat && c.toNat ≤ 57)

/-- The exact value of a decimal integer literal, before it is fitted to 64
bits. -/
def intLiteralValue (s : String) : Int :=
  let v : Int :=
    (intLiteralDigits s).foldl (fun acc c => acc * 10 + ((c.toNat - 48 : Nat) : Int)) 0
  match s.data with
  | c :: _ => if c.toNat == 45 then -v else v
  | [] => v

/-! # Theorems -/

/-! ## Set difference -/

theorem contains_eq_true_iff (l : List Int) (x : Int) : contains l x = true ↔ x ∈ l := by
  induction l with
  | nil => simp [contains]
  | cons v vs ih =>
    simp only [contains, List.mem_cons]
    by_cases h : v = x
    · simp [h]
    · have h2 : ¬ x = v := fun e => h e.symm
      simp [h, h2, ih]

theorem contains_eq_decide (l : List Int) (x : Int) : contains l x = decide (x ∈ l) := by
  by_cases h : x ∈ l
  · simp [h, (contains_eq_true_iff l x).mpr h]
  · have : contains l x = false := by
      cases hc : contains l x
      · rfl
      · exact absurd ((contains_eq_true_iff l x).mp hc) h
    simp [h, this]

theorem foldl_append_filter (p : Int → Bool) (l acc : List Int) :
    l.foldl (fun acc a => if p a then acc ++ [a] else acc) acc = acc ++ l.filter p := by
  induction l generalizing acc with
  | nil => simp
  | cons a l ih =>
    simp only [List.foldl_cons, ih, List.filter_cons]
    by_cases h : p a <;> simp [h]

theorem enteringAtoms_eq_filter (last current : List Int) :
    enteringAtoms last current = current.filter (fun x => decide (x ∉ last)) := by
  have h := foldl_append_filter (fun a => !contains last a) current []
  simp only [List.nil_append] at h
  unfold enteringAtoms
  rw [h]
  congr 1
  funext x
  simp [contains_eq_decide]

theorem leavingAtoms_eq_filter (last current : List Int) :
    leavingAtoms last current = last.filter (fun x => decide (x ∉ current)) := by
  have h := foldl_append_filter (fun a => !contains current a) last []
  simp only [List.nil_append] at h
  unfold leavingAtoms
  rw [h]
  congr 1
  funext x
  simp [contains_eq_decide]

/-- C1: `enteringAtoms last current` is the sublist of `current` of the elements
not in `last` (order and multiplicity of `current` kept), `leavingAtoms last
current` is the sublist of `last` of the elements not in `current`, and on
`[1,2,3]`, `[2,3,4]` they give `[4]` and `[1]`. -/
theorem C1_entering_leaving_set_difference (last current : List Int) :
    enteringAtoms last current = current.filter (fun x => decide (x ∉ last))
    ∧ leavingAtoms last current = last.filter (fun x => decide (x ∉ current))
    ∧ enteringAtoms [1, 2, 3] [2, 3, 4] = [4]
    ∧ leavingAtoms [1, 2, 3] [2, 3, 4] = [1] :=
  ⟨enteringAtoms_eq_filter last current, leavingAtoms_eq_filter last current,
    by decide, by decide⟩

/-! ## Maps -/

theorem mapLookup_cons {α : Type} (p : Int × α) (m : List (Int × α)) (k2 : Int) :
    mapLookup (p :: m) k2 = if p.1 = k2 then some p.2 else mapLookup m k2 := by
  unfold mapLookup
  by_cases h : p.1 = k2 <;> simp [List.find?_cons, h]

theorem mapDelete_cons {α : Type} (p : Int × α) (m : List (Int × α)) (k : Int) :
    mapDelete (p :: m) k = if p.1 = k then mapDelete m k else p :: mapDelete m k := by
  unfold mapDelete
  by_cases h : p.1 = k <;> simp [List.filter_cons, h]

theorem mapLookup_mapDelete {α : Type} (m : List (Int × α)) (k k2 : Int) :
    mapLookup (mapDelete m k) k2 = if k2 = k then none else mapLookup m k2 := by
  induction m with
  | nil => simp [mapLookup, mapDelete]
  | cons p m ih =>
    rw [mapDelete_cons, mapLookup_cons]
    by_cases h1 : p.1 = k
    · rw [if_pos h1, ih]
      by_cases h2 : k2 = k
      · simp [h2]
      · have h3 : ¬ p.1 = k2 := fun e => h2 (e.symm.trans h1)
        simp [h2, h3]
    · rw [if_neg h1, mapLookup_cons, ih]
      by_cases h2 : p.1 = k2
      · have h3 : ¬ k2 = k := fun e => h1 (h2.trans e)
        simp [h2, h3]
      · simp [h2]

theorem mapLookup_mapSet {α : Type} (m : List (Int × α)) (k k2 : Int) (v : α) :
    mapLookup (mapSet m k v) k2 = if k2 = k then some v else mapLookup m k2 := by
  unfold mapSet
  by_cases h : k2 = k
  · simp [mapLookup, List.find?_cons, h]
  · have h2 : ¬ k = k2 := fun e => h e.symm
    have := mapLookup_mapDelete m k k2
    simp only [h, if_false] at this ⊢
    rw [← this]
    simp [mapLookup, List.find?_cons, h2]

/-! ## The tracker keeps every completed record well formed -/

theorem mapLookup_openResidences (f : Int) (E : List Int) (m : List (Int × residence))
    (k : Int) :
    mapLookup (openResidences f E m) k
      = if k ∈ E then some { zeroResidence with atomID := k, firstFrame := f }
        else mapLookup m k := by
  unfold openResidences
  induction E generalizing m with
  | nil => simp
  | cons e E ih =>
    rw [List.foldl_cons, ih, mapLookup_mapSet]
    by_cases h1 : k ∈ E
    · simp [h1]
    · by_cases h2 : k = e
      · simp [h2]
      · simp [h1, h2]

theorem closeResidences_cons (f : Int) (l : Int) (L : List Int)
    (acc : List residence × List (Int × residence)) :
    closeResidences f (l :: L) acc
      = closeResidences f L
          (acc.1 ++ [completeResidence f acc.2 l], mapDelete acc.2 l) := by
  simp [closeResidences]

theorem closeResidences_invariant (good : residence → Prop) (f : Int) (L : List Int)
    (m0 : List (Int × residence)) (acc : List residence × List (Int × residence))
    (hacc : ∀ r ∈ acc.1, good r)
    (hsub : ∀ k r, mapLookup acc.2 k = some r → mapLookup m0 k = some r)
    (hnew : ∀ l ∈ L, ∀ m : List (Int × residence),
      (∀ k r, mapLookup m k = some r → mapLookup m0 k = some r) →
        good (completeResidence f m l)) :
    (∀ r ∈ (closeResidences f L acc).1, good r)
    ∧ (∀ k r, mapLookup (closeResidences f L acc).2 k = some r →
        mapLookup m0 k = some r) := by
  induction L generalizing acc with
  | nil => exact ⟨by simpa [closeResidences] using hacc, by simpa [closeResidences] using hsub⟩
  | cons l L ih =>
    rw [closeResidences_cons]
    apply ih
    · intro r hr
      rcases List.mem_append.mp hr with h | h
      · exact hacc r h
      · rw [List.mem_singleton] at h
        rw [h]
        exact hnew l (List.mem_cons_self _ _) acc.2 hsub
    · intro k r h
      rw [mapLookup_mapDelete] at h
      by_cases hk : k = l
      · simp [hk] at h
      · simp only [hk, if_false] at h
        exact hsub k r h
    · intro l2 hl2 m hm
      exact hnew l2 (List.mem_cons_of_mem _ hl2) m hm

/-! ## Elementary facts on float64 values -/

theorem F64.round_ne_nan (q : ℚ) : F64.round q ≠ F64.nan := by
  unfold F64.round
  split_ifs <;> simp

theorem F64.eq_self {x : F64} (h : x ≠ F64.nan) : F64.eq x x = true := by
  cases x with
  | nan => exact absurd rfl h
  | inf n => simp [F64.eq]
  | fin q => simp [F64.eq]

theorem frameTime_val : frameTime = F64.fin (0x119799812dea11 / 2 ^ 91) := by decide!

theorem binWidth_val : binWidth = F64.fin (0x1a636641c4df1a / 2 ^ 90) := by decide!

theorem mul_ofInt_frameTime_ne_nan (k : Int) :
    F64.mul (F64.ofInt k) frameTime ≠ F64.nan := by
  rw [frameTime_val]
  unfold F64.ofInt
  cases h : F64.round (k : ℚ) with
  | nan => exact absurd h (F64.round_ne_nan _)
  | inf n => simp [F64.mul]
  | fin q => simpa [F64.mul] using F64.round_ne_nan _

/-! ## Invariant of the scanning loop -/

/-- What the program promises of a completed record. -/
theorem completeResidence_fields (f : Int) (m : List (Int × residence)) (l : Int) :
    (completeResidence f m l).lastFrame = f
    ∧ (completeResidence f m l).firstFrame = ((mapLookup m l).getD zeroResidence).firstFrame
    ∧ (completeResidence f m l).atomID = ((mapLookup m l).getD zeroResidence).atomID
    ∧ (completeResidence f m l).residenceTime
        = F64.mul (F64.ofInt ((completeResidence f m l).lastFrame
            - (completeResidence f m l).firstFrame)) frameTime := by
  simp [completeResidence]

theorem mem_leavingAtoms {last current : List Int} {l : Int} :
    l ∈ leavingAtoms last current ↔ l ∈ last ∧ l ∉ current := by
  rw [leavingAtoms_eq_filter]
  simp

theorem mem_enteringAtoms {last current : List Int} {l : Int} :
    l ∈ enteringAtoms last current ↔ l ∈ current ∧ l ∉ last := by
  rw [enteringAtoms_eq_filter]
  simp

theorem separatorStep_wellFormed (s : scanState)
    (h0 : 0 ≤ s.frameCount)
    (hopen : ∀ k r, mapLookup s.currentResidences k = some r → r.firstFrame ≤ s.frameCount)
    (hdone : ∀ r ∈ s.completedResidences, r.firstFrame < r.lastFrame
      ∧ r.residenceTime = F64.mul (F64.ofInt (r.lastFrame - r.firstFrame)) frameTime) :
    0 ≤ (separatorStep s).frameCount
    ∧ (∀ k r, mapLookup (separatorStep s).currentResidences k = some r →
        r.firstFrame ≤ (separatorStep s).frameCount)
    ∧ (∀ r ∈ (separatorStep s).completedResidences, r.firstFrame < r.lastFrame
      ∧ r.residenceTime = F64.mul (F64.ofInt (r.lastFrame - r.firstFrame)) frameTime) := by
  have hopened : ∀ k r,
      mapLookup (openResidences (s.frameCount + 1)
        (enteringAtoms s.lastShellOxygens s.currentShellOxygens) s.currentResidences) k
        = some r →
      r.firstFrame ≤ s.frameCount + 1
      ∧ (k ∈ s.lastShellOxygens → r.firstFrame ≤ s.frameCount) := by
    intro k r h
    rw [mapLookup_openResidences] at h
    by_cases hk : k ∈ enteringAtoms s.lastShellOxygens s.currentShellOxygens
    · simp only [hk, if_true, Option.some.injEq] at h
      subst h
      exact ⟨le_refl _, fun hl => absurd hl (mem_enteringAtoms.mp hk).2⟩
    · simp only [hk, if_false] at h
      have := hopen k r h
      exact ⟨by omega, fun _ => this⟩
  have key := closeResidences_invariant
    (fun r => r.firstFrame < r.lastFrame
      ∧ r.residenceTime = F64.mul (F64.ofInt (r.lastFrame - r.firstFrame)) frameTime)
    (s.frameCount + 1) (leavingAtoms s.lastShellOxygens s.currentShellOxygens)
    (openResidences (s.frameCount + 1)
        (enteringAtoms s.lastShellOxygens s.currentShellOxygens) s.currentResidences)
    (s.completedResidences, openResidences (s.frameCount + 1)
        (enteringAtoms s.lastShellOxygens s.currentShellOxygens) s.currentResidences)
    hdone (fun _ _ h => h)
    (by
      intro l hl m hm
      obtain ⟨e1, e2, _, e4⟩ := completeResidence_fields (s.frameCount + 1) m l
      refine ⟨?_, e4⟩
      rw [e1, e2]
      cases hlk : mapLookup m l with
      | none =>
        simp only [Option.getD_none, zeroResidence]
        omega
      | some r =>
        simp only [Option.getD_some]
        have := (hopened l r (hm l r hlk)).2 (mem_leavingAtoms.mp hl).1
        omega)
  refine ⟨?_, ?_, ?_⟩
  · show 0 ≤ s.frameCount + 1
    omega
  · intro k r h
    exact (hopened k r (key.2 k r h)).1
  · exact key.1

theorem atomStep_tracker (lib : FloatLib) (s : scanState) (a : atom) :
    (atomStep lib s a).frameCount = s.frameCount
    ∧ (atomStep lib s a).currentResidences = s.currentResidences
    ∧ (atomStep lib s a).completedResidences = s.completedResidences
    ∧ (atomStep lib s a).lastShellOxygens = s.lastShellOxygens := by
  unfold atomStep
  split_ifs <;> simp

theorem scanLine_of_isSeparator (lib : FloatLib) (s : scanState) (line : String)
    (h : isSeparator line = true) : scanLine lib s line = separatorStep s := by
  unfold isSeparator isAtomRecord at h
  unfold scanLine
  simp only [Bool.and_eq_true, Bool.not_eq_true'] at h
  simp only [h.1, h.2]
  simp

theorem scanLine_of_not_isSeparator (lib : FloatLib) (s : scanState) (line : String)
    (h : isSeparator line = false) :
    (scanLine lib s line).frameCount = s.frameCount
    ∧ (scanLine lib s line).currentResidences = s.currentResidences
    ∧ (scanLine lib s line).completedResidences = s.completedResidences
    ∧ (scanLine lib s line).lastShellOxygens = s.lastShellOxygens := by
  unfold isSeparator isAtomRecord at h
  unfold scanLine
  by_cases h1 : (decide ((stringsFields line).length > 5)
      && !stringsContains line boxMarker) = true
  · simp only [h1, if_true]
    cases line2atom lib (stringsFields line) with
    | none => simp
    | some a => exact atomStep_tracker lib s a
  · have h1f : (decide ((stringsFields line).length > 5)
      && !stringsContains line boxMarker) = false := by simpa using h1
    rw [h1f] at h
    simp only [Bool.not_false, Bool.true_and] at h
    simp [h1f, h]

theorem scanLine_wellFormed (lib : FloatLib) (s : scanState) (line : String)
    (h0 : 0 ≤ s.frameCount)
    (hopen : ∀ k r, mapLookup s.currentResidences k = some r → r.firstFrame ≤ s.frameCount)
    (hdone : ∀ r ∈ s.completedResidences, r.firstFrame < r.lastFrame
      ∧ r.residenceTime = F64.mul (F64.ofInt (r.lastFrame - r.firstFrame)) frameTime) :
    0 ≤ (scanLine lib s line).frameCount
    ∧ (∀ k r, mapLookup (scanLine lib s line).currentResidences k = some r →
        r.firstFrame ≤ (scanLine lib s line).frameCount)
    ∧ (∀ r ∈ (scanLine lib s line).completedResidences, r.firstFrame < r.lastFrame
      ∧ r.residenceTime = F64.mul (F64.ofInt (r.lastFrame - r.firstFrame)) frameTime) := by
  cases h : isSeparator line with
  | true =>
    rw [scanLine_of_isSeparator lib s line h]
    exact separatorStep_wellFormed s h0 hopen hdone
  | false =>
    obtain ⟨e1, e2, e3, _⟩ := scanLine_of_not_isSeparator lib s line h
    rw [e1, e2, e3]
    exact ⟨h0, hopen, hdone⟩

theorem scanLines_wellFormed (lib : FloatLib) (lines : List String) (s : scanState)
    (h0 : 0 ≤ s.frameCount)
    (hopen : ∀ k r, mapLookup s.currentResidences k = some r → r.firstFrame ≤ s.frameCount)
    (hdone : ∀ r ∈ s.completedResidences, r.firstFrame < r.lastFrame
      ∧ r.residenceTime = F64.mul (F64.ofInt (r.lastFrame - r.firstFrame)) frameTime) :
    ∀ r ∈ (scanLines lib s lines).completedResidences, r.firstFrame < r.lastFrame
      ∧ r.residenceTime = F64.mul (F64.ofInt (r.lastFrame - r.firstFrame)) frameTime := by
  induction lines generalizing s with
  | nil => simpa [scanLines] using hdone
  | cons line rest ih =>
    obtain ⟨a, b, c⟩ := scanLine_wellFormed lib s line h0 hopen hdone
    have := ih (scanLine lib s line) a b c
    simpa [scanLines] using this

/-- C2: every record of the completed list returned by `getResidences`, for any
line stream, has `lastFrame > firstFrame` and a residence time equal (as a Lean
value and under Go `==`) to `float64(lastFrame - firstFrame) * frameTime`. -/
theorem C2_completed_records_well_formed (lib : FloatLib) (lines : List String)
    (r : residence) (hr : r ∈ (getResidences lib lines).1) :
    r.residenceTime = F64.mul (F64.ofInt (r.lastFrame - r.firstFrame)) frameTime
    ∧ F64.eq r.residenceTime
        (F64.mul (F64.ofInt (r.lastFrame - r.firstFrame)) frameTime) = true
    ∧ r.lastFrame > r.firstFrame := by
  have h := scanLines_wellFormed lib lines initialState (by simp [initialState])
    (by simp [initialState, mapLookup]) (by simp [initialState]) r hr
  refine ⟨h.2, ?_, h.1⟩
  rw [h.2]
  exact F64.eq_self (mul_ofInt_frameTime_ne_nan _)

theorem sample_getResidences :
    getResidences flatLib sampleLines
      = ([{ atomID := 10, firstFrame := 1, lastFrame := 3,
            residenceTime := F64.mul (F64.ofInt 2) frameTime },
          { atomID := 11, firstFrame := 2, lastFrame := 3,
            residenceTime := F64.mul (F64.ofInt 1) frameTime }], 3) := by
  decide!

theorem sample_shellLists : shellLists flatLib sampleLines = [[10], [10, 11], []] := by
  decide!

/-- Witness of C2 on the sample trajectory: the record of atom 11. -/
theorem C2_completed_records_well_formed_witness :
    ({ atomID := 11, firstFrame := 2, lastFrame := 3,
       residenceTime := F64.mul (F64.ofInt 1) frameTime } : residence)
      ∈ (getResidences flatLib sampleLines).1
    ∧ F64.mul (F64.ofInt 1) frameTime = F64.mul (F64.ofInt (3 - 2)) frameTime
    ∧ F64.eq (F64.mul (F64.ofInt 1) frameTime)
        (F64.mul (F64.ofInt (3 - 2)) frameTime) = true
    ∧ (3 : Int) > 2 :=
  ⟨by rw [sample_getResidences]; simp,
    C2_completed_records_well_formed flatLib sampleLines
      { atomID := 11, firstFrame := 2, lastFrame := 3,
        residenceTime := F64.mul (F64.ofInt 1) frameTime }
      (by rw [sample_getResidences]; simp)⟩

/-! ## The scanning loop as a run of the tracker on the shell lists -/

theorem separatorStep_sameTracker (s t : scanState) (h : sameTracker s t)
    (hc : s.currentShellOxygens = t.currentShellOxygens) :
    sameTracker (separatorStep s) (separatorStep t) := by
  obtain ⟨h1, h2, h3, h4⟩ := h
  simp only [sameTracker, separatorStep, h1, h2, h3, h4, hc, and_self]

theorem scanLines_sameTracker (lib : FloatLib) (lines : List String) (s t : scanState)
    (h : sameTracker s t) :
    sameTracker (scanLines lib s lines) (trackShells t (shellTrace lib s lines)) := by
  induction lines generalizing s t with
  | nil => simpa [scanLines, shellTrace, trackShells] using h
  | cons line rest ih =>
    have hstep : scanLines lib s (line :: rest) = scanLines lib (scanLine lib s line) rest := by
      simp [scanLines]
    rw [hstep]
    cases hsep : isSeparator line with
    | true =>
      simp only [shellTrace, hsep, if_true, trackShells]
      apply ih
      rw [scanLine_of_isSeparator lib s line hsep]
      exact separatorStep_sameTracker s _ h rfl
    | false =>
      simp only [shellTrace, hsep, Bool.false_eq_true, if_false]
      apply ih
      obtain ⟨e1, e2, e3, e4⟩ := scanLine_of_not_isSeparator lib s line hsep
      obtain ⟨h1, h2, h3, h4⟩ := h
      exact ⟨e4.trans h1, e2.trans h2, e3.trans h3, e1.trans h4⟩

theorem getResidences_eq_trackShells (lib : FloatLib) (lines : List String) :
    getResidences lib lines
      = ((trackShells initialState (shellLists lib lines)).completedResidences,
         (trackShells initialState (shellLists lib lines)).frameCount) := by
  obtain ⟨_, _, h3, h4⟩ :=
    scanLines_sameTracker lib lines initialState initialState ⟨rfl, rfl, rfl, rfl⟩
  simp only [getResidences, shellLists, h3, h4]

theorem trackShells_append (s : scanState) (S : List (List Int)) (cur : List Int) :
    trackShells s (S ++ [cur])
      = separatorStep { trackShells s S with currentShellOxygens := cur } := by
  induction S generalizing s with
  | nil => simp [trackShells]
  | cons c S ih => simp [trackShells, ih]

/-! ## Frames of a growing sequence of shell lists -/

theorem shellAt_append_of_le (S : List (List Int)) (cur : List Int) (k : Int)
    (h : k ≤ S.length) : shellAt (S ++ [cur]) k = shellAt S k := by
  unfold shellAt
  by_cases h1 : 1 ≤ k
  · simp only [h1, if_true]
    apply List.getD_append
    omega
  · simp [h1]

theorem shellAt_append_last (S : List (List Int)) (cur : List Int) :
    shellAt (S ++ [cur]) ((S.length : Int) + 1) = cur := by
  unfold shellAt
  have h1 : (1 : Int) ≤ (S.length : Int) + 1 := by omega
  simp only [h1, if_true]
  have h2 : ((S.length : Int) + 1 - 1).toNat = S.length := by omega
  rw [h2, List.getD_append_right _ _ _ _ (le_refl _)]
  simp

theorem shellAt_nodup (S : List (List Int)) (hS : ∀ l ∈ S, l.Nodup) (k : Int) :
    (shellAt S k).Nodup := by
  unfold shellAt
  by_cases h1 : 1 ≤ k
  · simp only [h1, if_true]
    by_cases h2 : (k - 1).toNat < S.length
    · rw [List.getD_eq_getElem _ _ h2]
      exact hS _ (List.getElem_mem _)
    · rw [List.getD_eq_default _ _ (by omega)]
      exact List.nodup_nil
  · simp [h1]

theorem leaveEvents_append (S : List (List Int)) (cur : List Int) :
    leaveEvents (S ++ [cur])
      = leaveEvents S
        ++ (leavingAtoms (shellAt S S.length) cur).map
            (fun atomID => (atomID, (S.length : Int) + 1)) := by
  unfold leaveEvents
  rw [List.length_append, List.length_singleton, List.range_succ, List.flatMap_append,
    List.flatMap_singleton]
  congr 1
  · apply List.flatMap_congr
    intro i hi
    have hi2 : i < S.length := List.mem_range.mp hi
    rw [shellAt_append_of_le S cur i (by omega),
      shellAt_append_of_le S cur ((i : Int) + 1) (by omega)]
  · rw [shellAt_append_of_le S cur S.length (le_refl _), shellAt_append_last]

theorem staysFrom_append (S : List (List Int)) (cur : List Int) (k a b : Int)
    (ha : a ≤ (S.length : Int) + 1) (hb : b ≤ (S.length : Int) + 1)
    (h : staysFrom S k a b) : staysFrom (S ++ [cur]) k a b := by
  obtain ⟨h1, h2, h3⟩ := h
  refine ⟨h1, ?_, ?_⟩
  · intro j hj1 hj2
    rw [shellAt_append_of_le S cur j (by omega)]
    exact h2 j hj1 hj2
  · rcases h3 with h3 | h3
    · exact Or.inl h3
    · right
      rw [shellAt_append_of_le S cur (a - 1) (by omega)]
      exact h3

/-! ## Closing the residences of a duplicate-free list of leaving atoms -/

theorem completeResidence_congr (f : Int) (m m2 : List (Int × residence)) (l : Int)
    (h : mapLookup m l = mapLookup m2 l) :
    completeResidence f m l = completeResidence f m2 l := by
  simp [completeResidence, h]

theorem closeResidences_nodup (f : Int) (L : List Int) (hL : L.Nodup)
    (acc : List residence × List (Int × residence)) :
    (closeResidences f L acc).1 = acc.1 ++ L.map (completeResidence f acc.2)
    ∧ ∀ k, mapLookup (closeResidences f L acc).2 k
        = if k ∈ L then none else mapLookup acc.2 k := by
  induction L generalizing acc with
  | nil => simp [closeResidences]
  | cons l L ih =>
    rw [closeResidences_cons]
    obtain ⟨hl, hL2⟩ := List.nodup_cons.mp hL
    obtain ⟨ih1, ih2⟩ := ih hL2 (acc.1 ++ [completeResidence f acc.2 l], mapDelete acc.2 l)
    constructor
    · rw [ih1]
      simp only [List.map_cons, List.append_assoc, List.singleton_append]
      congr 2
      apply List.map_congr_left
      intro a ha
      apply completeResidence_congr
      rw [mapLookup_mapDelete]
      have : a ≠ l := fun e => hl (e ▸ ha)
      simp [this]
    · intro k
      rw [ih2 k]
      simp only [mapLookup_mapDelete, List.mem_cons]
      by_cases h1 : k ∈ L
      · simp [h1]
      · by_cases h2 : k = l
        · simp [h2]
        · simp [h1, h2]

/-! ## The tracker invariant -/

theorem separatorStep_fields (s : scanState) :
    (separatorStep s).frameCount = s.frameCount + 1
    ∧ (separatorStep s).lastShellOxygens = s.currentShellOxygens
    ∧ (separatorStep s).completedResidences
        = (closeResidences (s.frameCount + 1)
            (leavingAtoms s.lastShellOxygens s.currentShellOxygens)
            (s.completedResidences,
              openResidences (s.frameCount + 1)
                (enteringAtoms s.lastShellOxygens s.currentShellOxygens)
                s.currentResidences)).1
    ∧ (separatorStep s).currentResidences
        = (closeResidences (s.frameCount + 1)
            (leavingAtoms s.lastShellOxygens s.currentShellOxygens)
            (s.completedResidences,
              openResidences (s.frameCount + 1)
                (enteringAtoms s.lastShellOxygens s.currentShellOxygens)
                s.currentResidences)).2 :=
  ⟨rfl, rfl, rfl, rfl⟩

theorem trackerInvariant_initial : trackerInvariant [] initialState := by
  refine ⟨rfl, ?_, ?_, ?_, ?_, ?_⟩
  · simp [initialState, shellAt]
  · intro k r h
    simp [initialState, mapLookup] at h
  · intro k hk
    simp [shellAt] at hk
  · intro r hr
    simp [initialState] at hr
  · simp [initialState, leaveEvents]

theorem trackerInvariant_step (S : List (List Int)) (cur : List Int) (st : scanState)
    (hlast : (shellAt S S.length).Nodup) (h : trackerInvariant S st) :
    trackerInvariant (S ++ [cur])
      (separatorStep { st with currentShellOxygens := cur }) := by
  obtain ⟨hfc, hlastEq, hopen, hkeys, hdone, hev⟩ := h
  have hlen : (((S ++ [cur]).length : Nat) : Int) = (S.length : Int) + 1 := by simp
  have hcurAt : shellAt (S ++ [cur]) (((S ++ [cur]).length : Nat) : Int) = cur := by
    rw [hlen, shellAt_append_last]
  obtain ⟨f1, f2, f3, f4⟩ := separatorStep_fields { st with currentShellOxygens := cur }
  generalize separatorStep { st with currentShellOxygens := cur } = t at f1 f2 f3 f4 ⊢
  simp only [hfc, hlastEq] at f1 f2 f3 f4
  have hLnodup : (leavingAtoms (shellAt S S.length) cur).Nodup := by
    rw [leavingAtoms_eq_filter]
    exact hlast.filter _
  obtain ⟨hc1, hc2⟩ := closeResidences_nodup ((S.length : Int) + 1)
    (leavingAtoms (shellAt S S.length) cur) hLnodup
    (st.completedResidences,
      openResidences ((S.length : Int) + 1) (enteringAtoms (shellAt S S.length) cur)
        st.currentResidences)
  simp only [mapLookup_openResidences] at hc2
  rw [hc1] at f3
  -- the record closed for a leaving atom is its open record
  have hclosed : ∀ l ∈ leavingAtoms (shellAt S S.length) cur,
      ∃ r, mapLookup st.currentResidences l = some r
        ∧ completeResidence ((S.length : Int) + 1)
            (openResidences ((S.length : Int) + 1)
              (enteringAtoms (shellAt S S.length) cur) st.currentResidences) l
          = { r with lastFrame := (S.length : Int) + 1,
                     residenceTime :=
                       F64.mul (F64.ofInt ((S.length : Int) + 1 - r.firstFrame)) frameTime } := by
    intro l hl
    obtain ⟨hl1, hl2⟩ := mem_leavingAtoms.mp hl
    obtain ⟨r, hr⟩ := hkeys l hl1
    refine ⟨r, hr, ?_⟩
    have hnotE : l ∉ enteringAtoms (shellAt S S.length) cur :=
      fun hE => (mem_enteringAtoms.mp hE).2 hl1
    simp [completeResidence, mapLookup_openResidences, hnotE, hr]
  refine ⟨?_, ?_, ?_, ?_, ?_, ?_⟩
  · rw [f1, hlen]
  · rw [f2, hcurAt]
  · intro k r hk
    rw [f4, hc2 k] at hk
    by_cases hkL : k ∈ leavingAtoms (shellAt S S.length) cur
    · simp [hkL] at hk
    · simp only [hkL, if_false] at hk
      rw [hlen]
      by_cases hkE : k ∈ enteringAtoms (shellAt S S.length) cur
      · simp only [hkE, if_true, Option.some.injEq] at hk
        subst hk
        obtain ⟨hE1, hE2⟩ := mem_enteringAtoms.mp hkE
        refine ⟨rfl, le_refl _, ?_, ?_, ?_⟩
        · show (1 : Int) ≤ (S.length : Int) + 1
          omega
        · intro j hj1 hj2
          have hj : j = (S.length : Int) + 1 := by
            simp only at hj1
            omega
          rw [hj, shellAt_append_last]
          exact hE1
        · right
          show k ∉ shellAt (S ++ [cur]) ((S.length : Int) + 1 - 1)
          rw [shellAt_append_of_le S cur _ (by omega)]
          have : (S.length : Int) + 1 - 1 = S.length := by omega
          rw [this]
          exact hE2
      · simp only [hkE, if_false] at hk
        obtain ⟨a1, a2, a3⟩ := hopen k r hk
        refine ⟨a1, by omega, ?_⟩
        have a3b := staysFrom_append S cur k r.firstFrame ((S.length : Int) + 1)
          (by omega) (le_refl _) a3
        refine ⟨a3b.1, ?_, a3b.2.2⟩
        intro j hj1 hj2
        by_cases hj : j < (S.length : Int) + 1
        · exact a3b.2.1 j hj1 hj
        · have hj3 : j = (S.length : Int) + 1 := by omega
          rw [hj3, shellAt_append_last]
          have hklast : k ∈ shellAt S S.length := a3.2.1 _ a2 (by omega)
          by_contra hkc
          exact hkL (mem_leavingAtoms.mpr ⟨hklast, hkc⟩)
  · intro k hk
    rw [hcurAt] at hk
    have hkL : k ∉ leavingAtoms (shellAt S S.length) cur :=
      fun hL => (mem_leavingAtoms.mp hL).2 hk
    rw [f4]
    by_cases hkE : k ∈ enteringAtoms (shellAt S S.length) cur
    · refine ⟨{ zeroResidence with atomID := k, firstFrame := (S.length : Int) + 1 }, ?_⟩
      rw [hc2 k]
      simp [hkL, hkE]
    · have hklast : k ∈ shellAt S S.length := by
        by_contra hkc
        exact hkE (mem_enteringAtoms.mpr ⟨hk, hkc⟩)
      obtain ⟨r, hr⟩ := hkeys k hklast
      exact ⟨r, by rw [hc2 k]; simp [hkL, hkE, hr]⟩
  · intro r hr
    rw [f3] at hr
    rw [hlen]
    rcases List.mem_append.mp hr with hr | hr
    · obtain ⟨b1, b2, b3, b4⟩ := hdone r hr
      refine ⟨b1, by omega, staysFrom_append S cur _ _ _ (by omega) (by omega) b3, ?_⟩
      rw [shellAt_append_of_le S cur _ b2]
      exact b4
    · obtain ⟨l, hl, hlr⟩ := List.mem_map.mp hr
      obtain ⟨r0, hr0, hcr⟩ := hclosed l hl
      rw [hcr] at hlr
      subst hlr
      obtain ⟨a1, a2, a3⟩ := hopen l r0 hr0
      refine ⟨?_, le_refl _, ?_, ?_⟩
      · show r0.firstFrame < (S.length : Int) + 1
        omega
      · show staysFrom (S ++ [cur]) r0.atomID r0.firstFrame ((S.length : Int) + 1)
        rw [a1]
        exact staysFrom_append S cur l r0.firstFrame _ (by omega) (le_refl _) a3
      · show r0.atomID ∉ shellAt (S ++ [cur]) ((S.length : Int) + 1)
        rw [a1, shellAt_append_last]
        exact (mem_leavingAtoms.mp hl).2
  · rw [f3, List.map_append, hev, leaveEvents_append, List.map_map]
    congr 1
    apply List.map_congr_left
    intro l hl
    obtain ⟨r0, hr0, hcr⟩ := hclosed l hl
    simp only [Function.comp, hcr]
    rw [(hopen l r0 hr0).1]

theorem trackShells_invariant (S : List (List Int)) (hS : ∀ l ∈ S, l.Nodup) :
    trackerInvariant S (trackShells initialState S) := by
  induction S using List.reverseRecOn with
  | nil => exact trackerInvariant_initial
  | append_singleton S cur ih =>
    rw [trackShells_append]
    apply trackerInvariant_step
    · exact shellAt_nodup S (fun l hl => hS l (List.mem_append_left _ hl)) _
    · exact ih (fun l hl => hS l (List.mem_append_left _ hl))

/-! ## The end-to-end scenario of three frames -/

/-- C3, as stated, fails: on a three-frame run with shell lists `[10]`,
`[10, 11]`, `[]` the completed list is not the single record of atom 11, and it
does hold a record for atom 10. -/
theorem C3_three_frames_counterexample :
    shellLists flatLib sampleLines = [[10], [10, 11], []]
    ∧ ¬ ((getResidences flatLib sampleLines).1
          = [{ atomID := 11, firstFrame := 2, lastFrame := 3,
               residenceTime := F64.mul (F64.ofInt 1) frameTime }]
        ∧ ∀ r ∈ (getResidences flatLib sampleLines).1, r.atomID ≠ 10) := by
  refine ⟨sample_shellLists, ?_⟩
  rw [sample_getResidences]
  intro h
  exact absurd h.1 (by decide!)

/-- C3, amended: on every run whose shell lists are `[10]`, `[10, 11]`, `[]`,
`getResidences` returns frame count 3 and exactly two completed records, in
this order: atom 10 with frames 1 to 3 and residence time `2 * frameTime`
(it is absent from frame 3, hence closed there), then atom 11 with frames 2 to
3 and residence time `1 * frameTime`, which is `frameTime` itself. -/
theorem C3_three_frames_amended (lib : FloatLib) (lines : List String)
    (h : shellLists lib lines = [[10], [10, 11], []]) :
    getResidences lib lines
      = ([{ atomID := 10, firstFrame := 1, lastFrame := 3,
            residenceTime := F64.mul (F64.ofInt 2) frameTime },
          { atomID := 11, firstFrame := 2, lastFrame := 3,
            residenceTime := F64.mul (F64.ofInt 1) frameTime }], 3)
    ∧ F64.mul (F64.ofInt 1) frameTime = frameTime := by
  rw [getResidences_eq_trackShells, h]
  exact ⟨by decide!, by decide!⟩

/-- Witness of the amended C3 on the sample trajectory. -/
theorem C3_three_frames_amended_witness :
    shellLists flatLib sampleLines = [[10], [10, 11], []]
    ∧ getResidences flatLib sampleLines
      = ([{ atomID := 10, firstFrame := 1, lastFrame := 3,
            residenceTime := F64.mul (F64.ofInt 2) frameTime },
          { atomID := 11, firstFrame := 2, lastFrame := 3,
            residenceTime := F64.mul (F64.ofInt 1) frameTime }], 3) :=
  ⟨sample_shellLists, (C3_three_frames_amended flatLib sampleLines sample_shellLists).1⟩

/-! ## Completed records are maximal contiguous stays -/

theorem getResidences_invariant (lib : FloatLib) (lines : List String)
    (hS : ∀ l ∈ shellLists lib lines, l.Nodup) :
    trackerInvariant (shellLists lib lines)
      { trackShells initialState (shellLists lib lines) with
        completedResidences := (getResidences lib lines).1
        frameCount := (getResidences lib lines).2 } := by
  rw [getResidences_eq_trackShells]
  exact trackShells_invariant _ hS

/-- C4: when no frame's shell list repeats an identifier, every completed
record `(atomID, firstFrame, lastFrame)` is a maximal contiguous stay: frames
are numbered from 1, `firstFrame < lastFrame ≤ n`, the atom is in `S_k` for all
`firstFrame ≤ k < lastFrame`, it is not in `S_lastFrame`, and `firstFrame = 1`
or it is not in `S_(firstFrame - 1)`.  There is exactly one record per leave
event, in the order of the events, so each stay of an atom that leaves and
re-enters has a record of its own. -/
theorem C4_completed_records_are_maximal_stays (lib : FloatLib) (lines : List String)
    (S : List (List Int)) (hlists : shellLists lib lines = S)
    (hS : ∀ l ∈ S, l.Nodup) :
    (∀ r ∈ (getResidences lib lines).1,
        1 ≤ r.firstFrame ∧ r.firstFrame < r.lastFrame ∧ r.lastFrame ≤ S.length
        ∧ (∀ k, r.firstFrame ≤ k → k < r.lastFrame → r.atomID ∈ shellAt S k)
        ∧ r.atomID ∉ shellAt S r.lastFrame
        ∧ (r.firstFrame = 1 ∨ r.atomID ∉ shellAt S (r.firstFrame - 1)))
    ∧ (getResidences lib lines).1.map (fun r => (r.atomID, r.lastFrame)) = leaveEvents S := by
  subst hlists
  obtain ⟨_, _, _, _, hdone, hev⟩ := getResidences_invariant lib lines hS
  refine ⟨?_, hev⟩
  intro r hr
  obtain ⟨b1, b2, ⟨c1, c2, c3⟩, b4⟩ := hdone r hr
  exact ⟨c1, b1, b2, c2, b4, c3⟩

/-- A trajectory in which atom 7 is in the shell in frames 1 and 3 only. -/
theorem reentry_getResidences :
    getResidences flatLib ["7 O 0.0 0.0 0.0 2", "1", "2", "7 O 0.0 0.0 0.0 2", "3", "4"]
      = ([{ atomID := 7, firstFrame := 1, lastFrame := 2,
            residenceTime := F64.mul (F64.ofInt 1) frameTime },
          { atomID := 7, firstFrame := 3, lastFrame := 4,
            residenceTime := F64.mul (F64.ofInt 1) frameTime }], 4) := by
  decide!

theorem reentry_shellLists :
    shellLists flatLib ["7 O 0.0 0.0 0.0 2", "1", "2", "7 O 0.0 0.0 0.0 2", "3", "4"]
      = [[7], [], [7], []] := by
  decide!

/-- Witness of C4: atom 7 leaves after frame 1 and re-enters in frame 3; the
two stays give two records, matching the two leave events. -/
theorem C4_completed_records_are_maximal_stays_witness :
    shellLists flatLib ["7 O 0.0 0.0 0.0 2", "1", "2", "7 O 0.0 0.0 0.0 2", "3", "4"]
      = [[7], [], [7], []]
    ∧ (∀ l ∈ [[7], [], [7], []], (l : List Int).Nodup)
    ∧ (getResidences flatLib
        ["7 O 0.0 0.0 0.0 2", "1", "2", "7 O 0.0 0.0 0.0 2", "3", "4"]).1.map
          (fun r => (r.atomID, r.lastFrame))
        = leaveEvents [[7], [], [7], []]
    ∧ leaveEvents [[7], [], [7], []] = [(7, 2), (7, 4)] :=
  ⟨reentry_shellLists, by decide,
    (C4_completed_records_are_maximal_stays flatLib _ _ reentry_shellLists (by decide)).2,
    by decide⟩

/-! ## Residences still open at the end of the stream -/

theorem leaveEvents_length (S : List (List Int)) :
    (leaveEvents S).length
      = ((List.range S.length).map (fun (i : Nat) =>
          ((shellAt S (i : Int)).filter
            (fun x => decide (x ∉ shellAt S ((i : Int) + 1)))).length)).sum := by
  unfold leaveEvents
  rw [List.length_flatMap]
  congr 1
  apply List.map_congr_left
  intro i _
  simp [leavingAtoms_eq_filter]

/-- C5: when no frame's shell list repeats an identifier, every completed
record of an atom that is in the last frame's list `S_n` has `lastFrame < n`
(its stay in progress at the end of the stream is not finalized), `n` is the
returned frame count, and the number of completed records is the number of
leave events: the identifiers of `S_(k-1)` that are not in `S_k`, summed over
the frames `k = 1..n` (with `S_0` empty); nothing is added at end of stream. -/
theorem C5_open_residences_dropped (lib : FloatLib) (lines : List String)
    (S : List (List Int)) (hlists : shellLists lib lines = S)
    (hS : ∀ l ∈ S, l.Nodup) :
    (∀ atomID ∈ shellAt S S.length, ∀ r ∈ (getResidences lib lines).1,
        r.atomID = atomID → r.lastFrame < S.length)
    ∧ (getResidences lib lines).2 = S.length
    ∧ (getResidences lib lines).1.length
        = ((List.range S.length).map (fun (i : Nat) =>
            ((shellAt S (i : Int)).filter
              (fun x => decide (x ∉ shellAt S ((i : Int) + 1)))).length)).sum := by
  subst hlists
  obtain ⟨hfc, _, _, _, hdone, hev⟩ := getResidences_invariant lib lines hS
  refine ⟨?_, hfc, ?_⟩
  · intro atomID hmem r hr hid
    obtain ⟨_, b2, _, b4⟩ := hdone r hr
    rcases lt_or_eq_of_le b2 with h | h
    · exact h
    · rw [h, hid] at b4
      exact absurd hmem b4
  · rw [← leaveEvents_length, ← hev, List.length_map]

/-- A trajectory in which atom 10 is still in the shell in the last frame. -/
theorem stillOpen_getResidences :
    getResidences flatLib
        ["10 O 0.0 0.0 0.0 2", "11 O 0.0 0.0 0.0 2", "1", "10 O 0.0 0.0 0.0 2", "2"]
      = ([{ atomID := 11, firstFrame := 1, lastFrame := 2,
            residenceTime := F64.mul (F64.ofInt 1) frameTime }], 2) := by
  decide!

theorem stillOpen_shellLists :
    shellLists flatLib
        ["10 O 0.0 0.0 0.0 2", "11 O 0.0 0.0 0.0 2", "1", "10 O 0.0 0.0 0.0 2", "2"]
      = [[10, 11], [10]] := by
  decide!

/-- Witness of C5: atom 10 is in the shell in both frames of a two-frame run and
atom 11 only in the first; the single completed record is the one of atom 11. -/
theorem C5_open_residences_dropped_witness :
    shellLists flatLib
        ["10 O 0.0 0.0 0.0 2", "11 O 0.0 0.0 0.0 2", "1", "10 O 0.0 0.0 0.0 2", "2"]
      = [[10, 11], [10]]
    ∧ (∀ l ∈ [[10, 11], [10]], (l : List Int).Nodup)
    ∧ (getResidences flatLib
        ["10 O 0.0 0.0 0.0 2", "11 O 0.0 0.0 0.0 2", "1", "10 O 0.0 0.0 0.0 2", "2"]).2
        = 2
    ∧ (getResidences flatLib
        ["10 O 0.0 0.0 0.0 2", "11 O 0.0 0.0 0.0 2", "1", "10 O 0.0 0.0 0.0 2", "2"]).1.length
        = 1 := by
  have h := C5_open_residences_dropped flatLib _ _ stillOpen_shellLists (by decide)
  refine ⟨stillOpen_shellLists, by decide, h.2.1, ?_⟩
  rw [stillOpen_getResidences]
  rfl

/-! ## Rounding to binary64: powers of two and binades -/

theorem F64.pow2_eq_zpow (e : ℤ) : F64.pow2 e = (2 : ℚ) ^ e := by
  unfold F64.pow2
  by_cases h : 0 ≤ e
  · simp only [h, if_true]
    obtain ⟨n, rfl⟩ := Int.eq_ofNat_of_zero_le h
    simp
  · simp only [h, if_false]
    have h2 : e = -(((-e).toNat : ℕ) : ℤ) := by
      rw [Int.toNat_of_nonneg (by omega)]
      omega
    conv_rhs => rw [h2]
    rw [zpow_neg, zpow_natCast]
    simp

theorem F64.pow2_pos (e : ℤ) : 0 < F64.pow2 e := by
  rw [F64.pow2_eq_zpow]
  positivity

theorem F64.pow2_add (a b : ℤ) : F64.pow2 (a + b) = F64.pow2 a * F64.pow2 b := by
  simp only [F64.pow2_eq_zpow]
  exact zpow_add₀ (by norm_num) a b

theorem F64.pow2_le_pow2 {a b : ℤ} (h : a ≤ b) : F64.pow2 a ≤ F64.pow2 b := by
  simp only [F64.pow2_eq_zpow]
  exact zpow_le_zpow_right₀ (by norm_num) h

theorem F64.pow2_lt_pow2 {a b : ℤ} (h : a < b) : F64.pow2 a < F64.pow2 b := by
  simp only [F64.pow2_eq_zpow]
  exact zpow_lt_zpow_right₀ (by norm_num) h

theorem F64.log2Fuel_spec (fuel n : ℕ) (h1 : 1 ≤ n) (h2 : n ≤ fuel) :
    2 ^ F64.log2Fuel fuel n ≤ n ∧ n < 2 ^ (F64.log2Fuel fuel n + 1) := by
  induction fuel generalizing n with
  | zero => omega
  | succ fuel ih =>
    unfold F64.log2Fuel
    by_cases h : n < 2
    · simp only [h, if_true]
      omega
    · simp only [h, if_false]
      obtain ⟨a, b⟩ := ih (n / 2) (by omega) (by omega)
      constructor
      · rw [pow_succ]
        omega
      · rw [pow_succ]
        omega

theorem F64.natLog2_spec (n : ℕ) (h : 1 ≤ n) :
    2 ^ F64.natLog2 n ≤ n ∧ n < 2 ^ (F64.natLog2 n + 1) :=
  F64.log2Fuel_spec n n h (le_refl n)

theorem F64.ilog2_spec (q : ℚ) (hq : 0 < q) :
    F64.pow2 (F64.ilog2 q) ≤ q ∧ q < F64.pow2 (F64.ilog2 q + 1) := by
  have hnum : 0 < q.num := Rat.num_pos.mpr hq
  have hn1 : 1 ≤ q.num.toNat := by omega
  have hd1 : 1 ≤ q.den := q.den_pos
  obtain ⟨n1, n2⟩ := F64.natLog2_spec q.num.toNat hn1
  obtain ⟨d1, d2⟩ := F64.natLog2_spec q.den hd1
  have hqe : q = (q.num.toNat : ℚ) / (q.den : ℚ) := by
    have h1 : ((q.num.toNat : ℕ) : ℤ) = q.num := Int.toNat_of_nonneg (le_of_lt hnum)
    have h2 : ((q.num.toNat : ℕ) : ℚ) = (q.num : ℚ) := by
      have h3 : (((q.num.toNat : ℕ) : ℤ) : ℚ) = (q.num : ℚ) := congrArg _ h1
      rw [← h3]
      exact (Int.cast_natCast _).symm
    rw [h2]
    exact (Rat.num_div_den q).symm
  have n1q : (2 : ℚ) ^ F64.natLog2 q.num.toNat ≤ (q.num.toNat : ℚ) := by exact_mod_cast n1
  have n2q : (q.num.toNat : ℚ) < (2 : ℚ) ^ (F64.natLog2 q.num.toNat + 1) := by exact_mod_cast n2
  have d1q : (2 : ℚ) ^ F64.natLog2 q.den ≤ (q.den : ℚ) := by exact_mod_cast d1
  have d2q : (q.den : ℚ) < (2 : ℚ) ^ (F64.natLog2 q.den + 1) := by exact_mod_cast d2
  have hdpos : (0 : ℚ) < (q.den : ℚ) := by exact_mod_cast hd1
  have hk : ∀ j : ℤ, F64.pow2 ((F64.natLog2 q.num.toNat : ℤ) - (F64.natLog2 q.den : ℤ) + j)
      = (2 : ℚ) ^ F64.natLog2 q.num.toNat / (2 : ℚ) ^ F64.natLog2 q.den * (2 : ℚ) ^ j := by
    intro j
    rw [F64.pow2_eq_zpow, zpow_add₀ (by norm_num), zpow_sub₀ (by norm_num), zpow_natCast,
      zpow_natCast]
  have hp1 : (0 : ℚ) < (2 : ℚ) ^ F64.natLog2 q.num.toNat := by positivity
  have hp2 : (0 : ℚ) < (2 : ℚ) ^ F64.natLog2 q.den := by positivity
  unfold F64.ilog2
  simp only
  split_ifs with hc
  · refine ⟨hc, ?_⟩
    rw [hk 1, zpow_one]
    conv_lhs => rw [hqe]
    rw [div_mul_eq_mul_div, div_lt_div_iff₀ hdpos hp2]
    rw [pow_succ] at n2q
    nlinarith
  · constructor
    · have := hk (-1)
      rw [← sub_eq_add_neg] at this
      rw [this]
      conv_rhs => rw [hqe]
      rw [zpow_neg, zpow_one, div_mul_eq_mul_div, div_le_div_iff₀ hp2 hdpos]
      rw [pow_succ] at d2q
      nlinarith
    · have : (F64.natLog2 q.num.toNat : ℤ) - (F64.natLog2 q.den : ℤ) - 1 + 1
          = (F64.natLog2 q.num.toNat : ℤ) - (F64.natLog2 q.den : ℤ) := by ring
      rw [this]
      exact lt_of_not_le hc

theorem F64.ilog2_unique (q : ℚ) (k : ℤ) (h1 : F64.pow2 k ≤ q) (h2 : q < F64.pow2 (k + 1)) :
    F64.ilog2 q = k := by
  have hq : 0 < q := lt_of_lt_of_le (F64.pow2_pos k) h1
  obtain ⟨a, b⟩ := F64.ilog2_spec q hq
  by_contra hne
  rcases lt_or_gt_of_ne hne with h | h
  · have : F64.pow2 (F64.ilog2 q + 1) ≤ F64.pow2 k := F64.pow2_le_pow2 (by omega)
    linarith
  · have : F64.pow2 (k + 1) ≤ F64.pow2 (F64.ilog2 q) := F64.pow2_le_pow2 (by omega)
    linarith

theorem F64.ilog2_mono {a b : ℚ} (ha : 0 < a) (hab : a ≤ b) : F64.ilog2 a ≤ F64.ilog2 b := by
  obtain ⟨a1, _⟩ := F64.ilog2_spec a ha
  obtain ⟨_, b2⟩ := F64.ilog2_spec b (lt_of_lt_of_le ha hab)
  by_contra h
  have : F64.pow2 (F64.ilog2 b + 1) ≤ F64.pow2 (F64.ilog2 a) := F64.pow2_le_pow2 (by omega)
  linarith

/-! ## Rounding to binary64: nearest integer, ties to even -/

theorem F64.rne_cases (s : ℚ) :
    (F64.rne s = ⌊s⌋ ∧ s - ⌊s⌋ ≤ 1 / 2) ∨ (F64.rne s = ⌊s⌋ + 1 ∧ 1 / 2 ≤ s - ⌊s⌋) := by
  unfold F64.rne
  simp only
  split_ifs with h1 h2 h3
  · exact Or.inl ⟨rfl, le_of_lt h1⟩
  · exact Or.inr ⟨rfl, le_of_lt h2⟩
  · exact Or.inl ⟨rfl, le_of_not_lt h2⟩
  · exact Or.inr ⟨rfl, le_of_not_lt h1⟩

theorem F64.rne_sub_le (s : ℚ) : (F64.rne s : ℚ) - s ≤ 1 / 2 ∧ s - (F64.rne s : ℚ) ≤ 1 / 2 := by
  have hf1 : (⌊s⌋ : ℚ) ≤ s := Int.floor_le s
  have hf2 : s < (⌊s⌋ : ℚ) + 1 := Int.lt_floor_add_one s
  rcases F64.rne_cases s with ⟨h, h2⟩ | ⟨h, h2⟩
  · rw [h]
    constructor <;> linarith
  · rw [h]
    push_cast
    constructor <;> linarith

theorem F64.rne_intCast (n : ℤ) : F64.rne (n : ℚ) = n := by
  unfold F64.rne
  simp

theorem F64.rne_mono {s t : ℚ} (h : s ≤ t) : F64.rne s ≤ F64.rne t := by
  have hfl : ⌊s⌋ ≤ ⌊t⌋ := Int.floor_le_floor h
  rcases lt_or_eq_of_le hfl with hlt | heq
  · have h1 : F64.rne s ≤ ⌊s⌋ + 1 := by
      rcases F64.rne_cases s with ⟨e, _⟩ | ⟨e, _⟩ <;> omega
    have h2 : ⌊t⌋ ≤ F64.rne t := by
      rcases F64.rne_cases t with ⟨e, _⟩ | ⟨e, _⟩ <;> omega
    omega
  · unfold F64.rne
    simp only
    rw [← heq]
    split_ifs <;> first | omega | linarith

theorem F64.rne_nonneg {s : ℚ} (h : 0 ≤ s) : 0 ≤ F64.rne s := by
  have := F64.rne_mono h
  rw [show ((0 : ℚ)) = ((0 : ℤ) : ℚ) by simp, F64.rne_intCast] at this
  exact this

/-! ## Rounding to binary64: monotonicity and relative error -/

theorem F64.ulpExp_mono {a b : ℚ} (ha : 0 < a) (hab : a ≤ b) : F64.ulpExp a ≤ F64.ulpExp b := by
  unfold F64.ulpExp
  have := F64.ilog2_mono ha hab
  omega

theorem F64.lt_pow2_ulpExp (a : ℚ) (ha : 0 < a) : a < F64.pow2 (F64.ulpExp a + 53) := by
  obtain ⟨_, h2⟩ := F64.ilog2_spec a ha
  have : F64.pow2 (F64.ilog2 a + 1) ≤ F64.pow2 (F64.ulpExp a + 53) := by
    apply F64.pow2_le_pow2
    unfold F64.ulpExp
    omega
  linarith

theorem F64.pow2_ulpExp_le (a : ℚ) (ha : 0 < a) (h : -1074 < F64.ulpExp a) :
    F64.pow2 (F64.ulpExp a + 52) ≤ a := by
  obtain ⟨h1, _⟩ := F64.ilog2_spec a ha
  have : F64.ulpExp a + 52 = F64.ilog2 a := by
    unfold F64.ulpExp at h ⊢
    omega
  rw [this]
  exact h1

theorem F64.ulpExp_of_normal (a : ℚ) (h : F64.pow2 (-1022) ≤ a) :
    F64.ulpExp a = F64.ilog2 a - 52 := by
  have ha : 0 < a := lt_of_lt_of_le (F64.pow2_pos _) h
  obtain ⟨_, h2⟩ := F64.ilog2_spec a ha
  have : -1022 ≤ F64.ilog2 a := by
    by_contra hc
    have : F64.pow2 (F64.ilog2 a + 1) ≤ F64.pow2 (-1022) := F64.pow2_le_pow2 (by omega)
    linarith
  unfold F64.ulpExp
  omega

theorem F64.roundAbs_nonneg (a : ℚ) (ha : 0 ≤ a) : 0 ≤ F64.roundAbs a := by
  unfold F64.roundAbs
  apply mul_nonneg
  · have : 0 ≤ F64.rne (a / F64.pow2 (F64.ulpExp a)) :=
      F64.rne_nonneg (div_nonneg ha (le_of_lt (F64.pow2_pos _)))
    exact_mod_cast this
  · exact le_of_lt (F64.pow2_pos _)

theorem F64.roundAbs_mono {a b : ℚ} (ha : 0 < a) (hab : a ≤ b) :
    F64.roundAbs a ≤ F64.roundAbs b := by
  have hb : 0 < b := lt_of_lt_of_le ha hab
  have he := F64.ulpExp_mono ha hab
  unfold F64.roundAbs
  rcases lt_or_eq_of_le he with hlt | heq
  · -- different binades: a power of two separates the two results
    have h1 : (F64.rne (a / F64.pow2 (F64.ulpExp a)) : ℚ) ≤ (2 : ℚ) ^ (53 : ℕ) := by
      have hs : a / F64.pow2 (F64.ulpExp a) ≤ (((2 : ℤ) ^ (53 : ℕ) : ℤ) : ℚ) := by
        rw [div_le_iff₀ (F64.pow2_pos _)]
        have := F64.lt_pow2_ulpExp a ha
        rw [add_comm, F64.pow2_add] at this
        have e : F64.pow2 53 = (((2 : ℤ) ^ (53 : ℕ) : ℤ) : ℚ) := by
          rw [F64.pow2_eq_zpow]
          norm_num
        rw [e] at this
        exact le_of_lt this
      have := F64.rne_mono hs
      rw [F64.rne_intCast] at this
      exact_mod_cast this
    have h2 : (2 : ℚ) ^ (52 : ℕ) ≤ (F64.rne (b / F64.pow2 (F64.ulpExp b)) : ℚ) := by
      have hs : (((2 : ℤ) ^ (52 : ℕ) : ℤ) : ℚ) ≤ b / F64.pow2 (F64.ulpExp b) := by
        rw [le_div_iff₀ (F64.pow2_pos _)]
        have := F64.pow2_ulpExp_le b hb (by
          have : -1074 ≤ F64.ulpExp a := by
            unfold F64.ulpExp
            omega
          omega)
        rw [add_comm, F64.pow2_add] at this
        have e : F64.pow2 52 = (((2 : ℤ) ^ (52 : ℕ) : ℤ) : ℚ) := by
          rw [F64.pow2_eq_zpow]
          norm_num
        rw [e] at this
        exact this
      have := F64.rne_mono hs
      rw [F64.rne_intCast] at this
      exact_mod_cast this
    have h3 : F64.pow2 (F64.ulpExp a) * 2 ≤ F64.pow2 (F64.ulpExp b) := by
      have : F64.pow2 (F64.ulpExp a + 1) ≤ F64.pow2 (F64.ulpExp b) :=
        F64.pow2_le_pow2 (by omega)
      rw [F64.pow2_add] at this
      have e : F64.pow2 1 = 2 := by
        rw [F64.pow2_eq_zpow]
        norm_num
      rw [e] at this
      exact this
    have pa := F64.pow2_pos (F64.ulpExp a)
    have pb := F64.pow2_pos (F64.ulpExp b)
    calc (F64.rne (a / F64.pow2 (F64.ulpExp a)) : ℚ) * F64.pow2 (F64.ulpExp a)
        ≤ (2 : ℚ) ^ (53 : ℕ) * F64.pow2 (F64.ulpExp a) :=
          mul_le_mul_of_nonneg_right h1 (le_of_lt pa)
      _ = (2 : ℚ) ^ (52 : ℕ) * (F64.pow2 (F64.ulpExp a) * 2) := by ring
      _ ≤ (2 : ℚ) ^ (52 : ℕ) * F64.pow2 (F64.ulpExp b) :=
          mul_le_mul_of_nonneg_left h3 (by positivity)
      _ ≤ (F64.rne (b / F64.pow2 (F64.ulpExp b)) : ℚ) * F64.pow2 (F64.ulpExp b) :=
          mul_le_mul_of_nonneg_right h2 (le_of_lt pb)
  · rw [← heq]
    apply mul_le_mul_of_nonneg_right _ (le_of_lt (F64.pow2_pos _))
    have : a / F64.pow2 (F64.ulpExp a) ≤ b / F64.pow2 (F64.ulpExp a) :=
      div_le_div_of_nonneg_right hab (le_of_lt (F64.pow2_pos _))
    exact_mod_cast F64.rne_mono this

theorem F64.roundAbs_error (a : ℚ) (h : F64.pow2 (-1022) ≤ a) :
    a * (1 - F64.pow2 (-53)) ≤ F64.roundAbs a ∧ F64.roundAbs a ≤ a * (1 + F64.pow2 (-53)) := by
  have ha : 0 < a := lt_of_lt_of_le (F64.pow2_pos _) h
  have he := F64.ulpExp_of_normal a h
  have hlow : F64.pow2 (F64.ulpExp a + 52) ≤ a := by
    rw [he]
    have : F64.ilog2 a - 52 + 52 = F64.ilog2 a := by ring
    rw [this]
    exact (F64.ilog2_spec a ha).1
  have pe := F64.pow2_pos (F64.ulpExp a)
  obtain ⟨r1, r2⟩ := F64.rne_sub_le (a / F64.pow2 (F64.ulpExp a))
  have hsplit : F64.pow2 (F64.ulpExp a + 52) * F64.pow2 (-53) = F64.pow2 (F64.ulpExp a) / 2 := by
    rw [F64.pow2_add, F64.pow2_eq_zpow 52, F64.pow2_eq_zpow (-53)]
    norm_num
    ring
  have hu : 0 < F64.pow2 (-53) := F64.pow2_pos _
  have hhalf : F64.pow2 (F64.ulpExp a) / 2 ≤ a * F64.pow2 (-53) := by
    rw [← hsplit]
    exact mul_le_mul_of_nonneg_right hlow (le_of_lt hu)
  have hdiv : a / F64.pow2 (F64.ulpExp a) * F64.pow2 (F64.ulpExp a) = a :=
    div_mul_cancel₀ a (ne_of_gt pe)
  unfold F64.roundAbs
  constructor
  · have : (a / F64.pow2 (F64.ulpExp a) - 1 / 2) * F64.pow2 (F64.ulpExp a)
        ≤ (F64.rne (a / F64.pow2 (F64.ulpExp a)) : ℚ) * F64.pow2 (F64.ulpExp a) :=
      mul_le_mul_of_nonneg_right (by linarith) (le_of_lt pe)
    rw [sub_mul, hdiv] at this
    linarith
  · have : (F64.rne (a / F64.pow2 (F64.ulpExp a)) : ℚ) * F64.pow2 (F64.ulpExp a)
        ≤ (a / F64.pow2 (F64.ulpExp a) + 1 / 2) * F64.pow2 (F64.ulpExp a) :=
      mul_le_mul_of_nonneg_right (by linarith) (le_of_lt pe)
    rw [add_mul, hdiv] at this
    linarith

theorem F64.round_zero : F64.round 0 = F64.fin 0 := by
  simp [F64.round]

theorem F64.round_of_pos (a : ℚ) (ha : 0 < a) :
    F64.round a
      = if F64.pow2 1024 ≤ F64.roundAbs a then F64.inf false else F64.fin (F64.roundAbs a) := by
  unfold F64.round
  have h1 : ¬ a = 0 := ne_of_gt ha
  have h2 : ¬ a < 0 := not_lt.mpr (le_of_lt ha)
  simp [h1, h2, abs_of_pos ha]

theorem F64.round_nonneg (a : ℚ) (ha : 0 ≤ a) : F64.le (F64.fin 0) (F64.round a) = true := by
  rcases lt_or_eq_of_le ha with h | h
  · rw [F64.round_of_pos a h]
    split_ifs
    · simp [F64.le]
    · simpa [F64.le] using F64.roundAbs_nonneg a ha
  · rw [← h, F64.round_zero]
    simp [F64.le]

theorem F64.round_mono {a b : ℚ} (ha : 0 ≤ a) (hab : a ≤ b) :
    F64.le (F64.round a) (F64.round b) = true := by
  rcases lt_or_eq_of_le ha with h | h
  · have hb : 0 < b := lt_of_lt_of_le h hab
    have hm := F64.roundAbs_mono h hab
    rw [F64.round_of_pos a h, F64.round_of_pos b hb]
    split_ifs with h1 h2 h2
    · simp [F64.le]
    · exact absurd (le_trans h1 hm) h2
    · simp [F64.le]
    · simpa [F64.le] using hm
  · rw [← h, F64.round_zero]
    exact F64.round_nonneg b (le_trans ha hab)

theorem F64.round_error (a : ℚ) (h1 : F64.pow2 (-1022) ≤ a) (h2 : a ≤ F64.pow2 1023) :
    ∃ r, F64.round a = F64.fin r
      ∧ a * (1 - F64.pow2 (-53)) ≤ r ∧ r ≤ a * (1 + F64.pow2 (-53)) := by
  have ha : 0 < a := lt_of_lt_of_le (F64.pow2_pos _) h1
  obtain ⟨e1, e2⟩ := F64.roundAbs_error a h1
  refine ⟨F64.roundAbs a, ?_, e1, e2⟩
  rw [F64.round_of_pos a ha]
  have : ¬ F64.pow2 1024 ≤ F64.roundAbs a := by
    intro hc
    have e3 : F64.pow2 1024 = F64.pow2 1023 * 2 := by
      rw [F64.pow2_eq_zpow, F64.pow2_eq_zpow]
      norm_num
    have e4 : F64.pow2 (-53) < 1 := by
      rw [F64.pow2_eq_zpow]
      norm_num
    have e5 : a * (1 + F64.pow2 (-53)) < F64.pow2 1023 * 2 := by
      nlinarith [F64.pow2_pos (-53), F64.pow2_pos 1023]
    linarith
  simp [this]

/-! ## Order on float64 values -/

theorem F64.leTrans {x y z : F64} (h1 : F64.le x y = true) (h2 : F64.le y z = true) :
    F64.le x z = true := by
  cases x <;> cases y <;> cases z <;> simp_all [F64.le]
  case inf.inf.inf a b c => cases a <;> cases b <;> cases c <;> simp_all
  case fin.fin.fin a b c => exact Preorder.le_trans a b c h1 h2

theorem F64.lt_eq_false_of_le {x y : F64} (h : F64.le x y = true) : F64.lt y x = false := by
  cases x <;> cases y <;> simp_all [F64.le, F64.lt]
  · rename_i n m
    cases n <;> cases m <;> simp_all

theorem F64.leOfLt {x y : F64} (h : F64.lt x y = true) : F64.le x y = true := by
  cases x <;> cases y <;> simp_all [F64.le, F64.lt]
  · rename_i a b
    exact le_of_lt h

theorem F64.le_inf_of_nonneg {x : F64} (h : F64.le (F64.fin 0) x = true) :
    F64.le x (F64.inf false) = true := by
  cases x <;> simp_all [F64.le]

theorem F64.mul_mono_right (x y : F64) (w : ℚ) (hw : 0 < w)
    (hx : F64.le (F64.fin 0) x = true) (hxy : F64.le x y = true) :
    F64.le (F64.fin 0) (F64.mul x (F64.fin w)) = true
    ∧ F64.le (F64.mul x (F64.fin w)) (F64.mul y (F64.fin w)) = true := by
  have hw0 : ¬ w = 0 := ne_of_gt hw
  have hwn : ¬ w < 0 := not_lt.mpr (le_of_lt hw)
  cases x with
  | nan => simp [F64.le] at hx
  | inf n =>
    have hn : n = false := by simpa [F64.le] using hx
    subst hn
    cases y with
    | nan => simp [F64.le] at hxy
    | inf m =>
      have hm : m = false := by simpa [F64.le] using hxy
      subst hm
      simp [F64.mul, F64.le, hw0, hwn]
    | fin b => simp [F64.le] at hxy
  | fin a =>
    have ha : 0 ≤ a := by simpa [F64.le] using hx
    have h0 := F64.round_nonneg (a * w) (mul_nonneg ha (le_of_lt hw))
    refine ⟨by simpa [F64.mul] using h0, ?_⟩
    cases y with
    | nan => simp [F64.le] at hxy
    | inf m =>
      have hm : m = false := by simpa [F64.le] using hxy
      subst hm
      simpa [F64.mul, hw0, hwn] using F64.le_inf_of_nonneg h0
    | fin b =>
      have hab : a ≤ b := by simpa [F64.le] using hxy
      simpa [F64.mul] using
        F64.round_mono (mul_nonneg ha (le_of_lt hw))
          (mul_le_mul_of_nonneg_right hab (le_of_lt hw))

theorem F64.add_mono_right (x y : F64) (w : ℚ) (hw : 0 ≤ w)
    (hx : F64.le (F64.fin 0) x = true) (hxy : F64.le x y = true) :
    F64.le (F64.fin 0) (F64.add x (F64.fin w)) = true
    ∧ F64.le (F64.add x (F64.fin w)) (F64.add y (F64.fin w)) = true := by
  cases x with
  | nan => simp [F64.le] at hx
  | inf n =>
    have hn : n = false := by simpa [F64.le] using hx
    subst hn
    cases y with
    | nan => simp [F64.le] at hxy
    | inf m =>
      have hm : m = false := by simpa [F64.le] using hxy
      subst hm
      simp [F64.add, F64.le]
    | fin b => simp [F64.le] at hxy
  | fin a =>
    have ha : 0 ≤ a := by simpa [F64.le] using hx
    have h0 := F64.round_nonneg (a + w) (add_nonneg ha hw)
    refine ⟨by simpa [F64.add] using h0, ?_⟩
    cases y with
    | nan => simp [F64.le] at hxy
    | inf m =>
      have hm : m = false := by simpa [F64.le] using hxy
      subst hm
      simpa [F64.add] using F64.le_inf_of_nonneg h0
    | fin b =>
      have hab : a ≤ b := by simpa [F64.le] using hxy
      simpa [F64.add] using
        F64.round_mono (add_nonneg ha hw) (add_le_add_right hab w)

/-! ## Bin generation -/

theorem generateBins_of_nonneg (frameCount : Int) (h : 0 ≤ frameCount) :
    generateBins frameCount
      = some ((List.range frameCount.toNat).map (fun (i : Nat) => newBin (i : Int))) := by
  unfold generateBins
  simp [not_lt.mpr h]

theorem getElem?_map_range (f : Nat → bin) (m i : Nat) (h : i < m) :
    ((List.range m).map f)[i]? = some (f i) := by
  simp [List.getElem?_map, List.getElem?_range h]

/-- C6: for `frameCount ≥ 0`, `generateBins` returns exactly `frameCount` bins,
and bin `i` has `binBottom = float64(i) * binWidth`,
`binTop = binBottom + binWidth`, `binCenter = binBottom + binWidth / 2.0`
(float64 operations) and `count = 0`. -/
theorem C6_generateBins_layout (frameCount : Int) (h : 0 ≤ frameCount) :
    ∃ bins, generateBins frameCount = some bins
      ∧ (bins.length : Int) = frameCount
      ∧ ∀ i : Nat, (i : Int) < frameCount →
          ∃ b, bins[i]? = some b
            ∧ b.binBottom = F64.mul (F64.ofInt i) binWidth
            ∧ b.binTop = F64.add b.binBottom binWidth
            ∧ b.binCenter = F64.add b.binBottom (F64.div binWidth (F64.round 2.0))
            ∧ b.count = 0 := by
  refine ⟨_, generateBins_of_nonneg frameCount h, ?_, ?_⟩
  · simp only [List.length_map, List.length_range]
    omega
  · intro i hi
    refine ⟨newBin (i : Int), getElem?_map_range _ _ _ (by omega), rfl, rfl, rfl, rfl⟩

/-- Witness of C6 for three frames. -/
theorem C6_generateBins_layout_witness :
    (0 : Int) ≤ 3
    ∧ ∃ bins, generateBins 3 = some bins
      ∧ (bins.length : Int) = 3
      ∧ ∀ i : Nat, (i : Int) < 3 →
          ∃ b, bins[i]? = some b
            ∧ b.binBottom = F64.mul (F64.ofInt i) binWidth
            ∧ b.binTop = F64.add b.binBottom binWidth
            ∧ b.binCenter = F64.add b.binBottom (F64.div binWidth (F64.round 2.0))
            ∧ b.count = 0 :=
  ⟨by decide, C6_generateBins_layout 3 (by decide)⟩

/-! ## Rounding errors of the bin boundaries -/

theorem F64.round_error_mid (a : ℚ) (h1 : 1 / 2 ^ 100 ≤ a) (h2 : a ≤ 2 ^ 100) :
    ∃ r, F64.round a = F64.fin r
      ∧ a * (1 - 1 / 2 ^ 53) ≤ r ∧ r ≤ a * (1 + 1 / 2 ^ 53) := by
  have e1 : F64.pow2 (-1022) ≤ 1 / 2 ^ 100 := by
    have : F64.pow2 (-1022) ≤ F64.pow2 (-100) := F64.pow2_le_pow2 (by norm_num)
    rw [F64.pow2_eq_zpow (-100)] at this
    calc F64.pow2 (-1022) ≤ (2 : ℚ) ^ (-100 : ℤ) := this
      _ = 1 / 2 ^ 100 := by norm_num [zpow_neg]
  have e2 : (2 : ℚ) ^ 100 ≤ F64.pow2 1023 := by
    have : F64.pow2 100 ≤ F64.pow2 1023 := F64.pow2_le_pow2 (by norm_num)
    rw [F64.pow2_eq_zpow 100] at this
    calc (2 : ℚ) ^ 100 = (2 : ℚ) ^ (100 : ℤ) := by norm_num
      _ ≤ F64.pow2 1023 := this
  have e3 : F64.pow2 (-53) = 1 / 2 ^ 53 := by
    rw [F64.pow2_eq_zpow]
    norm_num [zpow_neg]
  obtain ⟨r, hr, b1, b2⟩ := F64.round_error a (le_trans e1 h1) (le_trans h2 e2)
  rw [e3] at b1 b2
  exact ⟨r, hr, b1, b2⟩

/-- The rounding errors of the bottom and top of bin `i`, for `i ≤ 2 ^ 50`:
both are finite, the bottom is `i * binWidth` up to two roundings and the top
is `bottom + binWidth` up to one rounding. -/
theorem newBin_bounds (i : ℕ) (hi : i ≤ 2 ^ 50) :
    ∃ b t : ℚ, (newBin (i : Int)).binBottom = F64.fin b ∧ (newBin (i : Int)).binTop = F64.fin t
      ∧ (i : ℚ) * (7427640235712282 / 2 ^ 90) * (1 - 1 / 2 ^ 53) ^ 2 ≤ b
      ∧ b ≤ (i : ℚ) * (7427640235712282 / 2 ^ 90) * (1 + 1 / 2 ^ 53) ^ 2
      ∧ (b + 7427640235712282 / 2 ^ 90) * (1 - 1 / 2 ^ 53) ≤ t
      ∧ t ≤ (b + 7427640235712282 / 2 ^ 90) * (1 + 1 / 2 ^ 53) := by
  have hiq : (i : ℚ) ≤ 2 ^ 50 := by exact_mod_cast hi
  have hi0 : (0 : ℚ) ≤ (i : ℚ) := Nat.cast_nonneg i
  have hbottom : ∃ b : ℚ, F64.mul (F64.ofInt (i : Int)) binWidth = F64.fin b
      ∧ (i : ℚ) * (7427640235712282 / 2 ^ 90) * (1 - 1 / 2 ^ 53) ^ 2 ≤ b
      ∧ b ≤ (i : ℚ) * (7427640235712282 / 2 ^ 90) * (1 + 1 / 2 ^ 53) ^ 2 := by
    rw [binWidth_val]
    unfold F64.ofInt
    rcases Nat.eq_zero_or_pos i with h0 | hpos
    · subst h0
      refine ⟨0, ?_, by simp, by simp⟩
      simp [F64.round_zero, F64.mul]
    · have h1q : (1 : ℚ) ≤ (i : ℚ) := by exact_mod_cast hpos
      obtain ⟨r0, hr0, a1, a2⟩ := F64.round_error_mid (i : ℚ)
        (le_trans (by norm_num) h1q) (le_trans hiq (by norm_num))
      have hcast : (((i : ℕ) : ℤ) : ℚ) = (i : ℚ) := Int.cast_natCast i
      rw [hcast, hr0]
      simp only [F64.mul]
      obtain ⟨r1, hr1, c1, c2⟩ := F64.round_error_mid (r0 * (0x1a636641c4df1a / 2 ^ 90))
        (by linarith) (by linarith)
      refine ⟨r1, hr1, ?_, ?_⟩
      · linarith
      · linarith
  obtain ⟨b, hb, b1, b2⟩ := hbottom
  have hb0 : 0 ≤ b := by linarith
  have hbu : b ≤ 2 ^ 14 := by linarith
  obtain ⟨t, ht, t1, t2⟩ := F64.round_error_mid (b + 7427640235712282 / 2 ^ 90)
    (by linarith) (by linarith)
  refine ⟨b, t, ?_, ?_, b1, b2, t1, t2⟩
  · simp only [newBin]
    exact hb
  · simp only [newBin]
    rw [hb, binWidth_val]
    simp only [F64.add]
    have : (b + 0x1a636641c4df1a / 2 ^ 90) = (b + 7427640235712282 / 2 ^ 90) := by norm_num
    rw [this]
    exact ht

/-! ## Order of the bin tops -/

theorem binTop_mono (i j : ℕ) (h : i ≤ j) :
    F64.le (newBin (i : Int)).binTop (newBin (j : Int)).binTop = true := by
  simp only [newBin, binWidth_val, F64.ofInt]
  have hi : (0 : ℚ) ≤ (((i : ℕ) : ℤ) : ℚ) := by simp
  have hij : (((i : ℕ) : ℤ) : ℚ) ≤ (((j : ℕ) : ℤ) : ℚ) := by exact_mod_cast h
  have h1 := F64.round_nonneg _ hi
  have h2 := F64.round_mono hi hij
  obtain ⟨h3, h4⟩ := F64.mul_mono_right _ _ (0x1a636641c4df1a / 2 ^ 90) (by norm_num) h1 h2
  exact (F64.add_mono_right _ _ (0x1a636641c4df1a / 2 ^ 90) (by norm_num) h3 h4).2

theorem binTop_lt_succ (i : ℕ) (hi : i + 1 ≤ 2 ^ 50) :
    F64.lt (newBin (i : Int)).binTop (newBin ((i + 1 : ℕ) : Int)).binTop = true := by
  obtain ⟨b, t, _, ht, b1, b2, t1, t2⟩ := newBin_bounds i (by omega)
  obtain ⟨b', t', _, ht', b1', b2', t1', t2'⟩ := newBin_bounds (i + 1) hi
  rw [ht, ht']
  simp only [F64.lt, decide_eq_true_eq]
  have hiq : ((i + 1 : ℕ) : ℚ) ≤ 2 ^ 50 := by exact_mod_cast hi
  have hi0 : (0 : ℚ) ≤ (i : ℚ) := Nat.cast_nonneg i
  have hc : ((i + 1 : ℕ) : ℚ) = (i : ℚ) + 1 := by push_cast; ring
  rw [hc] at b1' b2' hiq
  linarith

/-- For `i < 2 ^ 50`, the top of bin `i` and the bottom of bin `i + 1` are both
within a relative `2 ^ (-50)` of each other. -/
theorem binTop_near_next_binBottom (i : ℕ) (hi : i + 1 ≤ 2 ^ 50) :
    ∃ t b : ℚ, (newBin (i : Int)).binTop = F64.fin t
      ∧ (newBin ((i + 1 : ℕ) : Int)).binBottom = F64.fin b
      ∧ |t - b| ≤ ((i : ℚ) + 1) * (7427640235712282 / 2 ^ 90) / 2 ^ 50 := by
  obtain ⟨b, t, _, ht, b1, b2, t1, t2⟩ := newBin_bounds i (by omega)
  obtain ⟨b', t', hb', _, b1', b2', _, _⟩ := newBin_bounds (i + 1) hi
  refine ⟨t, b', ht, hb', ?_⟩
  have hi0 : (0 : ℚ) ≤ (i : ℚ) := Nat.cast_nonneg i
  have hc : ((i + 1 : ℕ) : ℚ) = (i : ℚ) + 1 := by push_cast; ring
  rw [hc] at b1' b2'
  rw [abs_le]
  constructor <;> linarith

/-! ## The bottom-up scan of `doStatistics` -/

theorem countInFirstBin_eq (t : F64) (bins : List bin) :
    countInFirstBin t bins
      = match firstBin t bins with
        | none => bins
        | some j => List.modify incrementCount j bins := by
  induction bins with
  | nil => simp [countInFirstBin, firstBin]
  | cons b bs ih =>
    unfold countInFirstBin firstBin
    by_cases h : F64.lt t b.binTop = true
    · simp [h]
    · simp only [h, if_false, ih, Bool.false_eq_true]
      cases firstBin t bs with
      | none => simp
      | some j => simp

theorem firstBin_eq_some_iff (t : F64) (bins : List bin) (j : ℕ) :
    firstBin t bins = some j
      ↔ (∃ b, bins[j]? = some b ∧ F64.lt t b.binTop = true)
        ∧ ∀ k, k < j → ∀ c, bins[k]? = some c → F64.lt t c.binTop = false := by
  induction bins generalizing j with
  | nil => simp [firstBin]
  | cons b bs ih =>
    unfold firstBin
    by_cases h : F64.lt t b.binTop = true
    · simp only [h, if_true, Option.some.injEq]
      constructor
      · intro hj
        subst hj
        exact ⟨⟨b, by simp, h⟩, fun k hk => absurd hk (Nat.not_lt_zero k)⟩
      · intro ⟨_, hk⟩
        by_contra hne
        have hpos : 0 < j := Nat.pos_of_ne_zero (fun e => hne e.symm)
        have := hk 0 hpos b (by simp)
        rw [h] at this
        exact Bool.noConfusion this
    · have hf : F64.lt t b.binTop = false := by simpa using h
      simp only [hf, Bool.false_eq_true, if_false, Option.map_eq_some']
      constructor
      · intro ⟨j0, hj0, hj⟩
        subst hj
        obtain ⟨⟨c, hc1, hc2⟩, hk⟩ := (ih j0).mp hj0
        refine ⟨⟨c, by simpa using hc1, hc2⟩, ?_⟩
        intro k hk2 c2 hc
        cases k with
        | zero =>
          simp at hc
          rw [← hc]
          exact hf
        | succ k => exact hk k (by omega) c2 (by simpa using hc)
      · intro ⟨⟨c, hc1, hc2⟩, hk⟩
        cases j with
        | zero =>
          simp at hc1
          rw [← hc1, hf] at hc2
          exact Bool.noConfusion hc2
        | succ j0 =>
          refine ⟨j0, (ih j0).mpr ⟨⟨c, by simpa using hc1, hc2⟩, ?_⟩, rfl⟩
          intro k hk2 c2 hc
          exact hk (k + 1) (by omega) c2 (by simpa using hc)

theorem firstBin_eq_none_iff (t : F64) (bins : List bin) :
    firstBin t bins = none ↔ ∀ b ∈ bins, F64.lt t b.binTop = false := by
  induction bins with
  | nil => simp [firstBin]
  | cons b bs ih =>
    unfold firstBin
    by_cases h : F64.lt t b.binTop = true
    · simp [h]
    · have hf : F64.lt t b.binTop = false := by simpa using h
      simp [hf, ih]

theorem firstBin_congr (t : F64) (bins bins2 : List bin)
    (h : bins.map (fun b => b.binTop) = bins2.map (fun b => b.binTop)) :
    firstBin t bins = firstBin t bins2 := by
  induction bins generalizing bins2 with
  | nil =>
    cases bins2 with
    | nil => rfl
    | cons c cs => simp at h
  | cons b bs ih =>
    cases bins2 with
    | nil => simp at h
    | cons c cs =>
      simp only [List.map_cons, List.cons.injEq] at h
      unfold firstBin
      rw [h.1, ih cs h.2]

theorem countInFirstBin_frame (t : F64) (bins : List bin) :
    (countInFirstBin t bins).map (fun b => (b.binTop, b.binBottom, b.binCenter))
      = bins.map (fun b => (b.binTop, b.binBottom, b.binCenter)) := by
  induction bins with
  | nil => simp [countInFirstBin]
  | cons b bs ih =>
    unfold countInFirstBin
    by_cases h : F64.lt t b.binTop = true
    · simp [h, incrementCount]
    · simp [h, ih]

theorem countInFirstBin_tops (t : F64) (bins : List bin) :
    (countInFirstBin t bins).map (fun b => b.binTop) = bins.map (fun b => b.binTop) := by
  have := congrArg (List.map (fun p : F64 × F64 × F64 => p.1)) (countInFirstBin_frame t bins)
  simpa [List.map_map, Function.comp] using this

theorem binCount_eq_sum (bins : List bin) : binCount bins = (bins.map (fun b => b.count)).sum := by
  unfold binCount
  have : ∀ (l : List bin) (acc : Int),
      l.foldl (fun acc b => acc + b.count) acc = acc + (l.map (fun b => b.count)).sum := by
    intro l
    induction l with
    | nil => simp
    | cons b bs ih =>
      intro acc
      simp [ih, add_assoc]
  simpa using this bins 0

theorem wrapInt64_of_range (x : Int) (h1 : -(2 ^ 63) ≤ x) (h2 : x < 2 ^ 63) :
    wrapInt64 x = x := by
  unfold wrapInt64
  omega

theorem wrapInt64_le (x : Int) (h : -(2 ^ 63) ≤ x) : wrapInt64 x ≤ x := by
  unfold wrapInt64
  omega

theorem wrapInt64_range (x : Int) : -(2 ^ 63) ≤ wrapInt64 x ∧ wrapInt64 x < 2 ^ 63 := by
  unfold wrapInt64
  omega

theorem wrapInt64_succ (x : Int) : wrapInt64 (wrapInt64 x + 1) = wrapInt64 (x + 1) := by
  unfold wrapInt64
  omega

theorem count_le_sum (bins : List bin) (h0 : ∀ b ∈ bins, 0 ≤ b.count) :
    0 ≤ (bins.map (fun b => b.count)).sum
    ∧ ∀ b ∈ bins, b.count ≤ (bins.map (fun b => b.count)).sum := by
  induction bins with
  | nil => simp
  | cons c cs ih =>
    obtain ⟨i1, i2⟩ := ih (fun b hb => h0 b (List.mem_cons_of_mem _ hb))
    have hc := h0 c (List.mem_cons_self _ _)
    simp only [List.map_cons, List.sum_cons]
    refine ⟨by omega, ?_⟩
    intro b hb
    rcases List.mem_cons.mp hb with e | hb
    · rw [e]
      omega
    · have := i2 b hb
      omega

/-- One pass of the scan raises the sum of the counts by at most one, and keeps
the counts in the range of the machine integer from below. -/
theorem binCount_countInFirstBin_le (t : F64) (bins : List bin)
    (hlow : ∀ b ∈ bins, -(2 ^ 63) ≤ b.count) :
    binCount (countInFirstBin t bins)
        ≤ binCount bins + (if firstBin t bins = none then 0 else 1)
    ∧ ∀ b ∈ countInFirstBin t bins, -(2 ^ 63) ≤ b.count := by
  simp only [binCount_eq_sum]
  induction bins with
  | nil => simp [countInFirstBin, firstBin]
  | cons b bs ih =>
    have hb := hlow b (List.mem_cons_self _ _)
    obtain ⟨i1, i2⟩ := ih (fun c hc => hlow c (List.mem_cons_of_mem _ hc))
    unfold countInFirstBin firstBin
    by_cases h : F64.lt t b.binTop = true
    · have hw := wrapInt64_le (b.count + 1) (by omega)
      have hr := wrapInt64_range (b.count + 1)
      simp only [h, if_true, List.map_cons, List.sum_cons, incrementCount]
      refine ⟨by simp; omega, ?_⟩
      intro c hc
      rcases List.mem_cons.mp hc with e | hc
      · rw [e]
        exact hr.1
      · exact hlow c (List.mem_cons_of_mem _ hc)
    · simp only [h, if_false, List.map_cons, List.sum_cons, Bool.false_eq_true]
      refine ⟨?_, ?_⟩
      · cases hfb : firstBin t bs with
        | none =>
          rw [hfb] at i1
          simp at i1 ⊢
          omega
        | some j =>
          rw [hfb] at i1
          simp at i1 ⊢
          omega
      · intro c hc
        rcases List.mem_cons.mp hc with e | hc
        · rw [e]
          exact hb
        · exact i2 c hc

/-- While the counts are non-negative and their sum is below the largest
machine integer, one pass of the scan raises the sum by exactly one when it
finds a bin, and by nothing otherwise. -/
theorem binCount_countInFirstBin (t : F64) (bins : List bin)
    (h0 : ∀ b ∈ bins, 0 ≤ b.count) (hs : binCount bins < 2 ^ 63 - 1) :
    binCount (countInFirstBin t bins)
        = binCount bins + (if firstBin t bins = none then 0 else 1)
    ∧ ∀ b ∈ countInFirstBin t bins, 0 ≤ b.count := by
  simp only [binCount_eq_sum] at hs ⊢
  induction bins with
  | nil => simp [countInFirstBin, firstBin]
  | cons b bs ih =>
    have hb := h0 b (List.mem_cons_self _ _)
    have hbs := (count_le_sum bs (fun c hc => h0 c (List.mem_cons_of_mem _ hc))).1
    simp only [List.map_cons, List.sum_cons] at hs
    obtain ⟨i1, i2⟩ := ih (fun c hc => h0 c (List.mem_cons_of_mem _ hc)) (by omega)
    unfold countInFirstBin firstBin
    by_cases h : F64.lt t b.binTop = true
    · have hw := wrapInt64_of_range (b.count + 1) (by omega) (by omega)
      simp only [h, if_true, List.map_cons, List.sum_cons, incrementCount, hw]
      refine ⟨by simp; omega, ?_⟩
      intro c hc
      rcases List.mem_cons.mp hc with e | hc
      · rw [e]
        show 0 ≤ b.count + 1
        omega
      · exact h0 c (List.mem_cons_of_mem _ hc)
    · simp only [h, if_false, List.map_cons, List.sum_cons, Bool.false_eq_true]
      refine ⟨?_, ?_⟩
      · cases hfb : firstBin t bs with
        | none =>
          rw [hfb] at i1
          simp at i1 ⊢
          omega
        | some j =>
          rw [hfb] at i1
          simp at i1 ⊢
          omega
      · intro c hc
        rcases List.mem_cons.mp hc with e | hc
        · rw [e]
          exact hb
        · exact i2 c hc

theorem doStatistics_eq_foldl (residences : List residence) (bins : List bin) :
    doStatistics residences bins
      = residences.foldl (fun bs r => countInFirstBin r.residenceTime bs) bins := by
  unfold doStatistics
  cases residences with
  | nil => simp
  | cons r rs => simp

theorem doStatistics_singleton (r : residence) (bins : List bin) :
    doStatistics [r] bins = countInFirstBin r.residenceTime bins := by
  simp [doStatistics_eq_foldl]

theorem foldl_countInFirstBin_tops (residences : List residence) (bins : List bin) :
    (residences.foldl (fun bs r => countInFirstBin r.residenceTime bs) bins).map
        (fun b => b.binTop)
      = bins.map (fun b => b.binTop) := by
  induction residences generalizing bins with
  | nil => simp
  | cons r rs ih => simp [ih, countInFirstBin_tops]

theorem binCount_foldl_countInFirstBin_le (residences : List residence)
    (bins0 bins : List bin)
    (h : bins.map (fun b => b.binTop) = bins0.map (fun b => b.binTop))
    (hlow : ∀ b ∈ bins, -(2 ^ 63) ≤ b.count) :
    binCount (residences.foldl (fun bs r => countInFirstBin r.residenceTime bs) bins)
      ≤ binCount bins
        + ((residences.filter
            (fun r => (firstBin r.residenceTime bins0).isSome)).length : Int) := by
  induction residences generalizing bins with
  | nil => simp
  | cons r rs ih =>
    obtain ⟨s1, s2⟩ := binCount_countInFirstBin_le r.residenceTime bins hlow
    have := ih _ ((countInFirstBin_tops _ _).trans h) s2
    rw [List.foldl_cons, List.filter_cons]
    rw [firstBin_congr _ bins bins0 h] at s1
    cases hfb : firstBin r.residenceTime bins0 with
    | none =>
      rw [hfb] at s1
      simp at s1 ⊢
      omega
    | some j =>
      rw [hfb] at s1
      simp at s1 ⊢
      omega

theorem binCount_doStatistics_le (residences : List residence) (bins : List bin)
    (hlow : ∀ b ∈ bins, -(2 ^ 63) ≤ b.count) :
    binCount (doStatistics residences bins)
      ≤ binCount bins
        + ((residences.filter
            (fun r => (firstBin r.residenceTime bins).isSome)).length : Int) := by
  rw [doStatistics_eq_foldl]
  exact binCount_foldl_countInFirstBin_le residences bins bins rfl hlow

theorem binCount_foldl_countInFirstBin (residences : List residence) (bins0 bins : List bin)
    (h : bins.map (fun b => b.binTop) = bins0.map (fun b => b.binTop))
    (h0 : ∀ b ∈ bins, 0 ≤ b.count)
    (hs : binCount bins + (residences.length : Int) < 2 ^ 63) :
    binCount (residences.foldl (fun bs r => countInFirstBin r.residenceTime bs) bins)
      = binCount bins
        + ((residences.filter
            (fun r => (firstBin r.residenceTime bins0).isSome)).length : Int) := by
  induction residences generalizing bins with
  | nil => simp
  | cons r rs ih =>
    simp only [List.length_cons, Nat.cast_add, Nat.cast_one] at hs
    obtain ⟨s1, s2⟩ := binCount_countInFirstBin r.residenceTime bins h0 (by omega)
    rw [firstBin_congr _ bins bins0 h] at s1
    rw [List.foldl_cons, List.filter_cons]
    cases hfb : firstBin r.residenceTime bins0 with
    | none =>
      rw [hfb] at s1
      simp only [if_true] at s1
      rw [ih _ ((countInFirstBin_tops _ _).trans h) s2 (by omega), s1]
      simp
    | some j =>
      rw [hfb] at s1
      simp only [reduceCtorEq, if_false] at s1
      rw [ih _ ((countInFirstBin_tops _ _).trans h) s2 (by omega), s1]
      simp
      ring

theorem binCount_doStatistics (residences : List residence) (bins : List bin)
    (h0 : ∀ b ∈ bins, 0 ≤ b.count)
    (hs : binCount bins + (residences.length : Int) < 2 ^ 63) :
    binCount (doStatistics residences bins)
      = binCount bins
        + ((residences.filter
            (fun r => (firstBin r.residenceTime bins).isSome)).length : Int) := by
  rw [doStatistics_eq_foldl]
  exact binCount_foldl_countInFirstBin residences bins bins rfl h0 hs

theorem foldl_countInFirstBin_filter (p : residence → Bool) (residences : List residence)
    (bins0 bins : List bin)
    (h : bins.map (fun b => b.binTop) = bins0.map (fun b => b.binTop))
    (hp : ∀ r, p r = false → firstBin r.residenceTime bins0 = none) :
    residences.foldl (fun bs r => countInFirstBin r.residenceTime bs) bins
      = (residences.filter p).foldl (fun bs r => countInFirstBin r.residenceTime bs) bins := by
  induction residences generalizing bins with
  | nil => simp
  | cons r rs ih =>
    rw [List.foldl_cons, List.filter_cons]
    cases hpr : p r with
    | true =>
      simp only [if_true, List.foldl_cons]
      exact ih _ ((countInFirstBin_tops _ _).trans h)
    | false =>
      simp only [Bool.false_eq_true, if_false]
      have : countInFirstBin r.residenceTime bins = bins := by
        rw [countInFirstBin_eq, firstBin_congr _ bins bins0 h, hp r hpr]
      rw [this]
      exact ih bins h

/-! ## Bins of `generateBins` -/

theorem generateBins_getElem? (frameCount : Int) (bins : List bin)
    (h : generateBins frameCount = some bins) (i : ℕ) (hi : (i : Int) < frameCount) :
    bins[i]? = some (newBin (i : Int)) := by
  have h0 : 0 ≤ frameCount := by omega
  rw [generateBins_of_nonneg frameCount h0] at h
  injection h with h
  rw [← h]
  exact getElem?_map_range _ _ _ (by omega)

theorem generateBins_mem (frameCount : Int) (bins : List bin)
    (h : generateBins frameCount = some bins) (b : bin) (hb : b ∈ bins) :
    ∃ i : ℕ, (i : Int) < frameCount ∧ b = newBin (i : Int) := by
  have h0 : 0 ≤ frameCount := by
    unfold generateBins at h
    by_contra hc
    simp [lt_of_not_le hc] at h
  rw [generateBins_of_nonneg frameCount h0] at h
  injection h with h
  rw [← h] at hb
  obtain ⟨i, hi, hib⟩ := List.mem_map.mp hb
  exact ⟨i, by have := List.mem_range.mp hi; omega, hib.symm⟩

theorem generateBins_count (frameCount : Int) (bins : List bin)
    (h : generateBins frameCount = some bins) (b : bin) (hb : b ∈ bins) : b.count = 0 := by
  obtain ⟨i, _, hi⟩ := generateBins_mem frameCount bins h b hb
  rw [hi]
  rfl

theorem generateBins_getLast? (frameCount : Int) (bins : List bin)
    (h : generateBins frameCount = some bins) (h1 : 1 ≤ frameCount) :
    bins.getLast? = some (newBin (frameCount - 1)) := by
  have h0 : 0 ≤ frameCount := by omega
  rw [generateBins_of_nonneg frameCount h0] at h
  injection h with h
  rw [← h]
  obtain ⟨m, hm⟩ : ∃ m : ℕ, frameCount.toNat = m + 1 := ⟨frameCount.toNat - 1, by omega⟩
  rw [hm, List.range_succ, List.map_append, List.map_singleton]
  simp only [List.getLast?_append, List.getLast?_singleton]
  have e : ((m : ℕ) : Int) = frameCount - 1 := by omega
  rw [e]
  rfl

theorem generateBins_binCount (frameCount : Int) (bins : List bin)
    (h : generateBins frameCount = some bins) : binCount bins = 0 := by
  rw [binCount_eq_sum]
  have : ∀ c ∈ bins.map (fun b => b.count), c = 0 := by
    intro c hc
    obtain ⟨b, hb, hbc⟩ := List.mem_map.mp hc
    obtain ⟨i, _, hi⟩ := generateBins_mem frameCount bins h b hb
    rw [← hbc, hi]
    rfl
  exact List.sum_eq_zero this

/-! ## Contiguity of the bins -/

theorem F64.mul_fin_ne_nan (x : F64) (w : ℚ) (hw : w ≠ 0) (hx : x ≠ F64.nan) :
    F64.mul x (F64.fin w) ≠ F64.nan := by
  cases x with
  | nan => exact absurd rfl hx
  | inf n => simp [F64.mul, hw]
  | fin a => simpa [F64.mul] using F64.round_ne_nan _

theorem F64.add_fin_ne_nan (x : F64) (c : ℚ) (hx : x ≠ F64.nan) :
    F64.add x (F64.fin c) ≠ F64.nan := by
  cases x with
  | nan => exact absurd rfl hx
  | inf n => simp [F64.add]
  | fin a => simpa [F64.add] using F64.round_ne_nan _

theorem halfBinWidth_val :
    F64.div binWidth (F64.round 2.0) = F64.fin (0x1a636641c4df1a / 2 ^ 91) := by
  decide!

theorem newBin_ne_nan (i : Int) :
    (newBin i).binBottom ≠ F64.nan ∧ (newBin i).binTop ≠ F64.nan
    ∧ (newBin i).binCenter ≠ F64.nan := by
  have hb : F64.mul (F64.ofInt i) binWidth ≠ F64.nan := by
    rw [binWidth_val]
    exact F64.mul_fin_ne_nan _ _ (by norm_num) (F64.round_ne_nan _)
  refine ⟨hb, ?_, ?_⟩
  · simp only [newBin]
    rw [binWidth_val] at hb ⊢
    exact F64.add_fin_ne_nan _ _ hb
  · simp only [newBin]
    rw [halfBinWidth_val]
    exact F64.add_fin_ne_nan _ _ hb

/-- C7, as stated, fails: with 14 bins, the top of bin 5 is strictly below the
bottom of bin 6 (a gap) and the top of bin 12 is strictly above the bottom of
bin 13 (an overlap); neither pair is equal under Go `==`. -/
theorem C7_contiguity_counterexample :
    ∃ bins b5 b6 b12 b13, generateBins 14 = some bins
      ∧ bins[5]? = some b5 ∧ bins[6]? = some b6
      ∧ bins[12]? = some b12 ∧ bins[13]? = some b13
      ∧ F64.eq b5.binTop b6.binBottom = false ∧ F64.lt b5.binTop b6.binBottom = true
      ∧ F64.eq b12.binTop b13.binBottom = false
      ∧ F64.lt b13.binBottom b12.binTop = true :=
  ⟨_, newBin 5, newBin 6, newBin 12, newBin 13, generateBins_of_nonneg 14 (by decide),
    by decide!, by decide!, by decide!, by decide!, by decide!, by decide!, by decide!,
    by decide!⟩

/-- C7, amended: for every `i` with `i + 1 < frameCount`, under Go `==`,
`bins[i].binCenter == bins[i].binBottom + binWidth/2.0` and
`bins[i].binTop == bins[i].binBottom + binWidth`.  The top of bin `i` and the
bottom of bin `i + 1` are two float64 approximations of `(i + 1) * binWidth`:
for `frameCount ≤ 2 ^ 50` both are finite, they differ by at most
`(i + 1) * binWidth / 2 ^ 50`, and the tops, which alone decide the counting,
increase strictly from one bin to the next. -/
theorem C7_bins_contiguous_up_to_rounding (frameCount : Int) (bins : List bin)
    (h : generateBins frameCount = some bins) (i : ℕ) (hi : (i : Int) + 1 < frameCount) :
    ∃ bi bj, bins[i]? = some bi ∧ bins[i + 1]? = some bj
      ∧ F64.eq bi.binCenter
          (F64.add bi.binBottom (F64.div binWidth (F64.round 2.0))) = true
      ∧ F64.eq bi.binTop (F64.add bi.binBottom binWidth) = true
      ∧ (frameCount ≤ 2 ^ 50 →
          F64.lt bi.binTop bj.binTop = true
          ∧ ∃ t b w : ℚ, bi.binTop = F64.fin t ∧ bj.binBottom = F64.fin b
              ∧ binWidth = F64.fin w ∧ |t - b| ≤ ((i : ℚ) + 1) * w / 2 ^ 50) := by
  refine ⟨newBin (i : Int), newBin ((i + 1 : ℕ) : Int),
    generateBins_getElem? frameCount bins h i (by omega),
    generateBins_getElem? frameCount bins h (i + 1) (by push_cast; omega), ?_, ?_, ?_⟩
  · exact F64.eq_self (newBin_ne_nan _).2.2
  · exact F64.eq_self (newBin_ne_nan _).2.1
  · intro hbound
    have hi2 : i + 1 ≤ 2 ^ 50 := by
      have : ((i + 1 : ℕ) : Int) ≤ 2 ^ 50 := by push_cast; omega
      exact_mod_cast this
    refine ⟨binTop_lt_succ i hi2, ?_⟩
    obtain ⟨t, b, ht, hb, hd⟩ := binTop_near_next_binBottom i hi2
    exact ⟨t, b, _, ht, hb, binWidth_val, by norm_num at hd ⊢; exact hd⟩

/-- Witness of the amended C7 at the place of the counterexample, bins 5 and 6
of 7. -/
theorem C7_bins_contiguous_up_to_rounding_witness :
    ∃ bins, generateBins 7 = some bins
      ∧ ∃ bi bj, bins[5]? = some bi ∧ bins[5 + 1]? = some bj
        ∧ F64.eq bi.binCenter
            (F64.add bi.binBottom (F64.div binWidth (F64.round 2.0))) = true
        ∧ F64.eq bi.binTop (F64.add bi.binBottom binWidth) = true
        ∧ ((7 : Int) ≤ 2 ^ 50 →
            F64.lt bi.binTop bj.binTop = true
            ∧ ∃ t b w : ℚ, bi.binTop = F64.fin t ∧ bj.binBottom = F64.fin b
                ∧ binWidth = F64.fin w ∧ |t - b| ≤ (((5 : ℕ) : ℚ) + 1) * w / 2 ^ 50) :=
  ⟨_, generateBins_of_nonneg 7 (by decide),
    C7_bins_contiguous_up_to_rounding 7 _ (generateBins_of_nonneg 7 (by decide)) 5
      (by decide)⟩

/-! ## First-match scan against index by division -/

/-- C8, as stated, fails.  The residence time `18 * frameTime` (a record of
frames 1 to 19) is non-negative and below `7 * binWidth`; with 7 bins the scan
increments bin 6, while the floor of `residenceTime / binWidth` is 5, both for
the float64 quotient and for the exact quotient.  With 6 bins the same time is
below `6 * binWidth`, for the float64 product and for the exact product, and
yet no bin is incremented. -/
theorem C8_division_index_counterexample :
    ∃ bins7 bins6, generateBins 7 = some bins7 ∧ generateBins 6 = some bins6
      ∧ F64.le (F64.fin 0) (F64.mul (F64.ofInt 18) frameTime) = true
      ∧ F64.lt (F64.mul (F64.ofInt 18) frameTime) (F64.mul (F64.ofInt 7) binWidth) = true
      ∧ firstBin (F64.mul (F64.ofInt 18) frameTime) bins7 = some 6
      ∧ (doStatistics [residence.mk 1 1 19 (F64.mul (F64.ofInt 18) frameTime)] bins7).map
          (fun b => b.count) = [0, 0, 0, 0, 0, 0, 1]
      ∧ divisionIndex (F64.mul (F64.ofInt 18) frameTime) = some 5
      ∧ (∃ tq w : ℚ, F64.mul (F64.ofInt 18) frameTime = F64.fin tq
          ∧ binWidth = F64.fin w ∧ ⌊tq / w⌋ = 5 ∧ 0 ≤ tq ∧ tq < 6 * w)
      ∧ F64.lt (F64.mul (F64.ofInt 18) frameTime) (F64.mul (F64.ofInt 6) binWidth) = true
      ∧ doStatistics [residence.mk 1 1 19 (F64.mul (F64.ofInt 18) frameTime)] bins6
          = bins6 :=
  ⟨_, _, generateBins_of_nonneg 7 (by decide), generateBins_of_nonneg 6 (by decide),
    by decide!, by decide!, by decide!, by decide!, by decide!,
    ⟨0x13ca8cb153a753 / 2 ^ 87, 0x1a636641c4df1a / 2 ^ 90, by decide!, by decide!, by decide!,
      by norm_num, by norm_num⟩,
    by decide!, by decide!⟩

theorem firstBin_floor_bounds (j : ℕ) (hj : j + 1 ≤ 2 ^ 50) (tq : ℚ) (h0 : 0 ≤ tq)
    (hlt : F64.lt (F64.fin tq) (newBin (j : Int)).binTop = true)
    (hge : ∀ k : ℕ, k < j → F64.lt (F64.fin tq) (newBin (k : Int)).binTop = false) :
    (j : Int) - 1 ≤ ⌊tq / (7427640235712282 / 2 ^ 90)⌋
    ∧ ⌊tq / (7427640235712282 / 2 ^ 90)⌋ ≤ (j : Int) + 1 := by
  have hw : (0 : ℚ) < 7427640235712282 / 2 ^ 90 := by norm_num
  have hjq : ((j : ℕ) : ℚ) + 1 ≤ 2 ^ 50 := by exact_mod_cast hj
  have hj0 : (0 : ℚ) ≤ (j : ℚ) := Nat.cast_nonneg j
  obtain ⟨b, t, _, ht, b1, b2, t1, t2⟩ := newBin_bounds j (by omega)
  rw [ht] at hlt
  simp only [F64.lt, decide_eq_true_eq] at hlt
  constructor
  · rw [Int.le_floor, le_div_iff₀ hw]
    push_cast
    rcases Nat.eq_zero_or_pos j with hz | hpos
    · subst hz
      simp only [Nat.cast_zero]
      linarith
    · obtain ⟨k, hk⟩ : ∃ k, j = k + 1 := ⟨j - 1, by omega⟩
      obtain ⟨b', t', _, ht', b1', b2', t1', t2'⟩ := newBin_bounds k (by omega)
      have hk2 := hge k (by omega)
      rw [ht'] at hk2
      simp only [F64.lt, decide_eq_false_iff_not, not_lt] at hk2
      have hkq : (j : ℚ) = (k : ℚ) + 1 := by rw [hk]; push_cast; ring
      have hk0 : (0 : ℚ) ≤ (k : ℚ) := Nat.cast_nonneg k
      rw [hkq] at hjq ⊢
      linarith
  · have : ⌊tq / (7427640235712282 / 2 ^ 90)⌋ < (j : Int) + 2 := by
      rw [Int.floor_lt, div_lt_iff₀ hw]
      push_cast
      linarith
    omega

/-- C8, amended: for the bins of `generateBins` and a record whose residence
time is non-negative and strictly below the top of the last bin, the scan stops
at an index `j`, the first bin (in ascending order) whose top strictly exceeds
the residence time, and `doStatistics` increments the count of that bin and
changes nothing else.  For `frameCount ≤ 2 ^ 50`, `j` is within one of the floor
of the exact quotient `residenceTime / binWidth`. -/
theorem C8_first_match_scan (frameCount : Int) (bins : List bin)
    (h : generateBins frameCount = some bins) (r : residence) (tq : ℚ)
    (ht : r.residenceTime = F64.fin tq) (h0 : 0 ≤ tq)
    (blast : bin) (hlast : bins.getLast? = some blast)
    (hlt : F64.lt r.residenceTime blast.binTop = true) :
    ∃ j : ℕ, (∃ bj, bins[j]? = some bj ∧ F64.lt r.residenceTime bj.binTop = true)
      ∧ (∀ k, k < j → ∀ c, bins[k]? = some c → F64.lt r.residenceTime c.binTop = false)
      ∧ doStatistics [r] bins = List.modify incrementCount j bins
      ∧ (frameCount ≤ 2 ^ 50 →
          ∃ w : ℚ, binWidth = F64.fin w
            ∧ (j : Int) - 1 ≤ ⌊tq / w⌋ ∧ ⌊tq / w⌋ ≤ (j : Int) + 1) := by
  have hsome : ∃ j, firstBin r.residenceTime bins = some j := by
    cases hfb : firstBin r.residenceTime bins with
    | some j => exact ⟨j, rfl⟩
    | none =>
      have := (firstBin_eq_none_iff _ _).mp hfb blast (List.mem_of_getLast?_eq_some hlast)
      rw [hlt] at this
      exact Bool.noConfusion this
  obtain ⟨j, hj⟩ := hsome
  obtain ⟨⟨bj, hbj, hbjlt⟩, hbefore⟩ := (firstBin_eq_some_iff _ _ _).mp hj
  refine ⟨j, ⟨bj, hbj, hbjlt⟩, hbefore, ?_, ?_⟩
  · rw [doStatistics_singleton, countInFirstBin_eq, hj]
  · intro hbound
    have hjn : (j : Int) < frameCount := by
      by_contra hc
      have h0 : 0 ≤ frameCount := by
        unfold generateBins at h
        by_contra hc2
        simp [lt_of_not_le hc2] at h
      rw [generateBins_of_nonneg frameCount h0] at h
      injection h with h
      have hlen : bins.length = frameCount.toNat := by rw [← h]; simp
      have : j < bins.length := by
        by_contra hc3
        rw [List.getElem?_eq_none (by omega)] at hbj
        exact Option.noConfusion hbj
      omega
    have hj2 : j + 1 ≤ 2 ^ 50 := by
      have : ((j + 1 : ℕ) : Int) ≤ 2 ^ 50 := by push_cast; omega
      exact_mod_cast this
    have ebj := generateBins_getElem? frameCount bins h j hjn
    rw [hbj] at ebj
    injection ebj with ebj
    refine ⟨_, binWidth_val, ?_⟩
    have := firstBin_floor_bounds j hj2 tq h0 (by rw [← ht, ← ebj]; exact hbjlt)
      (by
        intro k hk
        have := hbefore k hk _ (generateBins_getElem? frameCount bins h k (by omega))
        rw [ht] at this
        exact this)
    norm_num at this ⊢
    exact this

/-- Witness of the amended C8 at the place of the counterexample: the time
`18 * frameTime` with 7 bins. -/
theorem C8_first_match_scan_witness :
    ∃ bins, generateBins 7 = some bins
      ∧ bins.getLast? = some (newBin 6)
      ∧ F64.lt (F64.mul (F64.ofInt 18) frameTime) (newBin 6).binTop = true
      ∧ ∃ j : ℕ,
          (∃ bj, bins[j]? = some bj
            ∧ F64.lt (residence.mk 1 1 19 (F64.mul (F64.ofInt 18) frameTime)).residenceTime
                bj.binTop = true)
          ∧ (∀ k, k < j → ∀ c, bins[k]? = some c →
              F64.lt (residence.mk 1 1 19 (F64.mul (F64.ofInt 18) frameTime)).residenceTime
                c.binTop = false)
          ∧ doStatistics [residence.mk 1 1 19 (F64.mul (F64.ofInt 18) frameTime)] bins
              = List.modify incrementCount j bins
          ∧ ((7 : Int) ≤ 2 ^ 50 →
              ∃ w : ℚ, binWidth = F64.fin w
                ∧ (j : Int) - 1 ≤ ⌊(0x13ca8cb153a753 / 2 ^ 87 : ℚ) / w⌋
                ∧ ⌊(0x13ca8cb153a753 / 2 ^ 87 : ℚ) / w⌋ ≤ (j : Int) + 1) :=
  ⟨_, generateBins_of_nonneg 7 (by decide), by decide!, by decide!,
    C8_first_match_scan 7 _ (generateBins_of_nonneg 7 (by decide))
      (residence.mk 1 1 19 (F64.mul (F64.ofInt 18) frameTime))
      (0x13ca8cb153a753 / 2 ^ 87) (by decide!) (by norm_num) (newBin 6) (by decide!)
      (by decide!)⟩

/-! ## A residence time equal to a bin top -/

theorem firstBin_binTop (frameCount : Int) (bins : List bin)
    (h : generateBins frameCount = some bins) (hbound : frameCount ≤ 2 ^ 50) (i : ℕ)
    (hi : (i : Int) + 1 < frameCount) :
    firstBin (newBin (i : Int)).binTop bins = some (i + 1) := by
  rw [firstBin_eq_some_iff]
  have hi2 : i + 1 ≤ 2 ^ 50 := by
    have : ((i + 1 : ℕ) : Int) ≤ 2 ^ 50 := by push_cast; omega
    exact_mod_cast this
  refine ⟨⟨newBin ((i + 1 : ℕ) : Int),
    generateBins_getElem? frameCount bins h (i + 1) (by push_cast; omega),
    binTop_lt_succ i hi2⟩, ?_⟩
  intro k hk c hc
  rw [generateBins_getElem? frameCount bins h k (by omega)] at hc
  injection hc with hc
  rw [← hc]
  exact F64.lt_eq_false_of_le (binTop_mono k i (by omega))

/-- C9: for the bins of `generateBins` (at most `2 ^ 50` of them), `i + 1 <
frameCount`, and a record whose residence time equals `bins[i].binTop`,
`doStatistics` increments the count of bin `i + 1` and of no other bin; bin `i`
is unchanged. -/
theorem C9_time_equal_to_binTop (frameCount : Int) (bins : List bin)
    (h : generateBins frameCount = some bins) (hbound : frameCount ≤ 2 ^ 50) (i : ℕ)
    (hi : (i : Int) + 1 < frameCount) (bi : bin) (hbi : bins[i]? = some bi)
    (r : residence) (hr : r.residenceTime = bi.binTop) :
    ∃ bj, bins[i + 1]? = some bj
      ∧ doStatistics [r] bins = List.modify incrementCount (i + 1) bins
      ∧ (doStatistics [r] bins)[i + 1]? = some { bj with count := bj.count + 1 }
      ∧ (doStatistics [r] bins)[i]? = some bi := by
  have ebi := generateBins_getElem? frameCount bins h i (by omega)
  rw [hbi] at ebi
  injection ebi with ebi
  have hfb := firstBin_binTop frameCount bins h hbound i hi
  rw [← ebi, ← hr] at hfb
  have hj := generateBins_getElem? frameCount bins h (i + 1) (by push_cast; omega)
  have hds : doStatistics [r] bins = List.modify incrementCount (i + 1) bins := by
    rw [doStatistics_singleton, countInFirstBin_eq, hfb]
  refine ⟨_, hj, hds, ?_, ?_⟩
  · rw [hds, List.getElem?_modify_eq, hj]
    have hw : wrapInt64 ((newBin ((i + 1 : ℕ) : Int)).count + 1)
        = (newBin ((i + 1 : ℕ) : Int)).count + 1 :=
      wrapInt64_of_range _ (by show -(2 ^ 63) ≤ (0 : Int) + 1; norm_num)
        (by show (0 : Int) + 1 < 2 ^ 63; norm_num)
    have hinc : incrementCount (newBin ((i + 1 : ℕ) : Int))
        = { newBin ((i + 1 : ℕ) : Int) with
            count := (newBin ((i + 1 : ℕ) : Int)).count + 1 } := by
      simp only [incrementCount, hw]
    rw [← hinc]
    rfl
  · rw [hds, List.getElem?_modify_ne _ _ (by omega), hbi]

/-- Witness of C9: with 7 bins, a residence time equal to the top of bin 5 is
counted in bin 6. -/
theorem C9_time_equal_to_binTop_witness :
    ∃ bins, generateBins 7 = some bins ∧ bins[5]? = some (newBin 5)
      ∧ ∃ bj, bins[5 + 1]? = some bj
        ∧ doStatistics [residence.mk 1 0 0 (newBin 5).binTop] bins
            = List.modify incrementCount (5 + 1) bins
        ∧ (doStatistics [residence.mk 1 0 0 (newBin 5).binTop] bins)[5 + 1]?
            = some { bj with count := bj.count + 1 }
        ∧ (doStatistics [residence.mk 1 0 0 (newBin 5).binTop] bins)[5]? = some (newBin 5) :=
  ⟨_, generateBins_of_nonneg 7 (by decide), by decide!,
    C9_time_equal_to_binTop 7 _ (generateBins_of_nonneg 7 (by decide)) (by norm_num) 5
      (by decide) (newBin 5) (by decide!) (residence.mk 1 0 0 (newBin 5).binTop) rfl⟩

/-! ## Histogram overflow -/

/-- C10, as stated, fails.  With 13 bins, the residence time `39 * frameTime`
(a record of frames 1 to 40) is at least the float64 product
`float64(13) * binWidth` under Go `>=`, and yet `doStatistics` counts it in
bin 12, whose top is one unit in the last place above that product: the sum of
the bin counts is 1, the number of records. -/
theorem C10_overflow_counterexample :
    ∃ bins, generateBins 13 = some bins
      ∧ F64.ge (F64.mul (F64.ofInt 39) frameTime) (F64.mul (F64.ofInt 13) binWidth) = true
      ∧ (doStatistics [residence.mk 1 1 40 (F64.mul (F64.ofInt 39) frameTime)] bins).map
          (fun b => b.count) = [0, 0, 0, 0, 0, 0, 0, 0, 0, 0, 0, 0, 1]
      ∧ binCount (doStatistics [residence.mk 1 1 40 (F64.mul (F64.ofInt 39) frameTime)] bins)
          = 1
      ∧ ¬ (binCount (doStatistics [residence.mk 1 1 40 (F64.mul (F64.ofInt 39) frameTime)]
            bins)
          < ([residence.mk 1 1 40 (F64.mul (F64.ofInt 39) frameTime)].length : Int)) :=
  ⟨_, generateBins_of_nonneg 13 (by decide), by decide!, by decide!, by decide!, by decide!⟩

theorem firstBin_of_overflows (frameCount : Int) (bins : List bin)
    (h : generateBins frameCount = some bins) (r : residence)
    (hr : overflows bins r = true) : firstBin r.residenceTime bins = none := by
  rw [firstBin_eq_none_iff]
  intro c hc
  obtain ⟨k, hk, hck⟩ := generateBins_mem frameCount bins h c hc
  have h1 : 1 ≤ frameCount := by omega
  have hlast := generateBins_getLast? frameCount bins h h1
  unfold overflows at hr
  rw [hlast] at hr
  simp only [F64.ge] at hr
  obtain ⟨m, hm⟩ : ∃ m : ℕ, frameCount - 1 = (m : Int) := ⟨(frameCount - 1).toNat, by omega⟩
  rw [hm] at hr
  rw [hck]
  exact F64.lt_eq_false_of_le (F64.leTrans (binTop_mono k m (by omega)) hr)

/-- C10, amended: for the bins of `generateBins`, a record whose residence time
is at or above the top of the last bin, `float64(frameCount-1)*binWidth +
binWidth` (any record, when there is no bin), increments no bin: the scan stops
at no bin for it and `doStatistics` returns the same bins with and without such
records.  Whenever the list holds such a record, the sum of all bin counts is
strictly less than the number of records. -/
theorem C10_overflow_dropped (frameCount : Int) (bins : List bin)
    (h : generateBins frameCount = some bins) (residences : List residence) :
    (∀ r, overflows bins r = true → firstBin r.residenceTime bins = none
        ∧ doStatistics [r] bins = bins)
    ∧ doStatistics residences bins
        = doStatistics (residences.filter (fun r => !overflows bins r)) bins
    ∧ ((∃ r ∈ residences, overflows bins r = true) →
        binCount (doStatistics residences bins) < (residences.length : Int)) := by
  refine ⟨?_, ?_, ?_⟩
  · intro r hr
    have := firstBin_of_overflows frameCount bins h r hr
    exact ⟨this, by rw [doStatistics_singleton, countInFirstBin_eq, this]⟩
  · rw [doStatistics_eq_foldl, doStatistics_eq_foldl]
    apply foldl_countInFirstBin_filter _ residences bins bins rfl
    intro r hr
    exact firstBin_of_overflows frameCount bins h r (by simpa using hr)
  · intro ⟨r, hr, hov⟩
    have hle := binCount_doStatistics_le residences bins (by
      intro b hb
      rw [generateBins_count frameCount bins h b hb]
      norm_num)
    rw [generateBins_binCount frameCount bins h, zero_add] at hle
    have : (residences.filter
        (fun r => (firstBin r.residenceTime bins).isSome)).length < residences.length := by
      rw [List.length_filter_lt_length_iff_exists]
      refine ⟨r, hr, ?_⟩
      rw [firstBin_of_overflows frameCount bins h r hov]
      simp
    have hlt : ((residences.filter
        (fun r => (firstBin r.residenceTime bins).isSome)).length : Int)
        < (residences.length : Int) := by exact_mod_cast this
    omega

/-- Witness of the amended C10: with 13 bins, a record at the top of the last
bin is dropped and a record of `39 * frameTime` is counted. -/
theorem C10_overflow_dropped_witness :
    ∃ bins, generateBins 13 = some bins
      ∧ overflows bins (residence.mk 2 0 0 (newBin 12).binTop) = true
      ∧ doStatistics [residence.mk 1 1 40 (F64.mul (F64.ofInt 39) frameTime),
            residence.mk 2 0 0 (newBin 12).binTop] bins
          = doStatistics ([residence.mk 1 1 40 (F64.mul (F64.ofInt 39) frameTime),
              residence.mk 2 0 0 (newBin 12).binTop].filter
                (fun r => !overflows bins r)) bins
      ∧ binCount (doStatistics [residence.mk 1 1 40 (F64.mul (F64.ofInt 39) frameTime),
            residence.mk 2 0 0 (newBin 12).binTop] bins)
          < (([residence.mk 1 1 40 (F64.mul (F64.ofInt 39) frameTime),
              residence.mk 2 0 0 (newBin 12).binTop].length : ℕ) : Int) :=
  ⟨_, generateBins_of_nonneg 13 (by decide), by decide!,
    (C10_overflow_dropped 13 _ (generateBins_of_nonneg 13 (by decide)) _).2.1,
    (C10_overflow_dropped 13 _ (generateBins_of_nonneg 13 (by decide)) _).2.2
      ⟨residence.mk 2 0 0 (newBin 12).binTop, by simp, by decide!⟩⟩

/-! ## `doStatistics` on an empty residence list -/

/-- C11: on an empty residence list `doStatistics` prints the "no completed
residences" message instead of a mean, so the division by the record count is
not evaluated (it would be `0.0 / 0 = NaN`), and it returns the bins it was
given, unchanged. -/
theorem C11_empty_residences (bins : List bin) :
    doStatistics [] bins = bins
    ∧ doStatisticsMessage [] = statisticsMessage.noCompletedResidences
    ∧ (∀ avg, doStatisticsMessage [] ≠ statisticsMessage.averageResidenceTime avg)
    ∧ avgResidenceTime [] = F64.nan := by
  refine ⟨rfl, rfl, ?_, by decide!⟩
  intro avg h
  simp [doStatisticsMessage] at h

/-! ## A leaving atom without an open record -/

/-- C12: when the open-record map has no entry for a leaving identifier, the
step of the closing loop for it appends the record with `atomID = 0`,
`firstFrame = 0`, `lastFrame = frameCount` and
`residenceTime = float64(frameCount) * frameTime` to the completed list, and
the map it leaves has no entry for the identifier (it has the same entries as
before). -/
theorem C12_missing_open_record (frameCount : Int) (atomID : Int)
    (completedResidences : List residence) (currentResidences : List (Int × residence))
    (rest : List Int) (h : mapLookup currentResidences atomID = none) :
    completeResidence frameCount currentResidences atomID
      = { atomID := 0, firstFrame := 0, lastFrame := frameCount,
          residenceTime := F64.mul (F64.ofInt frameCount) frameTime }
    ∧ closeResidences frameCount (atomID :: rest) (completedResidences, currentResidences)
        = closeResidences frameCount rest
            (completedResidences
              ++ [{ atomID := 0, firstFrame := 0, lastFrame := frameCount,
                    residenceTime := F64.mul (F64.ofInt frameCount) frameTime }],
             mapDelete currentResidences atomID)
    ∧ mapLookup (mapDelete currentResidences atomID) atomID = none
    ∧ (∀ k, mapLookup (mapDelete currentResidences atomID) k
        = mapLookup currentResidences k) := by
  have hrec : completeResidence frameCount currentResidences atomID
      = { atomID := 0, firstFrame := 0, lastFrame := frameCount,
          residenceTime := F64.mul (F64.ofInt frameCount) frameTime } := by
    simp [completeResidence, h, zeroResidence]
  refine ⟨hrec, ?_, ?_, ?_⟩
  · rw [closeResidences_cons, hrec]
  · rw [mapLookup_mapDelete]
    simp
  · intro k
    rw [mapLookup_mapDelete]
    by_cases hk : k = atomID
    · simp [hk, h]
    · simp [hk]

/-- A trajectory whose first frame lists atom 5 twice and whose second frame is
empty: atom 5 leaves twice, and its second lookup finds no open record. -/
theorem duplicate_getResidences :
    getResidences flatLib ["5 O 0.0 0.0 0.0 2", "5 O 0.0 0.0 0.0 2", "1", "2"]
      = ([residence.mk 5 1 2 (F64.mul (F64.ofInt 1) frameTime),
          residence.mk 0 0 2 (F64.mul (F64.ofInt 2) frameTime)], 2) := by
  decide!

/-- Witness of C12: the second closing of atom 5 at frame 2, on the map left
empty by the first one. -/
theorem C12_missing_open_record_witness :
    mapLookup ([] : List (Int × residence)) 5 = none
    ∧ completeResidence 2 [] 5
      = { atomID := 0, firstFrame := 0, lastFrame := 2,
          residenceTime := F64.mul (F64.ofInt 2) frameTime }
    ∧ closeResidences 2 [5]
        ([residence.mk 5 1 2 (F64.mul (F64.ofInt 1) frameTime)], [])
      = ([residence.mk 5 1 2 (F64.mul (F64.ofInt 1) frameTime),
          residence.mk 0 0 2 (F64.mul (F64.ofInt 2) frameTime)], []) := by
  have h := C12_missing_open_record 2 5
    [residence.mk 5 1 2 (F64.mul (F64.ofInt 1) frameTime)] [] [] rfl
  exact ⟨rfl, h.1, by rw [h.2.1]; rfl⟩

/-! ## Atom records and line classification -/

theorem line2atom_of_length (lib : FloatLib) (fields : List String) (h : fields.length > 5) :
    ∃ a, line2atom lib fields = some a
      ∧ a.id = strconvAtoi (fields.getD 0 "") ∧ a.element = fields.getD 1 ""
      ∧ a.x = lib.parseFloat (fields.getD 2 "") ∧ a.y = lib.parseFloat (fields.getD 3 "")
      ∧ a.z = lib.parseFloat (fields.getD 4 "") ∧ a.atomType = fields.getD 5 "" := by
  match fields, h with
  | f0 :: f1 :: f2 :: f3 :: f4 :: f5 :: rest, _ =>
    exact ⟨_, rfl, rfl, rfl, rfl, rfl, rfl, rfl⟩

theorem isAtomRecord_iff (line : String) :
    isAtomRecord line = true
      ↔ (stringsFields line).length > 5 ∧ stringsContains line boxMarker = false := by
  simp [isAtomRecord]

theorem isSeparator_iff (line : String) :
    isSeparator line = true ↔ (stringsFields line).length = 1 := by
  unfold isSeparator isAtomRecord
  constructor
  · intro h
    simp only [Bool.and_eq_true, beq_iff_eq] at h
    exact h.2
  · intro h
    simp [h]

theorem atomOfLine_of_isAtomRecord (lib : FloatLib) (line : String)
    (h : isAtomRecord line = true) :
    ∃ a, atomOfLine lib line = some a ∧ line2atom lib (stringsFields line) = some a := by
  obtain ⟨a, ha, _⟩ := line2atom_of_length lib (stringsFields line) ((isAtomRecord_iff line).mp h).1
  exact ⟨a, by simp [atomOfLine, h, ha], ha⟩

theorem scanLine_of_atomOfLine (lib : FloatLib) (s : scanState) (line : String) (a : atom)
    (h : atomOfLine lib line = some a) : scanLine lib s line = atomStep lib s a := by
  unfold atomOfLine at h
  by_cases hr : isAtomRecord line = true
  · simp only [hr, if_true] at h
    unfold isAtomRecord at hr
    unfold scanLine
    simp only [hr, if_true, h]
  · simp [hr] at h

theorem scanLine_of_ignored (lib : FloatLib) (s : scanState) (line : String)
    (h1 : isAtomRecord line = false) (h2 : isSeparator line = false) :
    scanLine lib s line = s := by
  unfold isSeparator at h2
  rw [h1] at h2
  simp only [Bool.not_false, Bool.true_and] at h2
  unfold isAtomRecord at h1
  unfold scanLine
  simp [h1, h2]

theorem atomStep_currentShellOxygens (lib : FloatLib) (s : scanState) (a : atom) :
    (atomStep lib s a).currentShellOxygens
      = if a.id ≠ 1 ∧ a.element = "O"
            ∧ F64.lt (dist2center lib s.structureCenter a) shellDist = true
        then s.currentShellOxygens ++ [a.id] else s.currentShellOxygens := by
  unfold atomStep
  by_cases h1 : a.id = 1
  · simp [h1]
  · by_cases h2 : a.element = "O"
    · by_cases h3 : F64.lt (dist2center lib s.structureCenter a) shellDist = true
      · simp [h1, h2, h3]
      · simp [h1, h2, h3]
    · simp [h1, h2]

theorem F64.lt_self (x : F64) : F64.lt x x = false := by
  cases x with
  | nan => rfl
  | inf n => cases n <;> rfl
  | fin q => simp [F64.lt]

/-- C13: for every atom record, the identifier is appended to the current
frame's shell-member list if and only if it is not 1, the element symbol is
`"O"` and `dist2center` to the structure center in effect is strictly below
`shellDist` under Go `<`; otherwise the list is unchanged.  In particular the
atom with identifier 1 is never appended, and neither is an oxygen at distance
exactly `shellDist`. -/
theorem C13_shell_membership (lib : FloatLib) (s : scanState) (line : String)
    (h : isAtomRecord line = true) :
    ∃ a, line2atom lib (stringsFields line) = some a
      ∧ (scanLine lib s line).currentShellOxygens
          = (if a.id ≠ 1 ∧ a.element = "O"
                ∧ F64.lt (dist2center lib s.structureCenter a) shellDist = true
             then s.currentShellOxygens ++ [a.id] else s.currentShellOxygens)
      ∧ (a.id = 1 → (scanLine lib s line).currentShellOxygens = s.currentShellOxygens)
      ∧ (dist2center lib s.structureCenter a = shellDist →
          (scanLine lib s line).currentShellOxygens = s.currentShellOxygens)
      ∧ shellDist = F64.round 3.6 := by
  obtain ⟨a, ha, ha2⟩ := atomOfLine_of_isAtomRecord lib line h
  refine ⟨a, ha2, ?_, ?_, ?_, rfl⟩
  · rw [scanLine_of_atomOfLine lib s line a ha, atomStep_currentShellOxygens]
  · intro h1
    rw [scanLine_of_atomOfLine lib s line a ha, atomStep_currentShellOxygens]
    simp [h1]
  · intro hd
    rw [scanLine_of_atomOfLine lib s line a ha, atomStep_currentShellOxygens, hd, F64.lt_self]
    simp

/-- Witness of C13: an oxygen record with identifier 10 read in the initial
state, with the stand-in library of zero distances. -/
theorem C13_shell_membership_witness :
    isAtomRecord "10 O 0.0 0.0 0.0 2" = true
    ∧ (scanLine flatLib initialState "10 O 0.0 0.0 0.0 2").currentShellOxygens = [10]
    ∧ ∃ a, line2atom flatLib (stringsFields "10 O 0.0 0.0 0.0 2") = some a
        ∧ (scanLine flatLib initialState "10 O 0.0 0.0 0.0 2").currentShellOxygens
            = (if a.id ≠ 1 ∧ a.element = "O"
                  ∧ F64.lt (dist2center flatLib initialState.structureCenter a) shellDist = true
               then initialState.currentShellOxygens ++ [a.id]
               else initialState.currentShellOxygens) := by
  obtain ⟨a, h1, h2, _⟩ :=
    C13_shell_membership flatLib initialState "10 O 0.0 0.0 0.0 2" (by decide!)
  exact ⟨by decide!, by decide!, a, h1, h2⟩

/-- C14: every line takes exactly one of three branches.  It is processed as an
atom record if and only if it has more than 5 fields and does not contain the
box marker; as a frame separator if and only if it has exactly 1 field; every
other line, such as a box-dimension line of six fields, leaves the state of
the loop unchanged. -/
theorem C14_line_classification (lib : FloatLib) (s : scanState) (line : String) :
    (isAtomRecord line = true
      ↔ (stringsFields line).length > 5 ∧ stringsContains line boxMarker = false)
    ∧ (isSeparator line = true ↔ (stringsFields line).length = 1)
    ∧ ¬ (isAtomRecord line = true ∧ isSeparator line = true)
    ∧ (isAtomRecord line = true →
        ∃ a, line2atom lib (stringsFields line) = some a
          ∧ scanLine lib s line = atomStep lib s a)
    ∧ (isSeparator line = true → scanLine lib s line = separatorStep s)
    ∧ (isAtomRecord line = false → isSeparator line = false → scanLine lib s line = s)
    ∧ (stringsFields
        "    30.000000   30.000000   30.000000   90.000000   90.000000   90.000000").length
        = 6
    ∧ scanLine lib s
        "    30.000000   30.000000   30.000000   90.000000   90.000000   90.000000" = s := by
  refine ⟨isAtomRecord_iff line, isSeparator_iff line, ?_, ?_, ?_, ?_, by decide!, ?_⟩
  · intro ⟨h1, h2⟩
    unfold isSeparator at h2
    simp [h1] at h2
  · intro h
    obtain ⟨a, ha, ha2⟩ := atomOfLine_of_isAtomRecord lib line h
    exact ⟨a, ha2, scanLine_of_atomOfLine lib s line a ha⟩
  · exact scanLine_of_isSeparator lib s line
  · exact scanLine_of_ignored lib s line
  · exact scanLine_of_ignored lib s _ (by decide!) (by decide!)

/-! ## The structure center in effect -/

theorem atomStep_structureCenter (lib : FloatLib) (s : scanState) (a : atom) :
    (atomStep lib s a).structureCenter
      = if a.id = 1 then (a.x, a.y, a.z) else s.structureCenter := by
  unfold atomStep
  by_cases h1 : a.id = 1
  · simp [h1]
  · simp only [h1, beq_iff_eq, if_false]
    split_ifs <;> rfl

theorem atomOfLine_eq_none_of_not_isAtomRecord (lib : FloatLib) (line : String)
    (h : isAtomRecord line = false) : atomOfLine lib line = none := by
  simp [atomOfLine, h]

theorem scanLine_structureCenter (lib : FloatLib) (s : scanState) (line : String) :
    (scanLine lib s line).structureCenter
      = match atomOfLine lib line with
        | some a => if a.id = 1 then (a.x, a.y, a.z) else s.structureCenter
        | none => s.structureCenter := by
  cases hr : isAtomRecord line with
  | true =>
    obtain ⟨a, ha, _⟩ := atomOfLine_of_isAtomRecord lib line hr
    rw [scanLine_of_atomOfLine lib s line a ha, ha, atomStep_structureCenter]
  | false =>
    rw [atomOfLine_eq_none_of_not_isAtomRecord lib line hr]
    cases hs : isSeparator line with
    | true =>
      rw [scanLine_of_isSeparator lib s line hs]
      rfl
    | false => rw [scanLine_of_ignored lib s line hr hs]

theorem scanLines_append_singleton (lib : FloatLib) (s : scanState) (lines : List String)
    (line : String) :
    scanLines lib s (lines ++ [line]) = scanLine lib (scanLines lib s lines) line := by
  simp [scanLines, List.foldl_append]

theorem scanLines_append (lib : FloatLib) (s : scanState) (l1 l2 : List String) :
    scanLines lib s (l1 ++ l2) = scanLines lib (scanLines lib s l1) l2 := by
  simp [scanLines, List.foldl_append]

theorem scanLines_structureCenter (lib : FloatLib) (lines : List String) :
    (scanLines lib initialState lines).structureCenter = centerInEffect lib lines := by
  induction lines using List.reverseRecOn with
  | nil => rfl
  | append_singleton lines line ih =>
    rw [scanLines_append_singleton, scanLine_structureCenter, ih]
    unfold centerInEffect
    rw [List.reverse_append, List.reverse_singleton, List.singleton_append,
      List.filterMap_cons]
    cases ha : atomOfLine lib line with
    | none => rfl
    | some a =>
      simp only [List.find?_cons]
      by_cases h1 : a.id = 1
      · simp [h1]
      · have hf : (a.id == 1) = false := by simpa using h1
        simp [h1, hf]

theorem scanLine_currentShellOxygens_extends (lib : FloatLib) (s : scanState) (line : String)
    (h : isSeparator line = false) :
    ∃ extra, (scanLine lib s line).currentShellOxygens = s.currentShellOxygens ++ extra := by
  cases hr : isAtomRecord line with
  | true =>
    obtain ⟨a, ha, _⟩ := atomOfLine_of_isAtomRecord lib line hr
    rw [scanLine_of_atomOfLine lib s line a ha, atomStep_currentShellOxygens]
    split_ifs
    · exact ⟨[a.id], rfl⟩
    · exact ⟨[], by simp⟩
  | false =>
    rw [scanLine_of_ignored lib s line hr h]
    exact ⟨[], by simp⟩

theorem scanLines_currentShellOxygens_extends (lib : FloatLib) (lines : List String)
    (s : scanState) (h : ∀ l ∈ lines, isSeparator l = false) :
    ∃ extra, (scanLines lib s lines).currentShellOxygens = s.currentShellOxygens ++ extra := by
  induction lines generalizing s with
  | nil => exact ⟨[], by simp [scanLines]⟩
  | cons line rest ih =>
    obtain ⟨e1, h1⟩ := scanLine_currentShellOxygens_extends lib s line
      (h line (List.mem_cons_self _ _))
    obtain ⟨e2, h2⟩ := ih (scanLine lib s line) (fun l hl => h l (List.mem_cons_of_mem _ hl))
    refine ⟨e1 ++ e2, ?_⟩
    have : scanLines lib s (line :: rest) = scanLines lib (scanLine lib s line) rest := by
      simp [scanLines]
    rw [this, h2, h1, List.append_assoc]

/-- C15: the structure center in effect when a line is read is the coordinate
of the most recent earlier atom record with identifier 1, in whatever frame it
was read, or `(0, 0, 0)` if there has been none.  An atom record `a` with
another identifier, read after the lines `pre`, is decided against that
center.  For later lines `mid` of the same frame and a later record `b` with
identifier 1, the shell-member list after `b` is the list after `mid`, and it
starts with the list as it was after `a`: the record `b` moves the center and
neither adds `a` nor removes it. -/
theorem C15_center_order_dependence (lib : FloatLib) (pre mid : List String)
    (la lb : String) (a b : atom)
    (ha : atomOfLine lib la = some a) (ha1 : a.id ≠ 1)
    (hb : atomOfLine lib lb = some b) (hb1 : b.id = 1)
    (hmid : ∀ l ∈ mid, isSeparator l = false) :
    (scanLines lib initialState pre).structureCenter = centerInEffect lib pre
    ∧ (scanLines lib initialState (pre ++ [la])).currentShellOxygens
        = (if a.element = "O"
              ∧ F64.lt (dist2center lib (centerInEffect lib pre) a) shellDist = true
           then (scanLines lib initialState pre).currentShellOxygens ++ [a.id]
           else (scanLines lib initialState pre).currentShellOxygens)
    ∧ (scanLines lib initialState (pre ++ [la])).structureCenter = centerInEffect lib pre
    ∧ (scanLines lib initialState (pre ++ [la] ++ mid ++ [lb])).currentShellOxygens
        = (scanLines lib initialState (pre ++ [la] ++ mid)).currentShellOxygens
    ∧ (∃ extra, (scanLines lib initialState (pre ++ [la] ++ mid ++ [lb])).currentShellOxygens
        = (scanLines lib initialState (pre ++ [la])).currentShellOxygens ++ extra)
    ∧ (scanLines lib initialState (pre ++ [la] ++ mid ++ [lb])).structureCenter
        = (b.x, b.y, b.z) := by
  have hc := scanLines_structureCenter lib pre
  have hstep : (scanLines lib initialState (pre ++ [la] ++ mid ++ [lb])).currentShellOxygens
      = (scanLines lib initialState (pre ++ [la] ++ mid)).currentShellOxygens := by
    rw [scanLines_append_singleton, scanLine_of_atomOfLine lib _ lb b hb,
      atomStep_currentShellOxygens]
    simp [hb1]
  refine ⟨hc, ?_, ?_, hstep, ?_, ?_⟩
  · rw [scanLines_append_singleton, scanLine_of_atomOfLine lib _ la a ha,
      atomStep_currentShellOxygens, hc]
    simp [ha1]
  · rw [scanLines_append_singleton, scanLine_of_atomOfLine lib _ la a ha,
      atomStep_structureCenter, hc]
    simp [ha1]
  · rw [hstep, scanLines_append]
    exact scanLines_currentShellOxygens_extends lib mid _ hmid
  · rw [scanLines_append_singleton, scanLine_of_atomOfLine lib _ lb b hb,
      atomStep_structureCenter]
    simp [hb1]

/-- Witness of C15, with whole-number coordinates.  In frame 1 the oxygen 2 at
`(5, 0, 0)` is read before atom 1 and is tested against `(0, 0, 0)`: it is not
in the shell, and the later record of atom 1 at `(5, 0, 0)` does not add it.
In frame 2 the same oxygen is tested against the center left by frame 1 and is
in the shell; the later record of atom 1 at the origin does not remove it. -/
theorem C15_center_order_dependence_witness :
    atomOfLine squareLib "2 O 5 0 0 t" = some (atom.mk "O" (F64.fin 5) (F64.fin 0) (F64.fin 0) "t" 2)
    ∧ atomOfLine squareLib "1 Na 0 0 0 t"
        = some (atom.mk "Na" (F64.fin 0) (F64.fin 0) (F64.fin 0) "t" 1)
    ∧ centerInEffect squareLib ["2 O 5 0 0 t", "1 Na 5 0 0 t", "1"]
        = (F64.fin 5, F64.fin 0, F64.fin 0)
    ∧ shellLists squareLib
        ["2 O 5 0 0 t", "1 Na 5 0 0 t", "1", "2 O 5 0 0 t", "3 H 9 9 9 t", "1 Na 0 0 0 t", "2"]
        = [[], [2]]
    ∧ (scanLines squareLib initialState
        (["2 O 5 0 0 t", "1 Na 5 0 0 t", "1"] ++ ["2 O 5 0 0 t"] ++ ["3 H 9 9 9 t"]
          ++ ["1 Na 0 0 0 t"])).currentShellOxygens
        = (scanLines squareLib initialState
            (["2 O 5 0 0 t", "1 Na 5 0 0 t", "1"] ++ ["2 O 5 0 0 t"]
              ++ ["3 H 9 9 9 t"])).currentShellOxygens
    ∧ (scanLines squareLib initialState
        (["2 O 5 0 0 t", "1 Na 5 0 0 t", "1"] ++ ["2 O 5 0 0 t"])).currentShellOxygens = [2] :=
  ⟨by decide!, by decide!, by decide!, by decide!,
    (C15_center_order_dependence squareLib ["2 O 5 0 0 t", "1 Na 5 0 0 t", "1"]
      ["3 H 9 9 9 t"] "2 O 5 0 0 t" "1 Na 0 0 0 t"
      (atom.mk "O" (F64.fin 5) (F64.fin 0) (F64.fin 0) "t" 2)
      (atom.mk "Na" (F64.fin 0) (F64.fin 0) (F64.fin 0) "t" 1)
      (by decide!) (by decide) (by decide!) rfl (by decide!)).2.2.2.1,
    by decide!⟩

/-! ## Frame numbering -/

theorem scanLine_frameCount (lib : FloatLib) (s : scanState) (line : String) :
    (scanLine lib s line).frameCount
      = s.frameCount + (if (stringsFields line).length = 1 then 1 else 0) := by
  cases hs : isSeparator line with
  | true =>
    rw [scanLine_of_isSeparator lib s line hs, if_pos ((isSeparator_iff line).mp hs)]
    rfl
  | false =>
    have hne : ¬ (stringsFields line).length = 1 := by
      intro h
      rw [(isSeparator_iff line).mpr h] at hs
      exact Bool.noConfusion hs
    rw [(scanLine_of_not_isSeparator lib s line hs).1, if_neg hne, add_zero]

theorem scanLines_frameCount (lib : FloatLib) (lines : List String) (s : scanState) :
    (scanLines lib s lines).frameCount
      = s.frameCount
        + ((lines.countP (fun l => (stringsFields l).length == 1) : ℕ) : Int) := by
  induction lines generalizing s with
  | nil => simp [scanLines]
  | cons line rest ih =>
    have : scanLines lib s (line :: rest) = scanLines lib (scanLine lib s line) rest := by
      simp [scanLines]
    rw [this, ih, scanLine_frameCount, List.countP_cons]
    by_cases h : (stringsFields line).length = 1
    · simp [h]
      ring
    · simp [h]

theorem separatorStep_frameBounds (s : scanState)
    (h0 : 0 ≤ s.frameCount)
    (hopen : ∀ k r, mapLookup s.currentResidences k = some r →
      1 ≤ r.firstFrame ∧ r.firstFrame ≤ s.frameCount)
    (hdone : ∀ r ∈ s.completedResidences,
      0 ≤ r.firstFrame ∧ r.firstFrame < r.lastFrame ∧ r.lastFrame ≤ s.frameCount) :
    0 ≤ (separatorStep s).frameCount
    ∧ (∀ k r, mapLookup (separatorStep s).currentResidences k = some r →
        1 ≤ r.firstFrame ∧ r.firstFrame ≤ (separatorStep s).frameCount)
    ∧ (∀ r ∈ (separatorStep s).completedResidences,
        0 ≤ r.firstFrame ∧ r.firstFrame < r.lastFrame
        ∧ r.lastFrame ≤ (separatorStep s).frameCount) := by
  have hopened : ∀ k r,
      mapLookup (openResidences (s.frameCount + 1)
        (enteringAtoms s.lastShellOxygens s.currentShellOxygens) s.currentResidences) k
        = some r →
      1 ≤ r.firstFrame ∧ r.firstFrame ≤ s.frameCount + 1
      ∧ (k ∈ s.lastShellOxygens → r.firstFrame ≤ s.frameCount) := by
    intro k r h
    rw [mapLookup_openResidences] at h
    by_cases hk : k ∈ enteringAtoms s.lastShellOxygens s.currentShellOxygens
    · simp only [hk, if_true, Option.some.injEq] at h
      subst h
      refine ⟨?_, le_refl _, fun hl => absurd hl (mem_enteringAtoms.mp hk).2⟩
      show 1 ≤ s.frameCount + 1
      omega
    · simp only [hk, if_false] at h
      have := hopen k r h
      exact ⟨this.1, by omega, fun _ => this.2⟩
  have key := closeResidences_invariant
    (fun r => 0 ≤ r.firstFrame ∧ r.firstFrame < r.lastFrame
      ∧ r.lastFrame ≤ s.frameCount + 1)
    (s.frameCount + 1) (leavingAtoms s.lastShellOxygens s.currentShellOxygens)
    (openResidences (s.frameCount + 1)
        (enteringAtoms s.lastShellOxygens s.currentShellOxygens) s.currentResidences)
    (s.completedResidences, openResidences (s.frameCount + 1)
        (enteringAtoms s.lastShellOxygens s.currentShellOxygens) s.currentResidences)
    (fun r hr => by
      obtain ⟨a, b, c⟩ := hdone r hr
      exact ⟨a, b, by omega⟩)
    (fun _ _ h => h)
    (by
      intro l hl m hm
      obtain ⟨e1, e2, _, _⟩ := completeResidence_fields (s.frameCount + 1) m l
      rw [e1, e2]
      cases hlk : mapLookup m l with
      | none =>
        simp only [Option.getD_none, zeroResidence]
        omega
      | some r =>
        simp only [Option.getD_some]
        have h3 := hopened l r (hm l r hlk)
        have := h3.2.2 (mem_leavingAtoms.mp hl).1
        omega)
  refine ⟨?_, ?_, ?_⟩
  · show 0 ≤ s.frameCount + 1
    omega
  · intro k r h
    have := hopened k r (key.2 k r h)
    exact ⟨this.1, this.2.1⟩
  · exact key.1

theorem scanLines_frameBounds (lib : FloatLib) (lines : List String) (s : scanState)
    (h0 : 0 ≤ s.frameCount)
    (hopen : ∀ k r, mapLookup s.currentResidences k = some r →
      1 ≤ r.firstFrame ∧ r.firstFrame ≤ s.frameCount)
    (hdone : ∀ r ∈ s.completedResidences,
      0 ≤ r.firstFrame ∧ r.firstFrame < r.lastFrame ∧ r.lastFrame ≤ s.frameCount) :
    0 ≤ (scanLines lib s lines).frameCount
    ∧ (∀ k r, mapLookup (scanLines lib s lines).currentResidences k = some r →
        1 ≤ r.firstFrame ∧ r.firstFrame ≤ (scanLines lib s lines).frameCount)
    ∧ (∀ r ∈ (scanLines lib s lines).completedResidences,
        0 ≤ r.firstFrame ∧ r.firstFrame < r.lastFrame
        ∧ r.lastFrame ≤ (scanLines lib s lines).frameCount) := by
  induction lines generalizing s with
  | nil => exact ⟨h0, hopen, hdone⟩
  | cons line rest ih =>
    have hcons : scanLines lib s (line :: rest) = scanLines lib (scanLine lib s line) rest := by
      simp [scanLines]
    rw [hcons]
    cases hs : isSeparator line with
    | true =>
      rw [scanLine_of_isSeparator lib s line hs]
      obtain ⟨a, b, c⟩ := separatorStep_frameBounds s h0 hopen hdone
      exact ih _ a b c
    | false =>
      obtain ⟨e1, e2, e3, _⟩ := scanLine_of_not_isSeparator lib s line hs
      exact ih _ (by rw [e1]; exact h0) (by rw [e1, e2]; exact hopen)
        (by rw [e1, e3]; exact hdone)

theorem getResidences_append_tail (lib : FloatLib) (lines tail : List String)
    (h : ∀ l ∈ tail, isSeparator l = false) :
    getResidences lib (lines ++ tail) = getResidences lib lines := by
  have key : ∀ s : scanState,
      (scanLines lib s tail).completedResidences = s.completedResidences
      ∧ (scanLines lib s tail).frameCount = s.frameCount := by
    induction tail with
    | nil => exact fun s => ⟨rfl, rfl⟩
    | cons line rest ih =>
      intro s
      have hcons : scanLines lib s (line :: rest)
          = scanLines lib (scanLine lib s line) rest := by
        simp [scanLines]
      obtain ⟨e1, _, e3, _⟩ := scanLine_of_not_isSeparator lib s line
        (h line (List.mem_cons_self _ _))
      obtain ⟨i1, i2⟩ := ih (fun l hl => h l (List.mem_cons_of_mem _ hl)) (scanLine lib s line)
      rw [hcons, i1, i2, e1, e3]
      exact ⟨rfl, rfl⟩
  show ((scanLines lib initialState (lines ++ tail)).completedResidences,
      (scanLines lib initialState (lines ++ tail)).frameCount)
    = ((scanLines lib initialState lines).completedResidences,
      (scanLines lib initialState lines).frameCount)
  rw [scanLines_append, (key _).1, (key _).2]

/-- C16: the frame count returned by `getResidences` is the number of lines
with exactly one field.  The counter is incremented before the tracker runs:
after the first such line it is 1, every open record has
`1 ≤ firstFrame ≤ frameCount` and every completed record has
`0 ≤ firstFrame < lastFrame ≤ frameCount`.  Lines after the final separator
change neither the completed list nor the frame count. -/
theorem C16_frame_count (lib : FloatLib) (lines tail : List String) :
    (getResidences lib lines).2
        = ((lines.countP (fun l => (stringsFields l).length == 1) : ℕ) : Int)
    ∧ (∀ r ∈ (getResidences lib lines).1,
        0 ≤ r.firstFrame ∧ r.firstFrame < r.lastFrame
        ∧ r.lastFrame ≤ (getResidences lib lines).2)
    ∧ (∀ k r, mapLookup (scanLines lib initialState lines).currentResidences k = some r →
        1 ≤ r.firstFrame ∧ r.firstFrame ≤ (getResidences lib lines).2)
    ∧ ((∀ l ∈ lines, (stringsFields l).length ≠ 1) →
        ∀ sep, (stringsFields sep).length = 1 → (getResidences lib (lines ++ [sep])).2 = 1)
    ∧ ((∀ l ∈ tail, (stringsFields l).length ≠ 1) →
        getResidences lib (lines ++ tail) = getResidences lib lines) := by
  have hb := scanLines_frameBounds lib lines initialState (le_refl _)
    (by simp [initialState, mapLookup]) (by simp [initialState])
  have hcount : ∀ ls : List String, (getResidences lib ls).2
      = ((ls.countP (fun l => (stringsFields l).length == 1) : ℕ) : Int) := by
    intro ls
    simp [getResidences, scanLines_frameCount, initialState]
  refine ⟨hcount lines, hb.2.2, hb.2.1, ?_, ?_⟩
  · intro hnone sep hsep
    rw [hcount, List.countP_append]
    have h0 : lines.countP (fun l => (stringsFields l).length == 1) = 0 := by
      rw [List.countP_eq_zero]
      intro l hl
      simpa using hnone l hl
    simp [h0, hsep]
  · intro htail
    apply getResidences_append_tail
    intro l hl
    cases hs : isSeparator l with
    | false => rfl
    | true => exact absurd ((isSeparator_iff l).mp hs) (htail l hl)

/-! ## Permissive parsing in `line2atom` -/

theorem digitsValue_nonneg (ds : List Char) (acc : Int) (h : 0 ≤ acc) :
    0 ≤ ds.foldl (fun acc c => acc * 10 + ((c.toNat - 48 : Nat) : Int)) acc := by
  induction ds generalizing acc with
  | nil => simpa using h
  | cons d ds ih =>
    rw [List.foldl_cons]
    apply ih
    have : (0 : Int) ≤ ((d.toNat - 48 : Nat) : Int) := Int.ofNat_nonneg _
    omega

theorem digitsValue_ge (ds : List Char) (acc : Int) (h : 0 ≤ acc) :
    acc ≤ ds.foldl (fun acc c => acc * 10 + ((c.toNat - 48 : Nat) : Int)) acc := by
  induction ds generalizing acc with
  | nil => simp
  | cons d ds ih =>
    rw [List.foldl_cons]
    have hd : (0 : Int) ≤ ((d.toNat - 48 : Nat) : Int) := Int.ofNat_nonneg _
    have := ih (acc * 10 + ((d.toNat - 48 : Nat) : Int)) (by omega)
    omega

/-- On digits only, the loop of `ParseUint` returns their value when it fits 64
bits, and the largest `uint64` with a range error when it does not. -/
theorem parseUintLoop_digits (ds : List Char) (hd : ds.all isDigit = true) (n : ℕ)
    (hn : n < 2 ^ 64) :
    (ds.foldl (fun acc c => acc * 10 + ((c.toNat - 48 : Nat) : Int)) (n : Int) < 2 ^ 64 →
      ((parseUintLoop ds n).1 : Int)
          = ds.foldl (fun acc c => acc * 10 + ((c.toNat - 48 : Nat) : Int)) (n : Int)
        ∧ (parseUintLoop ds n).2 = none)
    ∧ (2 ^ 64 ≤ ds.foldl (fun acc c => acc * 10 + ((c.toNat - 48 : Nat) : Int)) (n : Int) →
      parseUintLoop ds n = (2 ^ 64 - 1, some numError.outOfRange)) := by
  induction ds generalizing n with
  | nil =>
    refine ⟨fun _ => ⟨rfl, rfl⟩, ?_⟩
    intro h
    simp only [List.foldl_nil] at h
    omega
  | cons c cs ih =>
    simp only [List.all_cons, Bool.and_eq_true] at hd
    have hc := hd.1
    have hc9 : c.toNat - 48 ≤ 9 := by
      simp only [isDigit, Bool.and_eq_true, decide_eq_true_eq] at hc
      omega
    rw [List.foldl_cons]
    have hmono := digitsValue_ge cs ((n : Int) * 10 + ((c.toNat - 48 : Nat) : Int)) (by omega)
    unfold parseUintLoop
    simp only [hc, if_true]
    by_cases hcut : (2 ^ 64 - 1) / 10 + 1 ≤ n
    · simp only [hcut, if_true]
      refine ⟨fun h => ?_, fun _ => trivial⟩
      omega
    · simp only [hcut, if_false]
      have h10 : n * 10 % 2 ^ 64 = n * 10 := Nat.mod_eq_of_lt (by omega)
      simp only [h10]
      by_cases hwrap : n * 10 + (c.toNat - 48) < 2 ^ 64
      · have h1 : (n * 10 + (c.toNat - 48)) % 2 ^ 64 = n * 10 + (c.toNat - 48) :=
          Nat.mod_eq_of_lt hwrap
        have hno : ¬ (n * 10 + (c.toNat - 48) < n * 10 ∨ 2 ^ 64 - 1 < n * 10 + (c.toNat - 48)) := by
          omega
        simp only [h1, hno, if_false]
        have := ih hd.2 (n * 10 + (c.toNat - 48)) hwrap
        have hcast : (((n * 10 + (c.toNat - 48) : ℕ)) : Int)
            = (n : Int) * 10 + ((c.toNat - 48 : Nat) : Int) := by
          push_cast
          ring
        rw [hcast] at this
        exact this
      · have hyes : (n * 10 + (c.toNat - 48)) % 2 ^ 64 < n * 10
            ∨ 2 ^ 64 - 1 < (n * 10 + (c.toNat - 48)) % 2 ^ 64 := by
          left
          omega
        simp only [hyes, if_true]
        refine ⟨fun h => ?_, fun _ => trivial⟩
        omega

theorem parseUintLoop_error (cs : List Char) (n : ℕ) :
    (parseUintLoop cs n).2 = none
      ∨ parseUintLoop cs n = (0, some numError.invalid)
      ∨ parseUintLoop cs n = (2 ^ 64 - 1, some numError.outOfRange) := by
  induction cs generalizing n with
  | nil => exact Or.inl rfl
  | cons c cs ih =>
    unfold parseUintLoop
    by_cases hc : isDigit c = true
    · simp only [hc, if_true]
      by_cases hcut : (2 ^ 64 - 1) / 10 + 1 ≤ n
      · simp only [hcut, if_true]
        exact Or.inr (Or.inr trivial)
      · simp only [hcut, if_false]
        by_cases hw : (n * 10 % 2 ^ 64 + (c.toNat - 48)) % 2 ^ 64 < n * 10 % 2 ^ 64
            ∨ 2 ^ 64 - 1 < (n * 10 % 2 ^ 64 + (c.toNat - 48)) % 2 ^ 64
        · simp only [hw, if_true]
          exact Or.inr (Or.inr trivial)
        · simp only [hw, if_false]
          exact ih _
    · simp only [hc, Bool.false_eq_true, if_false]
      exact Or.inr (Or.inl trivial)

theorem parseUintLoop_not_digits (cs : List Char) (h : cs.all isDigit = false) (n : ℕ) :
    (parseUintLoop cs n).2 ≠ none := by
  rcases parseUintLoop_error cs n with e | e | e
  · exfalso
    induction cs generalizing n with
    | nil => simp at h
    | cons c cs ih =>
      unfold parseUintLoop at e
      by_cases hc : isDigit c = true
      · have hcs : cs.all isDigit = false := by
          simp only [List.all_cons, hc, Bool.true_and] at h
          exact h
        simp only [hc, if_true] at e
        by_cases hcut : (2 ^ 64 - 1) / 10 + 1 ≤ n
        · simp only [hcut, if_true] at e
          exact Option.noConfusion e
        · simp only [hcut, if_false] at e
          by_cases hw : (n * 10 % 2 ^ 64 + (c.toNat - 48)) % 2 ^ 64 < n * 10 % 2 ^ 64
              ∨ 2 ^ 64 - 1 < (n * 10 % 2 ^ 64 + (c.toNat - 48)) % 2 ^ 64
          · simp only [hw, if_true] at e
            exact Option.noConfusion e
          · simp only [hw, if_false] at e
            exact ih hcs _ e
      · simp [hc] at e
  · rw [e]
    simp
  · rw [e]
    simp

/-- On digits only, within the 18 bytes of the fast path of `Atoi`, the loop
returns their value, the accumulator never leaving the range of `int`. -/
theorem atoiFastLoop_digits (ds : List Char) (hd : ds.all isDigit = true) (n : Int) (k : ℕ)
    (h0 : 0 ≤ n) (hn : n < 10 ^ k) (hlen : ds.length + k ≤ 18) :
    atoiFastLoop ds n
        = some (ds.foldl (fun acc c => acc * 10 + ((c.toNat - 48 : Nat) : Int)) n)
    ∧ ds.foldl (fun acc c => acc * 10 + ((c.toNat - 48 : Nat) : Int)) n < 10 ^ 18 := by
  induction ds generalizing n k with
  | nil =>
    refine ⟨rfl, ?_⟩
    have : (10 : Int) ^ k ≤ 10 ^ 18 := pow_le_pow_right₀ (by norm_num) (by simpa using hlen)
    simp only [List.foldl_nil]
    omega
  | cons c cs ih =>
    simp only [List.all_cons, Bool.and_eq_true] at hd
    have hc := hd.1
    have hc9 : c.toNat - 48 ≤ 9 := by
      simp only [isDigit, Bool.and_eq_true, decide_eq_true_eq] at hc
      omega
    simp only [List.length_cons] at hlen
    have hk : (10 : Int) ^ (k + 1) ≤ 10 ^ 18 := pow_le_pow_right₀ (by norm_num) (by omega)
    rw [pow_succ] at hk
    have hlt : n * 10 + ((c.toNat - 48 : Nat) : Int) < 10 ^ k * 10 := by
      have : ((c.toNat - 48 : Nat) : Int) ≤ 9 := by exact_mod_cast hc9
      omega
    have hw : wrapInt64 (n * 10 + ((c.toNat - 48 : Nat) : Int))
        = n * 10 + ((c.toNat - 48 : Nat) : Int) :=
      wrapInt64_of_range _ (by omega) (by omega)
    unfold atoiFastLoop
    simp only [hc, if_true, hw, List.foldl_cons]
    exact ih hd.2 _ (k + 1) (by omega) (by rw [pow_succ]; exact hlt) (by omega)

theorem atoiFastLoop_not_digits (cs : List Char) (h : cs.all isDigit = false) (n : Int) :
    atoiFastLoop cs n = none := by
  induction cs generalizing n with
  | nil => simp at h
  | cons c cs ih =>
    unfold atoiFastLoop
    by_cases hc : isDigit c = true
    · have hcs : cs.all isDigit = false := by
        simp only [List.all_cons, hc, Bool.true_and] at h
        exact h
      simp only [hc, if_true]
      exact ih hcs _
    · simp [hc]

theorem length_le_utf8ByteSize (s : String) : s.data.length ≤ s.utf8ByteSize := by
  have key : ∀ cs : List Char, cs.length ≤ String.utf8ByteSize.go cs := by
    intro cs
    induction cs with
    | nil => simp [String.utf8ByteSize.go]
    | cons c cs ih =>
      have := Char.utf8Size_pos c
      simp only [String.utf8ByteSize.go, List.length_cons]
      omega
  exact key s.data

/-- The part of `ParseInt` after the sign, on a non-empty run of digits: the
value with its sign, brought into the range of `int64`, and a range error
exactly when it was outside. -/
theorem parseInt_of_digits (neg : Bool) (body : List Char) (hne : body.isEmpty = false)
    (hd : body.all isDigit = true) :
    parseIntBody neg body
      = (max (-(2 ^ 63)) (min (2 ^ 63 - 1)
            (if neg then -(body.foldl (fun acc c => acc * 10 + ((c.toNat - 48 : Nat) : Int)) 0)
             else body.foldl (fun acc c => acc * 10 + ((c.toNat - 48 : Nat) : Int)) 0)),
          if -(2 ^ 63) ≤ (if neg
                then -(body.foldl (fun acc c => acc * 10 + ((c.toNat - 48 : Nat) : Int)) 0)
                else body.foldl (fun acc c => acc * 10 + ((c.toNat - 48 : Nat) : Int)) 0)
              ∧ (if neg
                then -(body.foldl (fun acc c => acc * 10 + ((c.toNat - 48 : Nat) : Int)) 0)
                else body.foldl (fun acc c => acc * 10 + ((c.toNat - 48 : Nat) : Int)) 0)
                ≤ 2 ^ 63 - 1
          then none else some numError.outOfRange) := by
  unfold parseIntBody
  simp only
  have hU : strconvParseUint body = parseUintLoop body 0 := by
    unfold strconvParseUint
    simp [hne]
  obtain ⟨p1, p2⟩ := parseUintLoop_digits body hd 0 (by norm_num)
  simp only [Nat.cast_zero] at p1 p2
  have hv0 := digitsValue_nonneg body 0 (le_refl _)
  rw [hU]
  generalize body.foldl (fun acc c => acc * 10 + ((c.toNat - 48 : Nat) : Int)) 0 = v
    at p1 p2 hv0 ⊢
  by_cases hlt : v < 2 ^ 64
  · obtain ⟨e1, e2⟩ := p1 hlt
    generalize parseUintLoop body 0 = r at e1 e2 ⊢
    obtain ⟨un, er⟩ := r
    simp only at e1 e2
    subst e2
    have w1 : -(2 ^ 63) ≤ (un : Int) → (un : Int) < 2 ^ 63 → wrapInt64 (un : Int) = un :=
      fun h1 h2 => wrapInt64_of_range _ h1 h2
    have w2 : (un : Int) ≤ 2 ^ 63 → wrapInt64 (-(wrapInt64 (un : Int))) = -(un : Int) := by
      intro _
      unfold wrapInt64
      omega
    cases neg
    · simp only [Bool.not_false, Bool.true_and, Bool.false_and, Bool.false_eq_true, if_false,
        decide_eq_true_eq, reduceCtorEq]
      split_ifs <;>
        first
        | (exfalso; omega)
        | (rw [Prod.mk.injEq]
           refine ⟨?_, rfl⟩
           omega)
    · simp only [Bool.not_true, Bool.true_and, Bool.false_and, Bool.false_eq_true, if_false,
        decide_eq_true_eq, if_true, reduceCtorEq]
      split_ifs <;>
        first
        | (exfalso; omega)
        | (rw [Prod.mk.injEq]
           refine ⟨?_, rfl⟩
           omega)
  · have e := p2 (by omega)
    rw [e]
    cases neg
    · simp only [Bool.not_false, Bool.true_and, Bool.false_and, Bool.false_eq_true, if_false,
        decide_eq_true_eq, reduceCtorEq, Option.some.injEq]
      split_ifs <;>
        first
        | (exfalso; omega)
        | (rw [Prod.mk.injEq]
           refine ⟨?_, rfl⟩
           omega)
    · simp only [Bool.not_true, Bool.true_and, Bool.false_and, Bool.false_eq_true, if_false,
        decide_eq_true_eq, if_true, reduceCtorEq, Option.some.injEq]
      split_ifs <;>
        first
        | (exfalso; omega)
        | (rw [Prod.mk.injEq]
           refine ⟨?_, rfl⟩
           omega)

/-- The fast path of `Atoi` on a non-empty run of at most 18 digits: the value
with its sign, which is in the range of `int`, and no error. -/
theorem atoiFast_of_digits (neg : Bool) (body : List Char) (hd : body.all isDigit = true)
    (hlen : body.length ≤ 18) :
    atoiFast neg body
      = (max (-(2 ^ 63)) (min (2 ^ 63 - 1)
            (if neg then -(body.foldl (fun acc c => acc * 10 + ((c.toNat - 48 : Nat) : Int)) 0)
             else body.foldl (fun acc c => acc * 10 + ((c.toNat - 48 : Nat) : Int)) 0)),
          if -(2 ^ 63) ≤ (if neg
                then -(body.foldl (fun acc c => acc * 10 + ((c.toNat - 48 : Nat) : Int)) 0)
                else body.foldl (fun acc c => acc * 10 + ((c.toNat - 48 : Nat) : Int)) 0)
              ∧ (if neg
                then -(body.foldl (fun acc c => acc * 10 + ((c.toNat - 48 : Nat) : Int)) 0)
                else body.foldl (fun acc c => acc * 10 + ((c.toNat - 48 : Nat) : Int)) 0)
                ≤ 2 ^ 63 - 1
          then none else some numError.outOfRange) := by
  obtain ⟨e, hlt⟩ := atoiFastLoop_digits body hd 0 0 (le_refl _) (by norm_num) (by omega)
  have hv0 := digitsValue_nonneg body 0 (le_refl _)
  unfold atoiFast
  rw [e]
  simp only
  generalize body.foldl (fun acc c => acc * 10 + ((c.toNat - 48 : Nat) : Int)) 0 = v
    at hlt hv0 ⊢
  have w : wrapInt64 (-v) = -v := wrapInt64_of_range _ (by omega) (by omega)
  cases neg
  · simp only [Bool.false_eq_true, if_false]
    rw [if_pos (by omega), Prod.mk.injEq]
    exact ⟨by omega, rfl⟩
  · simp only [if_true, w]
    rw [if_pos (by omega), Prod.mk.injEq]
    exact ⟨by omega, rfl⟩

theorem atoiFast_error (neg : Bool) (body : List Char) :
    (atoiFast neg body).2 = none ∨ atoiFast neg body = (0, some numError.invalid) := by
  unfold atoiFast
  cases atoiFastLoop body 0 with
  | none => exact Or.inr rfl
  | some n => exact Or.inl rfl

theorem parseIntBody_error (neg : Bool) (body : List Char) :
    (parseIntBody neg body).2 = none
      ∨ parseIntBody neg body = (0, some numError.invalid)
      ∨ parseIntBody neg body = (2 ^ 63 - 1, some numError.outOfRange)
      ∨ parseIntBody neg body = (-(2 ^ 63), some numError.outOfRange) := by
  unfold parseIntBody
  simp only
  split_ifs <;>
    first
    | exact Or.inl rfl
    | exact Or.inr (Or.inl rfl)
    | exact Or.inr (Or.inr (Or.inl rfl))
    | exact Or.inr (Or.inr (Or.inr rfl))

theorem strconvParseUint_error (body : List Char) :
    (strconvParseUint body).2 = none
      ∨ strconvParseUint body = (0, some numError.invalid)
      ∨ strconvParseUint body = (2 ^ 64 - 1, some numError.outOfRange) := by
  unfold strconvParseUint
  split_ifs
  · exact Or.inr (Or.inl rfl)
  · exact parseUintLoop_error body 0

/-- When `ParseUint` reports an error, so does `ParseInt`. -/
theorem parseIntBody_not_digits (neg : Bool) (body : List Char)
    (h : (strconvParseUint body).2 ≠ none) : (parseIntBody neg body).2 ≠ none := by
  unfold parseIntBody
  simp only
  rcases strconvParseUint_error body with e | e | e
  · exact absurd e h
  · rw [e]
    simp
  · rw [e]
    cases neg <;> simp

theorem strconvParseUint_not_digits (body : List Char)
    (h : body.isEmpty = true ∨ body.all isDigit = false) :
    (strconvParseUint body).2 ≠ none := by
  unfold strconvParseUint
  by_cases he : body.isEmpty = true
  · simp [he]
  · rcases h with h | h
    · exact absurd h he
    · simp only [he, Bool.false_eq_true, if_false]
      exact parseUintLoop_not_digits body h 0

theorem atoiFast_not_digits (neg : Bool) (body : List Char) (h : body.all isDigit = false) :
    (atoiFast neg body).2 ≠ none := by
  unfold atoiFast
  rw [atoiFastLoop_not_digits body h 0]
  simp

/-- `Atoi` on a decimal integer literal (an optional sign, then one or more
digits): the value of the literal brought into the range of the 64-bit `int`,
and a range error exactly when the value was outside. -/
theorem Atoi_literal (s : String) (h : isIntLiteral s = true) :
    Atoi s = (max (-(2 ^ 63)) (min (2 ^ 63 - 1) (intLiteralValue s)),
      if -(2 ^ 63) ≤ intLiteralValue s ∧ intLiteralValue s ≤ 2 ^ 63 - 1 then none
      else some numError.outOfRange) := by
  unfold isIntLiteral intLiteralDigits at h
  unfold intLiteralValue intLiteralDigits Atoi strconvParseInt
  have hlen := length_le_utf8ByteSize s
  cases hd : s.data with
  | nil =>
    rw [hd] at h
    simp at h
  | cons c cs =>
    rw [hd] at h hlen
    simp only at h ⊢
    have hbl : (if (c.toNat == 45 || c.toNat == 43) = true then cs else c :: cs).length
        ≤ (c :: cs).length := by
      split_ifs <;> simp
    generalize (if (c.toNat == 45 || c.toNat == 43) = true then cs else c :: cs) = body
      at h hbl ⊢
    simp only [Bool.and_eq_true, Bool.not_eq_true'] at h
    obtain ⟨hne, hdig⟩ := h
    have hdig2 : body.all isDigit = true := hdig
    by_cases hfast : 0 < s.utf8ByteSize ∧ s.utf8ByteSize < 19
    · simp only [hfast, and_self, if_true, hne, Bool.and_false, Bool.false_eq_true, if_false]
      exact atoiFast_of_digits _ body hdig2 (by omega)
    · simp only [hfast, if_false]
      exact parseInt_of_digits _ body hne hdig2

/-- `Atoi` reports an error on every string that is not a decimal integer
literal. -/
theorem Atoi_not_literal (s : String) (h : isIntLiteral s = false) : (Atoi s).2 ≠ none := by
  unfold isIntLiteral intLiteralDigits at h
  unfold Atoi strconvParseInt
  cases hd : s.data with
  | nil =>
    simp only
    split_ifs <;> simp
  | cons c cs =>
    rw [hd] at h
    simp only at h ⊢
    have hbody : (c.toNat == 45 || c.toNat == 43) = false →
        (if (c.toNat == 45 || c.toNat == 43) = true then cs else c :: cs).isEmpty = false := by
      intro hs
      simp [hs]
    generalize (if (c.toNat == 45 || c.toNat == 43) = true then cs else c :: cs) = body
      at h hbody ⊢
    have hcase : body.isEmpty = true ∨ body.all isDigit = false := by
      by_cases he : body.isEmpty = true
      · exact Or.inl he
      · right
        have he2 : body.isEmpty = false := by simpa using he
        simp only [he2, Bool.not_false, Bool.true_and] at h
        exact h
    by_cases hfast : 0 < s.utf8ByteSize ∧ s.utf8ByteSize < 19
    · simp only [hfast, and_self, if_true]
      by_cases hs : ((c.toNat == 45 || c.toNat == 43) && body.isEmpty) = true
      · simp [hs]
      · simp only [hs, Bool.false_eq_true, if_false]
        rcases hcase with he | hnd
        · exfalso
          cases hsg : (c.toNat == 45 || c.toNat == 43) with
          | true => simp [hsg, he] at hs
          | false =>
            rw [hbody hsg] at he
            exact Bool.noConfusion he
        · exact atoiFast_not_digits _ body hnd
    · simp only [hfast, if_false]
      exact parseIntBody_not_digits _ body (strconvParseUint_not_digits body hcase)

/-- The value `Atoi` returns with an error: zero with a syntax error, the
largest or the smallest `int` with a range error. -/
theorem Atoi_error (s : String) :
    ((Atoi s).2 = some numError.invalid → (Atoi s).1 = 0)
    ∧ ((Atoi s).2 = some numError.outOfRange →
        (Atoi s).1 = 2 ^ 63 - 1 ∨ (Atoi s).1 = -(2 ^ 63)) := by
  have key : (Atoi s).2 = none ∨ Atoi s = (0, some numError.invalid)
      ∨ Atoi s = (2 ^ 63 - 1, some numError.outOfRange)
      ∨ Atoi s = (-(2 ^ 63), some numError.outOfRange) := by
    unfold Atoi strconvParseInt
    cases s.data with
    | nil =>
      simp only
      split_ifs <;> exact Or.inr (Or.inl rfl)
    | cons c cs =>
      simp only
      generalize (if (c.toNat == 45 || c.toNat == 43) = true then cs else c :: cs) = body
      by_cases hfast : 0 < s.utf8ByteSize ∧ s.utf8ByteSize < 19
      · simp only [hfast, and_self, if_true]
        by_cases hs : ((c.toNat == 45 || c.toNat == 43) && body.isEmpty) = true
        · rw [if_pos hs]
          exact Or.inr (Or.inl rfl)
        · simp only [hs, Bool.false_eq_true, if_false]
          rcases atoiFast_error (c.toNat == 45) body with e | e
          · exact Or.inl e
          · exact Or.inr (Or.inl e)
      · simp only [hfast, if_false]
        exact parseIntBody_error _ _
  rcases key with e | e | e | e
  · rw [e]
    exact ⟨fun h => Option.noConfusion h, fun h => Option.noConfusion h⟩
  · rw [e]
    exact ⟨fun _ => rfl, fun h => by simp at h⟩
  · rw [e]
    exact ⟨fun h => by simp at h, fun _ => Or.inl rfl⟩
  · rw [e]
    exact ⟨fun h => by simp at h, fun _ => Or.inr rfl⟩

/-! ## `strconv.ParseFloat` -/

theorem floatOfParts_error (p : floatParts) :
    (floatOfParts p).2 = none
      ∨ ∃ n, floatOfParts p = (F64.inf n, some numError.outOfRange) := by
  unfold floatOfParts
  simp only
  split
  · exact Or.inr ⟨_, rfl⟩
  · exact Or.inl rfl

/-- The value `ParseFloat` returns with an error: zero with a syntax error, an
infinity with a range error. -/
theorem strconvParseFloat_error (s : String) :
    ((strconvParseFloat s).2 = some numError.invalid → (strconvParseFloat s).1 = F64.zero)
    ∧ ((strconvParseFloat s).2 = some numError.outOfRange →
        (strconvParseFloat s).1 = F64.inf false ∨ (strconvParseFloat s).1 = F64.inf true) := by
  have key : (strconvParseFloat s).2 = none
      ∨ strconvParseFloat s = (F64.zero, some numError.invalid)
      ∨ ∃ n, strconvParseFloat s = (F64.inf n, some numError.outOfRange) := by
    unfold strconvParseFloat
    cases special s.data with
    | some r =>
      obtain ⟨val, n⟩ := r
      simp only
      split_ifs
      · exact Or.inr (Or.inl rfl)
      · exact Or.inl rfl
    | none =>
      simp only
      cases readFloat s.data with
      | none => exact Or.inr (Or.inl rfl)
      | some r =>
        obtain ⟨p, rest⟩ := r
        simp only
        split_ifs
        · exact Or.inr (Or.inl rfl)
        · rcases floatOfParts_error p with e | e
          · exact Or.inl e
          · exact Or.inr (Or.inr e)
  rcases key with e | e | ⟨n, e⟩
  · rw [e]
    exact ⟨fun h => Option.noConfusion h, fun h => Option.noConfusion h⟩
  · rw [e]
    exact ⟨fun _ => rfl, fun h => by simp at h⟩
  · rw [e]
    refine ⟨fun h => by simp at h, fun _ => ?_⟩
    cases n
    · exact Or.inl rfl
    · exact Or.inr rfl

/-! ## `line2atom` keeps what the parsers return -/

/-- C17, as stated, fails.  The identifier field `9223372036854775808` and the
coordinate field `1e400` are numeric literals out of range for `int` and for
`float64`; `strconv.Atoi` and `strconv.ParseFloat` report a range error for
them, and `line2atom`, which drops the errors, stores what they return with it:
the largest `int` and `+Inf`, not zero.  A literal below the range gives the
smallest `int`, and the identifier is not zero either when the out-of-range
digits are followed by a byte that is not a digit. -/
theorem C17_out_of_range_counterexample :
    (Atoi "9223372036854775808").2 = some numError.outOfRange
    ∧ (strconvParseFloat "1e400").2 = some numError.outOfRange
    ∧ (∃ a, line2atom (parseLib flatLib.sqrt flatLib.pow)
          ["9223372036854775808", "O", "1e400", "0.0", "0.0", "2"] = some a
        ∧ a.id = 2 ^ 63 - 1 ∧ a.id ≠ 0 ∧ a.x = F64.inf false ∧ a.x ≠ F64.zero)
    ∧ Atoi "-9223372036854775809" = (-(2 ^ 63), some numError.outOfRange)
    ∧ Atoi "99999999999999999999x" = (2 ^ 63 - 1, some numError.outOfRange)
    ∧ strconvParseFloat "-1e400" = (F64.inf true, some numError.outOfRange) :=
  ⟨by decide!, by decide!, ⟨_, rfl, by decide!, by decide!, by decide!, by decide!⟩,
    by decide!, by decide!, by decide!⟩

/-- C17, amended: on at least six fields `line2atom` never fails; the element
and the type label are fields 1 and 5 unchanged; the identifier and the
coordinates are the values `strconv.Atoi` and `strconv.ParseFloat` return for
fields 0 and 2, 3, 4, the error being dropped.  With a syntax error that value
is zero.  With a range error it is not: the identifier is `2 ^ 63 - 1` or
`-2 ^ 63`, the coordinate is `+Inf` or `-Inf`.  `Atoi` reports no error exactly
on a decimal integer literal (an optional sign, then one or more digits) whose
value is in the range of the 64-bit `int`, and the identifier is then that
value; on any decimal integer literal the identifier is the value brought into
that range. -/
theorem C17_line2atom_permissive (sqrt : F64 → F64) (pow : F64 → F64 → F64)
    (fields : List String) (h : 6 ≤ fields.length) :
    ∃ a, line2atom (parseLib sqrt pow) fields = some a
      ∧ a.element = fields.getD 1 "" ∧ a.atomType = fields.getD 5 ""
      ∧ a.id = (Atoi (fields.getD 0 "")).1
      ∧ ((Atoi (fields.getD 0 "")).2 = some numError.invalid → a.id = 0)
      ∧ ((Atoi (fields.getD 0 "")).2 = some numError.outOfRange →
          a.id = 2 ^ 63 - 1 ∨ a.id = -(2 ^ 63))
      ∧ ((Atoi (fields.getD 0 "")).2 = none ↔
          isIntLiteral (fields.getD 0 "") = true
            ∧ -(2 ^ 63) ≤ intLiteralValue (fields.getD 0 "")
            ∧ intLiteralValue (fields.getD 0 "") ≤ 2 ^ 63 - 1)
      ∧ ((Atoi (fields.getD 0 "")).2 = none → a.id = intLiteralValue (fields.getD 0 ""))
      ∧ (isIntLiteral (fields.getD 0 "") = true →
          a.id = max (-(2 ^ 63)) (min (2 ^ 63 - 1) (intLiteralValue (fields.getD 0 ""))))
      ∧ ∀ p ∈ [(a.x, fields.getD 2 ""), (a.y, fields.getD 3 ""), (a.z, fields.getD 4 "")],
          p.1 = (strconvParseFloat p.2).1
          ∧ ((strconvParseFloat p.2).2 = some numError.invalid → p.1 = F64.zero)
          ∧ ((strconvParseFloat p.2).2 = some numError.outOfRange →
              p.1 = F64.inf false ∨ p.1 = F64.inf true) := by
  obtain ⟨a, ha, h0, h1, h2, h3, h4, h5⟩ :=
    line2atom_of_length (parseLib sqrt pow) fields (by omega)
  have hid : a.id = (Atoi (fields.getD 0 "")).1 := h0
  have herr := Atoi_error (fields.getD 0 "")
  have hiff : (Atoi (fields.getD 0 "")).2 = none ↔
      isIntLiteral (fields.getD 0 "") = true
        ∧ -(2 ^ 63) ≤ intLiteralValue (fields.getD 0 "")
        ∧ intLiteralValue (fields.getD 0 "") ≤ 2 ^ 63 - 1 := by
    constructor
    · intro hn
      cases hl : isIntLiteral (fields.getD 0 "") with
      | false => exact absurd hn (Atoi_not_literal _ hl)
      | true =>
        rw [Atoi_literal _ hl] at hn
        simp only at hn
        by_contra hc
        rw [if_neg (fun hr => hc ⟨rfl, hr⟩)] at hn
        exact Option.noConfusion hn
    · intro ⟨hl, hr⟩
      rw [Atoi_literal _ hl]
      simp only
      rw [if_pos hr]
  refine ⟨a, ha, h1, h5, hid, ?_, ?_, hiff, ?_, ?_, ?_⟩
  · intro he
    rw [hid]
    exact herr.1 he
  · intro he
    rw [hid]
    exact herr.2 he
  · intro hn
    obtain ⟨hl, hr1, hr2⟩ := hiff.mp hn
    rw [hid, Atoi_literal _ hl]
    simp only
    omega
  · intro hl
    rw [hid, Atoi_literal _ hl]
  · intro p hp
    have hp2 : p.1 = (strconvParseFloat p.2).1 := by
      simp only [List.mem_cons, List.mem_singleton, List.not_mem_nil, or_false] at hp
      rcases hp with e | e | e
      · rw [e]
        exact h2
      · rw [e]
        exact h3
      · rw [e]
        exact h4
    have hf := strconvParseFloat_error p.2
    refine ⟨hp2, ?_, ?_⟩
    · intro he
      rw [hp2]
      exact hf.1 he
    · intro he
      rw [hp2]
      exact hf.2 he

/-- Witness of the amended C17: a record whose identifier and first coordinate
are out of range, whose second coordinate is not a number and whose third
coordinate is `-1.5`. -/
theorem C17_line2atom_permissive_witness :
    (6 : ℕ) ≤ ["9223372036854775808", "O", "1e400", "x", "-1.5", "2"].length
    ∧ ∃ a, line2atom (parseLib flatLib.sqrt flatLib.pow)
          ["9223372036854775808", "O", "1e400", "x", "-1.5", "2"] = some a
        ∧ a.element = "O" ∧ a.atomType = "2"
        ∧ (a.id = 2 ^ 63 - 1 ∨ a.id = -(2 ^ 63))
        ∧ (a.x = F64.inf false ∨ a.x = F64.inf true)
        ∧ a.y = F64.zero
        ∧ a.z = F64.fin (-3 / 2) := by
  obtain ⟨a, h1, h2, h3, _, _, h6, _, _, _, h10⟩ :=
    C17_line2atom_permissive flatLib.sqrt flatLib.pow
      ["9223372036854775808", "O", "1e400", "x", "-1.5", "2"] (by decide)
  have e0 : (Atoi "9223372036854775808").2 = some numError.outOfRange := by decide!
  have e1 : (strconvParseFloat "1e400").2 = some numError.outOfRange := by decide!
  have e2 : (strconvParseFloat "x").2 = some numError.invalid := by decide!
  have e3 : (strconvParseFloat "-1.5").1 = F64.fin (-3 / 2) := by decide!
  refine ⟨by decide, a, h1, h2, h3, h6 e0, ?_, ?_, ?_⟩
  · exact (h10 (a.x, "1e400") (by simp)).2.2 e1
  · exact (h10 (a.y, "x") (by simp)).2.1 e2
  · exact ((h10 (a.z, "-1.5") (by simp)).1).trans e3

/-! ## The open records are those of the last shell list -/

theorem mapLookup_closeResidences (f : Int) (L : List Int)
    (acc : List residence × List (Int × residence)) (k : Int) :
    mapLookup (closeResidences f L acc).2 k = if k ∈ L then none else mapLookup acc.2 k := by
  induction L generalizing acc with
  | nil => simp [closeResidences]
  | cons l L ih =>
    rw [closeResidences_cons, ih]
    simp only [mapLookup_mapDelete, List.mem_cons]
    by_cases h1 : k ∈ L
    · simp [h1]
    · by_cases h2 : k = l
      · simp [h2]
      · simp [h1, h2]

theorem separatorStep_keys (s : scanState)
    (h : ∀ k, (mapLookup s.currentResidences k).isSome = true ↔ k ∈ s.lastShellOxygens) :
    ∀ k, (mapLookup (separatorStep s).currentResidences k).isSome = true
      ↔ k ∈ (separatorStep s).lastShellOxygens := by
  intro k
  obtain ⟨_, f2, _, f4⟩ := separatorStep_fields s
  rw [f2, f4, mapLookup_closeResidences, mapLookup_openResidences]
  by_cases hL : k ∈ leavingAtoms s.lastShellOxygens s.currentShellOxygens
  · simp only [hL, if_true, Option.isSome_none, Bool.false_eq_true, false_iff]
    exact (mem_leavingAtoms.mp hL).2
  · simp only [hL, if_false]
    by_cases hE : k ∈ enteringAtoms s.lastShellOxygens s.currentShellOxygens
    · simp only [hE, if_true, Option.isSome_some, true_iff]
      exact (mem_enteringAtoms.mp hE).1
    · simp only [hE, if_false]
      rw [h k]
      constructor
      · intro hk
        by_contra hc
        exact hL (mem_leavingAtoms.mpr ⟨hk, hc⟩)
      · intro hk
        by_contra hc
        exact hE (mem_enteringAtoms.mpr ⟨hk, hc⟩)

theorem scanLines_keys (lib : FloatLib) (lines : List String) (s : scanState)
    (h : ∀ k, (mapLookup s.currentResidences k).isSome = true ↔ k ∈ s.lastShellOxygens) :
    ∀ k, (mapLookup (scanLines lib s lines).currentResidences k).isSome = true
      ↔ k ∈ (scanLines lib s lines).lastShellOxygens := by
  induction lines generalizing s with
  | nil => exact h
  | cons line rest ih =>
    have hcons : scanLines lib s (line :: rest) = scanLines lib (scanLine lib s line) rest := by
      simp [scanLines]
    rw [hcons]
    apply ih
    cases hs : isSeparator line with
    | true =>
      rw [scanLine_of_isSeparator lib s line hs]
      exact separatorStep_keys s h
    | false =>
      obtain ⟨_, e2, _, e4⟩ := scanLine_of_not_isSeparator lib s line hs
      rw [e2, e4]
      exact h

/-- C18: at every point of a run of `getResidences`, hence after every
frame-separator step, the identifiers with an open record are exactly those
of `lastShellOxygens`.  When no frame's shell list repeats an identifier, the
closing loop of the next separator finds an open record for every leaving
identifier, with that identifier as `atomID` and `firstFrame ≥ 1`, and
completes exactly these records; so every completed record has `firstFrame ≥ 1`
and the identifier of its leave event as `atomID`: the zero-valued default is
never used. -/
theorem C18_open_records_match_shell (lib : FloatLib) (lines : List String) :
    (∀ k, (mapLookup (scanLines lib initialState lines).currentResidences k).isSome = true
        ↔ k ∈ (scanLines lib initialState lines).lastShellOxygens)
    ∧ ((∀ l ∈ shellLists lib lines, l.Nodup) →
        (∀ l ∈ (scanLines lib initialState lines).lastShellOxygens,
            ∃ r, mapLookup (scanLines lib initialState lines).currentResidences l = some r
              ∧ r.atomID = l ∧ 1 ≤ r.firstFrame)
        ∧ (∀ cur : List Int,
            (closeResidences ((scanLines lib initialState lines).frameCount + 1)
              (leavingAtoms (scanLines lib initialState lines).lastShellOxygens cur)
              ((scanLines lib initialState lines).completedResidences,
                openResidences ((scanLines lib initialState lines).frameCount + 1)
                  (enteringAtoms (scanLines lib initialState lines).lastShellOxygens cur)
                  (scanLines lib initialState lines).currentResidences)).1
            = (scanLines lib initialState lines).completedResidences
              ++ (leavingAtoms (scanLines lib initialState lines).lastShellOxygens cur).map
                  (fun l =>
                    completeResidence ((scanLines lib initialState lines).frameCount + 1)
                      (scanLines lib initialState lines).currentResidences l))
        ∧ (∀ r ∈ (getResidences lib lines).1, 1 ≤ r.firstFrame)
        ∧ (getResidences lib lines).1.map (fun r => (r.atomID, r.lastFrame))
            = leaveEvents (shellLists lib lines)) := by
  refine ⟨scanLines_keys lib lines initialState (by simp [initialState, mapLookup]), ?_⟩
  intro hS
  obtain ⟨s1, s2, s3, s4⟩ :=
    scanLines_sameTracker lib lines initialState initialState ⟨rfl, rfl, rfl, rfl⟩
  obtain ⟨hfc, hlast, hopen, hkeys, hdone, hev⟩ := trackShells_invariant _ hS
  have hS2 : shellTrace lib initialState lines = shellLists lib lines := rfl
  rw [hS2] at s1 s2 s3 s4
  rw [← s1] at hlast
  rw [← s2] at hopen hkeys
  have hfound : ∀ l ∈ (scanLines lib initialState lines).lastShellOxygens,
      ∃ r, mapLookup (scanLines lib initialState lines).currentResidences l = some r
        ∧ r.atomID = l ∧ 1 ≤ r.firstFrame := by
    intro l hl
    rw [hlast] at hl
    obtain ⟨r, hr⟩ := hkeys l hl
    obtain ⟨a1, _, a3⟩ := hopen l r hr
    exact ⟨r, hr, a1, a3.1⟩
  refine ⟨hfound, ?_, ?_, ?_⟩
  · intro cur
    have hnd : (leavingAtoms (scanLines lib initialState lines).lastShellOxygens cur).Nodup := by
      rw [leavingAtoms_eq_filter, hlast]
      exact (shellAt_nodup _ hS _).filter _
    rw [(closeResidences_nodup _ _ hnd _).1]
    congr 1
    apply List.map_congr_left
    intro l hl
    apply completeResidence_congr
    rw [mapLookup_openResidences]
    have : l ∉ enteringAtoms (scanLines lib initialState lines).lastShellOxygens cur :=
      fun hE => (mem_enteringAtoms.mp hE).2 (mem_leavingAtoms.mp hl).1
    simp [this]
  · intro r hr
    have hr2 : r ∈ (trackShells initialState (shellLists lib lines)).completedResidences := by
      rw [← s3]
      exact hr
    exact (hdone r hr2).2.2.1.1
  · rw [← hev, ← s3]
    rfl

/-! ## The pipeline drops no completed residence -/

/-- The bottom and the top of bin `i` are finite and at least `i * binWidth`,
respectively `(i + 1) * binWidth`, up to three roundings, for every `i` in the
range of the 64-bit `int`. -/
theorem newBin_lower_bounds (i : ℕ) (hi : i ≤ 2 ^ 63) :
    ∃ b t : ℚ, (newBin (i : Int)).binBottom = F64.fin b ∧ (newBin (i : Int)).binTop = F64.fin t
      ∧ (i : ℚ) * (7427640235712282 / 2 ^ 90) * (1 - 1 / 2 ^ 53) ^ 2 ≤ b
      ∧ (b + 7427640235712282 / 2 ^ 90) * (1 - 1 / 2 ^ 53) ≤ t := by
  have hiq : (i : ℚ) ≤ 2 ^ 63 := by exact_mod_cast hi
  have hi0 : (0 : ℚ) ≤ (i : ℚ) := Nat.cast_nonneg i
  have hbottom : ∃ b : ℚ, F64.mul (F64.ofInt (i : Int)) binWidth = F64.fin b
      ∧ (i : ℚ) * (7427640235712282 / 2 ^ 90) * (1 - 1 / 2 ^ 53) ^ 2 ≤ b
      ∧ b ≤ (i : ℚ) * (7427640235712282 / 2 ^ 90) * (1 + 1 / 2 ^ 53) ^ 2 := by
    rw [binWidth_val]
    unfold F64.ofInt
    rcases Nat.eq_zero_or_pos i with h0 | hpos
    · subst h0
      refine ⟨0, ?_, by simp, by simp⟩
      simp [F64.round_zero, F64.mul]
    · have h1q : (1 : ℚ) ≤ (i : ℚ) := by exact_mod_cast hpos
      obtain ⟨r0, hr0, a1, a2⟩ := F64.round_error_mid (i : ℚ)
        (le_trans (by norm_num) h1q) (le_trans hiq (by norm_num))
      have hcast : (((i : ℕ) : ℤ) : ℚ) = (i : ℚ) := Int.cast_natCast i
      rw [hcast, hr0]
      simp only [F64.mul]
      obtain ⟨r1, hr1, c1, c2⟩ := F64.round_error_mid (r0 * (0x1a636641c4df1a / 2 ^ 90))
        (by linarith) (by linarith)
      exact ⟨r1, hr1, by linarith, by linarith⟩
  obtain ⟨b, hb, b1, b2⟩ := hbottom
  have hb0 : 0 ≤ b := by linarith
  have hbu : b ≤ 2 ^ 30 := by linarith
  obtain ⟨t, ht, t1, _⟩ := F64.round_error_mid (b + 7427640235712282 / 2 ^ 90)
    (by linarith) (by linarith)
  refine ⟨b, t, ?_, ?_, b1, t1⟩
  · simp only [newBin]
    exact hb
  · simp only [newBin]
    rw [hb, binWidth_val]
    simp only [F64.add]
    have : (b + 0x1a636641c4df1a / 2 ^ 90) = (b + 7427640235712282 / 2 ^ 90) := by norm_num
    rw [this]
    exact ht

/-- The residence time of a stay of `k` frames, `1 ≤ k ≤ 2 ^ 63`: finite,
non-negative and `k * frameTime` up to two roundings. -/
theorem residenceTime_bounds (k : ℕ) (hk1 : 1 ≤ k) (hk : k ≤ 2 ^ 63) :
    ∃ t : ℚ, F64.mul (F64.ofInt (k : Int)) frameTime = F64.fin t
      ∧ 0 ≤ t ∧ t ≤ (k : ℚ) * (0x119799812dea11 / 2 ^ 91) * (1 + 1 / 2 ^ 53) ^ 2 := by
  have hkq : (k : ℚ) ≤ 2 ^ 63 := by exact_mod_cast hk
  have h1q : (1 : ℚ) ≤ (k : ℚ) := by exact_mod_cast hk1
  rw [frameTime_val]
  unfold F64.ofInt
  obtain ⟨r0, hr0, a1, a2⟩ := F64.round_error_mid (k : ℚ)
    (le_trans (by norm_num) h1q) (le_trans hkq (by norm_num))
  have hcast : (((k : ℕ) : ℤ) : ℚ) = (k : ℚ) := Int.cast_natCast k
  rw [hcast, hr0]
  simp only [F64.mul]
  obtain ⟨r1, hr1, c1, c2⟩ := F64.round_error_mid (r0 * (0x119799812dea11 / 2 ^ 91))
    (by linarith) (by linarith)
  exact ⟨r1, hr1, by linarith, by linarith⟩

theorem residenceTime_lt_lastTop (k m : ℕ) (hk1 : 1 ≤ k) (hkm : k ≤ m + 1)
    (hm : m + 1 ≤ 2 ^ 63) :
    F64.le (F64.fin 0) (F64.mul (F64.ofInt (k : Int)) frameTime) = true
    ∧ F64.lt (F64.mul (F64.ofInt (k : Int)) frameTime) (newBin (m : Int)).binTop = true
    ∧ F64.lt (F64.mul (F64.ofInt (k : Int)) frameTime)
        (F64.mul (F64.ofInt ((m + 1 : ℕ) : Int)) binWidth) = true := by
  obtain ⟨t, ht, t0, t1⟩ := residenceTime_bounds k hk1 (by omega)
  obtain ⟨b, T, _, hT, b1, T1⟩ := newBin_lower_bounds m (by omega)
  obtain ⟨b', _, hb', _, b1', _⟩ := newBin_lower_bounds (m + 1) hm
  have hb'' : F64.mul (F64.ofInt ((m + 1 : ℕ) : Int)) binWidth = F64.fin b' := hb'
  rw [ht, hT, hb'']
  have hkq : (k : ℚ) ≤ (m : ℚ) + 1 := by exact_mod_cast hkm
  have hm0 : (0 : ℚ) ≤ (m : ℚ) := Nat.cast_nonneg m
  have hmq : (m : ℚ) + 1 ≤ 2 ^ 63 := by exact_mod_cast hm
  have hc : ((m + 1 : ℕ) : ℚ) = (m : ℚ) + 1 := by push_cast; ring
  rw [hc] at b1'
  simp only [F64.le, F64.lt, decide_eq_true_eq]
  refine ⟨t0, ?_, ?_⟩
  · linarith
  · linarith

/-- C19: for every line stream whose frame count and whose number of completed
residences (the length of a slice) are in the range of the 64-bit `int`, the
histogram computed by `main` drops no completed residence: the sum of all bin
counts equals the number of completed residences, because every residence time
is non-negative, strictly below `float64(frameCount) * binWidth` and strictly
below the top of the last bin. -/
theorem C19_pipeline_counts_every_residence (lib : FloatLib) (lines : List String)
    (hbound : (getResidences lib lines).2 < 2 ^ 63)
    (hlen : ((getResidences lib lines).1.length : Int) < 2 ^ 63) :
    ∃ bins0 bins, generateBins (getResidences lib lines).2 = some bins0
      ∧ mainHistogram lib lines = some bins
      ∧ bins = doStatistics (getResidences lib lines).1 bins0
      ∧ binCount bins = ((getResidences lib lines).1.length : Int)
      ∧ ∀ r ∈ (getResidences lib lines).1,
          F64.le (F64.fin 0) r.residenceTime = true
          ∧ F64.lt r.residenceTime
              (F64.mul (F64.ofInt (getResidences lib lines).2) binWidth) = true
          ∧ ∃ j, firstBin r.residenceTime bins0 = some j := by
  have hb := scanLines_frameBounds lib lines initialState (le_refl _)
    (by simp [initialState, mapLookup]) (by simp [initialState])
  have hw := scanLines_wellFormed lib lines initialState (by simp [initialState])
    (by simp [initialState, mapLookup]) (by simp [initialState])
  have hn0 : 0 ≤ (getResidences lib lines).2 := hb.1
  have hgen := generateBins_of_nonneg _ hn0
  have hrec : ∀ r ∈ (getResidences lib lines).1,
      F64.le (F64.fin 0) r.residenceTime = true
      ∧ F64.lt r.residenceTime
          (F64.mul (F64.ofInt (getResidences lib lines).2) binWidth) = true
      ∧ ∃ j, firstBin r.residenceTime
          ((List.range (getResidences lib lines).2.toNat).map
            (fun (i : Nat) => newBin (i : Int))) = some j := by
    intro r hr
    obtain ⟨f0, f1, f2⟩ := hb.2.2 r hr
    obtain ⟨_, w2⟩ := hw r hr
    obtain ⟨k, hk⟩ : ∃ k : ℕ, r.lastFrame - r.firstFrame = (k : Int) :=
      ⟨(r.lastFrame - r.firstFrame).toNat, by omega⟩
    obtain ⟨m, hm⟩ : ∃ m : ℕ, (getResidences lib lines).2 = ((m + 1 : ℕ) : Int) :=
      ⟨((getResidences lib lines).2 - 1).toNat, by
        have : r.lastFrame ≤ (getResidences lib lines).2 := f2
        push_cast
        omega⟩
    have hk1 : 1 ≤ k := by omega
    have hkm : k ≤ m + 1 := by
      have : r.lastFrame ≤ (getResidences lib lines).2 := f2
      omega
    have hm50 : m + 1 ≤ 2 ^ 63 := by
      have : (((m + 1 : ℕ) : Int)) ≤ 2 ^ 63 := by rw [← hm]; exact le_of_lt hbound
      exact_mod_cast this
    obtain ⟨g1, g2, g3⟩ := residenceTime_lt_lastTop k m hk1 hkm hm50
    rw [w2, hk, hm]
    refine ⟨g1, g3, ?_⟩
    have hlast := generateBins_getLast? _ _ hgen (by rw [hm]; push_cast; omega)
    have hlast2 : (getResidences lib lines).2 - 1 = (m : Int) := by
      rw [hm]
      push_cast
      omega
    rw [hlast2, hm] at hlast
    cases hfb : firstBin (F64.mul (F64.ofInt (k : Int)) frameTime)
        ((List.range (((m + 1 : ℕ) : Int)).toNat).map (fun (i : Nat) => newBin (i : Int))) with
    | some j => exact ⟨j, rfl⟩
    | none =>
      have := (firstBin_eq_none_iff _ _).mp hfb _ (List.mem_of_getLast?_eq_some hlast)
      rw [g2] at this
      exact Bool.noConfusion this
  refine ⟨_, _, hgen, by simp [mainHistogram, hgen], rfl, ?_, hrec⟩
  rw [binCount_doStatistics _ _
      (fun b hb => le_of_eq (generateBins_count _ _ hgen b hb).symm)
      (by rw [generateBins_binCount _ _ hgen, zero_add]; exact hlen),
    generateBins_binCount _ _ hgen, zero_add]
  congr 1
  rw [List.filter_eq_self.mpr]
  intro r hr
  obtain ⟨_, _, j, hj⟩ := hrec r hr
  simp [hj]

/-- Witness of C19 on the sample trajectory: three bins, two completed
residences, both counted. -/
theorem C19_pipeline_counts_every_residence_witness :
    (getResidences flatLib sampleLines).2 < 2 ^ 63
    ∧ ((getResidences flatLib sampleLines).1.length : Int) < 2 ^ 63
    ∧ (mainHistogram flatLib sampleLines).map (fun bins => bins.map (fun b => b.count))
        = some [2, 0, 0]
    ∧ ∃ bins0 bins, generateBins (getResidences flatLib sampleLines).2 = some bins0
        ∧ mainHistogram flatLib sampleLines = some bins
        ∧ bins = doStatistics (getResidences flatLib sampleLines).1 bins0
        ∧ binCount bins = ((getResidences flatLib sampleLines).1.length : Int)
        ∧ ∀ r ∈ (getResidences flatLib sampleLines).1,
            F64.le (F64.fin 0) r.residenceTime = true
            ∧ F64.lt r.residenceTime
                (F64.mul (F64.ofInt (getResidences flatLib sampleLines).2) binWidth) = true
            ∧ ∃ j, firstBin r.residenceTime bins0 = some j :=
  ⟨by rw [sample_getResidences]; norm_num, by rw [sample_getResidences]; norm_num,
    by decide!,
    C19_pipeline_counts_every_residence flatLib sampleLines
      (by rw [sample_getResidences]; norm_num) (by rw [sample_getResidences]; norm_num)⟩

/-! ## What `doStatistics` may change -/

theorem countInFirstBin_pairwise (t : F64) (bins : List bin) :
    List.Forall₂
      (fun b c : bin => c.binBottom = b.binBottom ∧ c.binCenter = b.binCenter
        ∧ c.binTop = b.binTop)
      bins (countInFirstBin t bins) := by
  induction bins with
  | nil => exact List.Forall₂.nil
  | cons b bs ih =>
    unfold countInFirstBin
    by_cases h : F64.lt t b.binTop = true
    · simp only [h, if_true]
      refine List.Forall₂.cons ⟨rfl, rfl, rfl⟩ ?_
      exact List.forall₂_same.mpr (fun x _ => ⟨rfl, rfl, rfl⟩)
    · simp only [h, if_false, Bool.false_eq_true]
      exact List.Forall₂.cons ⟨rfl, rfl, rfl⟩ ih

theorem framePairwise_trans (l1 l2 l3 : List bin)
    (h12 : List.Forall₂
      (fun b c : bin => c.binBottom = b.binBottom ∧ c.binCenter = b.binCenter
        ∧ c.binTop = b.binTop) l1 l2)
    (h23 : List.Forall₂
      (fun b c : bin => c.binBottom = b.binBottom ∧ c.binCenter = b.binCenter
        ∧ c.binTop = b.binTop) l2 l3) :
    List.Forall₂
      (fun b c : bin => c.binBottom = b.binBottom ∧ c.binCenter = b.binCenter
        ∧ c.binTop = b.binTop) l1 l3 := by
  induction h12 generalizing l3 with
  | nil =>
    cases h23
    exact List.Forall₂.nil
  | cons hab _ ih =>
    cases h23 with
    | cons hbc htl =>
      exact List.Forall₂.cons
        ⟨hbc.1.trans hab.1, hbc.2.1.trans hab.2.1, hbc.2.2.trans hab.2.2⟩
        (ih _ htl)

theorem foldl_countInFirstBin_pairwise (residences : List residence) (bins : List bin) :
    List.Forall₂
      (fun b c : bin => c.binBottom = b.binBottom ∧ c.binCenter = b.binCenter
        ∧ c.binTop = b.binTop)
      bins (residences.foldl (fun bs r => countInFirstBin r.residenceTime bs) bins) := by
  induction residences generalizing bins with
  | nil => exact List.forall₂_same.mpr (fun x _ => ⟨rfl, rfl, rfl⟩)
  | cons r rs ih =>
    rw [List.foldl_cons]
    exact framePairwise_trans _ _ _ (countInFirstBin_pairwise _ bins) (ih _)

/-- One pass of the scan, bin by bin: the bin at which the scan stops is
incremented, every other bin is kept. -/
theorem countInFirstBin_getElem? (t : F64) (bins : List bin) (i : ℕ) :
    (countInFirstBin t bins)[i]?
      = (bins[i]?).map (fun b => if firstBin t bins = some i then incrementCount b else b) := by
  rw [countInFirstBin_eq]
  cases hfb : firstBin t bins with
  | none => simp
  | some j =>
    by_cases hji : j = i
    · subst hji
      simp [List.getElem?_modify_eq]
    · rw [List.getElem?_modify_ne _ _ hji]
      simp [hji]

/-- Bin `i` after all records: incremented once for every record whose scan
stops at `i`. -/
theorem foldl_countInFirstBin_getElem? (residences : List residence) (bins0 bins : List bin)
    (h : bins.map (fun b => b.binTop) = bins0.map (fun b => b.binTop)) (i : ℕ) :
    (residences.foldl (fun bs r => countInFirstBin r.residenceTime bs) bins)[i]?
      = (bins[i]?).map
          (incrementCount^[(residences.filter
            (fun r => firstBin r.residenceTime bins0 == some i)).length]) := by
  induction residences generalizing bins with
  | nil => simp
  | cons r rs ih =>
    rw [List.foldl_cons, ih _ ((countInFirstBin_tops _ _).trans h), countInFirstBin_getElem?,
      firstBin_congr _ bins bins0 h, List.filter_cons, Option.map_map]
    by_cases hfb : firstBin r.residenceTime bins0 = some i
    · simp only [hfb, if_true, beq_self_eq_true, List.length_cons]
      rfl
    · have hb : (firstBin r.residenceTime bins0 == some i) = false := by simpa using hfb
      simp only [hfb, if_false, hb, Bool.false_eq_true]
      rfl

theorem iterate_incrementCount (k : ℕ) (b : bin)
    (hb : -(2 ^ 63) ≤ b.count ∧ b.count < 2 ^ 63) :
    incrementCount^[k] b = { b with count := wrapInt64 (b.count + (k : Int)) } := by
  induction k with
  | zero => simp [wrapInt64_of_range _ hb.1 hb.2]
  | succ k ih =>
    rw [Function.iterate_succ_apply', ih]
    simp only [incrementCount, wrapInt64_succ]
    have : b.count + (k : Int) + 1 = b.count + ((k + 1 : ℕ) : Int) := by
      push_cast
      ring
    rw [this]

/-- C20, as stated, fails: the claim covers every bin list, and the increment
is done in the 64-bit `int`.  A bin that comes in with the count `2 ^ 63 - 1`
and receives one record goes out with the count `-2 ^ 63`, below its input
value. -/
theorem C20_count_wraps_counterexample :
    (doStatistics [residence.mk 10 1 2 (F64.mul (F64.ofInt 1) frameTime)]
        [{ newBin 0 with count := 2 ^ 63 - 1 }]).map (fun b => b.count) = [-(2 ^ 63)]
    ∧ ¬ List.Forall₂
        (fun b c : bin => c.binBottom = b.binBottom ∧ c.binCenter = b.binCenter
          ∧ c.binTop = b.binTop ∧ b.count ≤ c.count)
        [{ newBin 0 with count := 2 ^ 63 - 1 }]
        (doStatistics [residence.mk 10 1 2 (F64.mul (F64.ofInt 1) frameTime)]
          [{ newBin 0 with count := 2 ^ 63 - 1 }]) := by
  have e : doStatistics [residence.mk 10 1 2 (F64.mul (F64.ofInt 1) frameTime)]
      [{ newBin 0 with count := 2 ^ 63 - 1 }] = [{ newBin 0 with count := -(2 ^ 63) }] := by
    decide!
  rw [e]
  refine ⟨rfl, ?_⟩
  intro hf
  cases hf with
  | cons hbc _ =>
    have := hbc.2.2.2
    norm_num at this

/-- C20, amended: for every residence list and every bin list whose counts are
64-bit integers, `doStatistics` returns a list of the same length whose bins
have, position by position, the same `binBottom`, `binCenter` and `binTop` as
the input.  The count of bin `i` is its input value plus the number of records
whose scan stops at bin `i`, wrapped to the 64-bit `int`; it is at least its
input value whenever the input value plus the number of records stays below
`2 ^ 63`.  The total of the counts grows by at most the number of records, and,
when the counts are non-negative and their sum plus the number of records stays
below `2 ^ 63`, by exactly the number of records for which some bin top exceeds
the residence time. -/
theorem C20_doStatistics_frame (residences : List residence) (bins : List bin)
    (hrange : ∀ b ∈ bins, -(2 ^ 63) ≤ b.count ∧ b.count < 2 ^ 63) :
    (doStatistics residences bins).length = bins.length
    ∧ List.Forall₂
        (fun b c : bin => c.binBottom = b.binBottom ∧ c.binCenter = b.binCenter
          ∧ c.binTop = b.binTop)
        bins (doStatistics residences bins)
    ∧ (∀ (i : ℕ) (b : bin), bins[i]? = some b →
        ∃ c, (doStatistics residences bins)[i]? = some c
          ∧ c.count = wrapInt64 (b.count
              + ((residences.filter
                  (fun r => firstBin r.residenceTime bins == some i)).length : Int))
          ∧ (b.count + (residences.length : Int) < 2 ^ 63 → b.count ≤ c.count))
    ∧ binCount (doStatistics residences bins) - binCount bins ≤ (residences.length : Int)
    ∧ ((∀ b ∈ bins, 0 ≤ b.count) → binCount bins + (residences.length : Int) < 2 ^ 63 →
        binCount (doStatistics residences bins) - binCount bins
          = ((residences.filter
              (fun r => (firstBin r.residenceTime bins).isSome)).length : Int)) := by
  have hf : List.Forall₂
      (fun b c : bin => c.binBottom = b.binBottom ∧ c.binCenter = b.binCenter
        ∧ c.binTop = b.binTop)
      bins (doStatistics residences bins) := by
    rw [doStatistics_eq_foldl]
    exact foldl_countInFirstBin_pairwise residences bins
  have hc := binCount_doStatistics_le residences bins (fun b hb => (hrange b hb).1)
  have hle := List.length_filter_le
    (fun r => (firstBin r.residenceTime bins).isSome) residences
  refine ⟨hf.length_eq.symm, hf, ?_, by omega, ?_⟩
  · intro i b hb
    have hbr := hrange b (List.getElem?_mem hb)
    have hk := List.length_filter_le
      (fun r => firstBin r.residenceTime bins == some i) residences
    refine ⟨{ b with count := wrapInt64 (b.count
        + ((residences.filter
            (fun r => firstBin r.residenceTime bins == some i)).length : Int)) }, ?_, rfl, ?_⟩
    · rw [doStatistics_eq_foldl, foldl_countInFirstBin_getElem? residences bins bins rfl i, hb,
        Option.map_some', iterate_incrementCount _ b hbr]
    · intro hno
      show b.count ≤ wrapInt64 (b.count
        + ((residences.filter
            (fun r => firstBin r.residenceTime bins == some i)).length : Int))
      rw [wrapInt64_of_range _ (by omega) (by omega)]
      omega
  · intro h0 hs
    rw [binCount_doStatistics residences bins h0 hs]
    omega

/-- Witness of the amended C20 at the place of the counterexample: the count
`2 ^ 63 - 1` is a 64-bit integer. -/
theorem C20_doStatistics_frame_witness :
    (∀ b ∈ [{ newBin 0 with count := 2 ^ 63 - 1 }], -(2 ^ 63) ≤ b.count ∧ b.count < 2 ^ 63)
    ∧ ∃ c, (doStatistics [residence.mk 10 1 2 (F64.mul (F64.ofInt 1) frameTime)]
          [{ newBin 0 with count := 2 ^ 63 - 1 }])[0]? = some c
        ∧ c.count = wrapInt64 ((2 ^ 63 - 1)
            + (([residence.mk 10 1 2 (F64.mul (F64.ofInt 1) frameTime)].filter
                (fun r => firstBin r.residenceTime [{ newBin 0 with count := 2 ^ 63 - 1 }]
                  == some 0)).length : Int)) := by
  have hr : ∀ b ∈ [{ newBin 0 with count := 2 ^ 63 - 1 }],
      -(2 ^ 63) ≤ b.count ∧ b.count < 2 ^ 63 := by
    intro b hb
    rw [List.mem_singleton] at hb
    rw [hb]
    constructor <;> norm_num
  obtain ⟨c, h1, h2, _⟩ :=
    (C20_doStatistics_frame [residence.mk 10 1 2 (F64.mul (F64.ofInt 1) frameTime)]
      [{ newBin 0 with count := 2 ^ 63 - 1 }] hr).2.2.1 0 { newBin 0 with count := 2 ^ 63 - 1 }
      rfl
  exact ⟨hr, c, h1, h2⟩

end IonShell
